import Mathlib

/-!
Verification of the nan0web/db-fs document store (a filesystem-backed
document database) against its natural-language specification.

The development shallowly embeds the store:

* the path-resolution layer (`normalize`, `resolveSync`, the node `path`
  primitives used through the static `FS` wrapper class);
* a model of the native filesystem consumed through `FS`
  (`existsSync`, `statSync`, `readdirSync`, `mkdirSync`, `unlinkSync`,
  `rmdirSync`, `writeFileSync`, `appendFileSync`);
* the per-extension codecs of `src/file-system` (`txt`, `json`, `csv`);
* the `DBFS` store operations of `src/FS.js` (`statDocument`,
  `loadDocument`/`loadDocumentAs`, `saveDocument`, `writeDocument`,
  `dropDocument`, `ensureAccess`, `listDir`), instrumented with an event
  trace that records access checks, native filesystem touches and loader
  invocations.

The base `DB` class (path resolution, the `meta`/`data` caches'
constructor) and the format dispatcher `file-system/index.js` ship in a
separate package and are not part of the repository sources; where the
code is missing, definitions are modelled from the specification's words
and from the repository's own tests, and are marked
`Modelled from the spec:` in their doc comments.
-/

namespace DbFs

/-! ## Path resolution

Modelled from the spec: the PathResolver lives in the base DB class,
which is not under the repository's sources (only its tests,
src/DB.path.test.js, are).  Spec 4.1 fixes the behaviour: segments are
joined with "/", duplicate and "." separators collapse, ".." resolves
lexically and clamps (saturates) at the virtual root instead of
erroring, a leading "/" is root-relative, a trailing "/" marks a
directory, and a fully collapsed path is ".".
-/

/-- Character-level splitter (kernel-reducible replacement for the
built-in split): cuts a character list at every separator. -/
def splitOnChar (sep : Char) : List Char → List (List Char)
  | [] => [[]]
  | c :: rest =>
    let r := splitOnChar sep rest
    if c = sep then [] :: r
    else
      match r with
      | [] => [[c]]
      | g :: gs => (c :: g) :: gs

/-- Does s start with p? (kernel-reducible `String.startsWith`). -/
def strStartsWith (s p : String) : Bool := p.data.isPrefixOf s.data

/-- Does s end with p? (kernel-reducible `String.endsWith`). -/
def strEndsWith (s p : String) : Bool := p.data.isSuffixOf s.data

/-- ASCII lower-casing of one character. -/
def lowerChar (c : Char) : Char :=
  if 'A' ≤ c ∧ c ≤ 'Z' then Char.ofNat (c.toNat + 32) else c

/-- ASCII lower-casing (kernel-reducible `String.toLower`). -/
def strLower (s : String) : String := String.mk (s.data.map lowerChar)

/-- Splits a slash-separated URI into its raw segments. -/
def splitSlash (s : String) : List String := (splitOnChar '/' s.data).map String.mk

/-- Joins segments back with "/". -/
def joinSegs : List String → String
  | [] => ""
  | [s] => s
  | s :: rest => s ++ "/" ++ joinSegs rest

/-- A clean segment: neither empty nor "." nor "..". -/
def cleanSeg (s : String) : Bool := s ≠ "" && s ≠ "." && s ≠ ".."

/-- One step of lexical segment collapsing. -/
def collapseStep (acc : List String) (seg : String) : List String :=
  if seg = "" || seg = "." then acc
  else if seg = ".." then acc.dropLast
  else acc ++ [seg]

/-- Lexically collapses URI segments: empty and "." segments vanish, ".."
pops the previous segment and saturates at the start (the virtual-root
clamp of spec 4.1). -/
def collapse (segs : List String) : List String := segs.foldl collapseStep []

/-- Does the last argument carry a trailing slash (directory intent)? -/
def lastHasSlash (args : List String) : Bool :=
  strEndsWith (args.getLast?.getD "") "/"

/-- Modelled from the spec: `DB.normalize(...segments)` of the base class.
Joins the segments, collapses duplicate separators and "."/".."
lexically with the root clamp, strips a leading "/", keeps a trailing
"/", and returns "." for a fully collapsed path (spec 4.1, pinned by
src/DB.path.test.js). -/
def normalize (args : List String) : String :=
  let segs := collapse (args.flatMap splitSlash)
  if segs.isEmpty then "."
  else joinSegs segs ++ (if lastHasSlash args then "/" else "")

/-- Modelled from the spec: `DB.resolveSync(...args)` of the base class
(and `DB.resolve`, its async wrapper, which performs the same pure
computation).  A later argument with a leading "/" resets the
composition to the virtual root and the result keeps that leading "/";
".." saturates at the root (spec 4.1, pinned by src/DB.path.test.js:
resolve("api", "/users") is "/users", resolve("..", "_") is "_"). -/
def resolveSync (args : List String) : String :=
  let kept := args.foldl (fun acc a => if strStartsWith a "/" then [a] else acc ++ [a]) []
  let isAbs := strStartsWith (kept.headD "") "/"
  let segs := collapse (kept.flatMap splitSlash)
  if segs.isEmpty then (if isAbs then "/" else ".")
  else (if isAbs then "/" else "") ++ joinSegs segs

/-- The node `path.resolve` primitive behind `FS.resolve`: the rightmost
absolute argument wins, earlier relative arguments stack under it, ".."
resolves lexically and clamps at the filesystem root.  The process
working directory is modelled as "/". -/
def nodeResolve (args : List String) : String :=
  let kept := args.foldl (fun acc a => if strStartsWith a "/" then [a] else acc ++ [a]) ["/"]
  "/" ++ joinSegs (collapse (kept.flatMap splitSlash))

/-- Drops the common leading segments of two segment lists. -/
def dropCommon : List String → List String → List String × List String
  | a :: as, b :: bs => if a = b then dropCommon as bs else (a :: as, b :: bs)
  | as, bs => (as, bs)

/-- The node `path.relative` primitive behind `FS.relative`, on canonical
absolute paths: strip the common prefix, climb out of what remains of
the source, descend into what remains of the target. -/
def nodeRelative (src dst : String) : String :=
  let (fromRest, toRest) := dropCommon (collapse (splitSlash src)) (collapse (splitSlash dst))
  joinSegs (List.replicate fromRest.length ".." ++ toRest)

/-- The node `path.extname` primitive: extension of the last path
component, including the dot; a dotfile with no further dot and a
trailing-slash directory path yield "". -/
def nodeExtname (p : String) : String :=
  let base := ((splitSlash p).getLast?.getD "").toList
  match base.reverse.findIdx? (· = '.') with
  | none => ""
  | some j =>
    let i := base.length - 1 - j
    if i = 0 then "" else String.mk (base.drop i)

/-- Modelled from the spec: `DB.extname` of the base class lowercases the
node extension (src/DB.path.test.js: extname("file.Txt") = ".txt"). -/
def extname (p : String) : String := strLower (nodeExtname p)

/-! ## The native filesystem model

The minimal file-system capability interface of spec 6, as consumed
through the static `FS` wrapper class of src/FS.js.  A filesystem is a
finite association list from canonical absolute paths to nodes; the list
order is the native listing order.  The root directory "/" always
exists. -/

/-- A native filesystem node: a regular file with its text content, or a
directory. -/
inductive FNode where
  | file (content : String)
  | dir
deriving DecidableEq, Repr

/-- The native filesystem: entries keyed by canonical absolute path, in
native listing order. -/
structure FSState where
  entries : List (String × FNode)
deriving DecidableEq, Repr

/-- Looks a path up in the filesystem. -/
def fsFind (fs : FSState) (p : String) : Option FNode :=
  (fs.entries.find? (·.1 = p)).map (·.2)

/-- Does a path exist?  The filesystem root always does. -/
def fsExists (fs : FSState) (p : String) : Bool :=
  p = "/" || (fsFind fs p).isSome

/-- Is the path an existing directory?  The filesystem root always is. -/
def isDirAt (fs : FSState) (p : String) : Bool :=
  p = "/" || fsFind fs p = some .dir

/-- Is the path an existing regular file?  (The filesystem root is a
directory, never a file.) -/
def isFileAt (fs : FSState) (p : String) : Bool :=
  if p = "/" then false
  else
    match fsFind fs p with
    | some (.file _) => true
    | _ => false

/-- Content of the file at a path ("" if absent or a directory). -/
def fileContent (fs : FSState) (p : String) : String :=
  match fsFind fs p with
  | some (.file c) => c
  | _ => ""

/-- Replaces the node at a key in place, or appends a fresh entry. -/
def setEntry (es : List (String × FNode)) (k : String) (v : FNode) :
    List (String × FNode) :=
  if es.any (·.1 = k) then es.map (fun kv => if kv.1 = k then (k, v) else kv)
  else es ++ [(k, v)]

/-- Parent of a canonical absolute path ("/a/b" to "/a", "/a" to "/"). -/
def parentAbs (q : String) : String :=
  let s := (splitSlash q).dropLast.filter (· ≠ "")
  if s.isEmpty then "/" else "/" ++ joinSegs s

/-- Basename of a canonical absolute path. -/
def baseAbs (q : String) : String := ((splitSlash q).getLast?.getD "")

/-- The immediate children of a directory, in native listing order, as
(name, node) pairs: the `readdirSync(path, withFileTypes)` view. -/
def fsChildren (fs : FSState) (p : String) : List (String × FNode) :=
  (fs.entries.filter (fun kv => parentAbs kv.1 = p ∧ kv.1 ≠ "/")).map
    (fun kv => (baseAbs kv.1, kv.2))

/-- All nonempty prefixes of a canonical absolute path, shortest first
("/a/b" to ["/a", "/a/b"]). -/
def absPrefixes (p : String) : List String :=
  let segs := (splitSlash p).filter (· ≠ "")
  (List.range segs.length).map (fun i => "/" ++ joinSegs (segs.take (i + 1)))

/-- `mkdirSync(path, recursive)`: creates every missing directory along
the path; fails when a regular file stands anywhere on it. -/
def fsMkdirRec (fs : FSState) (p : String) : Except String FSState :=
  if (absPrefixes p).any (fun q => isFileAt fs q) then
    .error "ENOTDIR: file in the directory path"
  else
    .ok ⟨(absPrefixes p).foldl
      (fun es q => if (FSState.mk es |> fun s => fsExists s q) then es
                   else es ++ [(q, .dir)]) fs.entries⟩

/-- `writeFileSync`: replaces (or creates) the file's content; fails on a
directory target or a missing/non-directory parent. -/
def fsWriteFile (fs : FSState) (p : String) (content : String) :
    Except String FSState :=
  if isDirAt fs p then .error "EISDIR: target is a directory"
  else if ¬ isDirAt fs (parentAbs p) then .error "ENOENT: no parent directory"
  else .ok ⟨setEntry fs.entries p (.file content)⟩

/-- `appendFileSync`: appends to the file, creating it when missing;
fails on a directory target or a missing parent. -/
def fsAppendFile (fs : FSState) (p : String) (chunk : String) :
    Except String FSState :=
  if isDirAt fs p then .error "EISDIR: target is a directory"
  else if ¬ isDirAt fs (parentAbs p) then .error "ENOENT: no parent directory"
  else .ok ⟨setEntry fs.entries p (.file (fileContent fs p ++ chunk))⟩

/-- `unlinkSync`: removes a regular file; fails on directories and
missing paths. -/
def fsUnlink (fs : FSState) (p : String) : Except String FSState :=
  if isFileAt fs p then .ok ⟨fs.entries.filter (·.1 ≠ p)⟩
  else .error "ENOENT/EISDIR: not an existing regular file"

/-- `rmdirSync`: removes an existing empty directory. -/
def fsRmdir (fs : FSState) (p : String) : Except String FSState :=
  if p ≠ "/" ∧ isDirAt fs p ∧ (fsChildren fs p).isEmpty then
    .ok ⟨fs.entries.filter (·.1 ≠ p)⟩
  else .error "ENOENT/ENOTEMPTY: not an existing empty directory"

/-! ## JavaScript values

Documents, loader results and cache entries are JavaScript values.  The
embedding restricts JS numbers to integers: every number appearing in
the claims and in the repository's tests is integral, and IEEE floating
point is outside the scope of the model. -/

mutual
/-- A JavaScript value: null, boolean, (integral) number, string, array
or plain object (fields in insertion order).  Arrays and objects carry
their contents in the mutually-inductive list types below so that every
recursion over values is structural (and therefore evaluable by the
kernel); `jarr`/`jobj` and `toList` convert to ordinary lists. -/
inductive JSValue where
  | vnull
  | vbool (b : Bool)
  | vnum (n : Int)
  | vstr (s : String)
  | varr (elems : JSList)
  | vobj (fields : JSFields)

/-- The elements of a JS array. -/
inductive JSList where
  | nil
  | cons (head : JSValue) (tail : JSList)

/-- The fields of a JS object, in insertion order. -/
inductive JSFields where
  | nil
  | cons (key : String) (val : JSValue) (tail : JSFields)
end

instance : Inhabited JSValue := ⟨.vnull⟩

/-- Array value from an ordinary element list. -/
def jarrOf : List JSValue → JSList
  | [] => .nil
  | v :: vs => .cons v (jarrOf vs)

/-- Array value from an ordinary element list. -/
def jarr (vs : List JSValue) : JSValue := .varr (jarrOf vs)

/-- Object value from an ordinary field list. -/
def jobjOf : List (String × JSValue) → JSFields
  | [] => .nil
  | (k, v) :: fs => .cons k v (jobjOf fs)

/-- Object value from an ordinary field list. -/
def jobj (fs : List (String × JSValue)) : JSValue := .vobj (jobjOf fs)

/-- The ordinary-list view of a JS array's elements. -/
def JSList.toList : JSList → List JSValue
  | .nil => []
  | .cons v vs => v :: vs.toList

/-- The ordinary-list view of a JS object's fields. -/
def JSFields.toList : JSFields → List (String × JSValue)
  | .nil => []
  | .cons k v fs => (k, v) :: fs.toList

/-- Is this value the literal JS `false` (the loader/saver chains' no-match
sentinel and the data cache's not-loaded sentinel)? -/
def JSValue.isFalse : JSValue → Bool
  | .vbool false => true
  | _ => false

/-- A decimal digit? -/
def isDigitChar (c : Char) : Bool := '0' ≤ c && c ≤ '9'

/-- The character of a decimal digit. -/
def digitChar (n : Nat) : Char := Char.ofNat (48 + n)

/-- Decimal digits of a natural number, most significant first, prepended
to the accumulator.  Fuel-indexed so that recursion is structural and
the kernel can evaluate it; the fuel only needs to dominate the digit
count. -/
def natCharsF : Nat → Nat → List Char → List Char
  | 0, _, acc => acc
  | fuel + 1, n, acc =>
    if n < 10 then digitChar n :: acc
    else natCharsF fuel (n / 10) (digitChar (n % 10) :: acc)

/-- Decimal digits of a natural number, most significant first. -/
def natChars (n : Nat) (acc : List Char) : List Char := natCharsF (n + 1) n acc

/-- Decimal rendering of an integer, as JS stringifies its integral
numbers: optional minus sign, then digits. -/
def intChars (i : Int) : List Char :=
  if i < 0 then '-' :: natChars i.natAbs [] else natChars i.natAbs []

/-- Value of a decimal digit run. -/
def digitsVal (cs : List Char) : Nat :=
  cs.foldl (fun acc c => acc * 10 + (c.toNat - 48)) 0

/-- JS whitespace (the ASCII fragment: space, tab, line feed, carriage
return, vertical tab, form feed). -/
def isJsWs (c : Char) : Bool :=
  c = ' ' || c = '\t' || c = '\n' || c = '\r' ||
  c = Char.ofNat 11 || c = Char.ofNat 12

/-- `String.prototype.trim`, on the modelled whitespace set. -/
def jsTrim (s : String) : String :=
  String.mk (((s.data.dropWhile isJsWs).reverse.dropWhile isJsWs).reverse)

/-- An optionally-signed nonempty decimal digit run.  This is the
embedding's numeric grammar: the JS original recognises numbers via
parseFloat/Number (IEEE doubles); the model restricts to the integral
literals that actually occur in the repository's data and tests. -/
def intLike (cs : List Char) : Bool :=
  match cs with
  | '-' :: r => !r.isEmpty && r.all isDigitChar
  | '+' :: r => !r.isEmpty && r.all isDigitChar
  | _ => !cs.isEmpty && cs.all isDigitChar

/-- Integer value of an `intLike` character run. -/
def intOfChars (cs : List Char) : Int :=
  match cs with
  | '-' :: r => -(digitsVal r : Int)
  | '+' :: r => (digitsVal r : Int)
  | _ => (digitsVal cs : Int)

/-- JS string conversion of a value, as invoked implicitly by template
literals and Array.prototype.join.  (Arrays join with "," and objects
print as "[object Object]", per JS semantics; only strings and numbers
reach this conversion in the repository's code paths.) -/
def jsToString : JSValue → String
  | .vnull => "null"
  | .vbool true => "true"
  | .vbool false => "false"
  | .vnum n => String.mk (intChars n)
  | .vstr s => s
  | .varr _ => ""
  | .vobj _ => "[object Object]"

/-! ## The txt codec (src/file-system/txt.js) -/

/-- Splits characters at every occurrence of the delimiter dh :: dt
(fuel-indexed for structural recursion; fuel dominates input length). -/
def splitOnListF (dh : Char) (dt : List Char) : Nat → List Char → List Char → List String
  | _, [], cur => [String.mk cur.reverse]
  | 0, c :: rest, cur => [String.mk (cur.reverse ++ c :: rest)]
  | fuel + 1, c :: rest, cur =>
    if (dh :: dt).isPrefixOf (c :: rest) then
      String.mk cur.reverse :: splitOnListF dh dt fuel (rest.drop dt.length) []
    else
      splitOnListF dh dt fuel rest (c :: cur)

/-- `String.prototype.split` (an empty delimiter splits into characters). -/
def jsSplit (s : String) (delim : String) : List String :=
  match delim.data with
  | [] => s.data.map (fun c => String.mk [c])
  | dh :: dt => splitOnListF dh dt s.data.length s.data []

/-- `loadTXT(txtFile, delimiter, softError)`: reads the file and, when the
delimiter is nonempty (truthy), splits the content; read errors
propagate unless softError, in which case [] (respectively "") is
returned. -/
def loadTXT (fs : FSState) (txtFile : String) (delimiter : String := "\n")
    (softError : Bool := false) : Except String JSValue :=
  if isFileAt fs txtFile then
    let text := fileContent fs txtFile
    if delimiter = "" then .ok (.vstr text)
    else .ok (jarr ((jsSplit text delimiter).map .vstr))
  else if softError then
    (if delimiter = "" then .ok (.vstr "") else .ok (jarr []))
  else .error "ENOENT: no such file or directory"

/-- `saveTXT(txtFile, data, delimiter)`: joins arrays with the delimiter,
stringifies anything else, and writes the text; returns the content. -/
def saveTXT (fs : FSState) (txtFile : String) (data : JSValue)
    (delimiter : String := "\n") : Except String (FSState × String) :=
  let textContent :=
    match data with
    | .varr xs => joinWith (xs.toList.map jsToString) delimiter
    | d => jsToString d
  match fsWriteFile fs txtFile textContent with
  | .ok fs2 => .ok (fs2, textContent)
  | .error e => .error e
where
  /-- Array.prototype.join. -/
  joinWith : List String → String → String
    | [], _ => ""
    | [x], _ => x
    | x :: rest, d => x ++ d ++ joinWith rest d

/-! ## The csv codec (src/file-system/csv.js) -/

/-- `decodeValue(value)` of csv.js: trims the cell and coerces a
numeric-looking cell to a number (numeric grammar as in `intLike`). -/
def decodeValue (value : String) : JSValue :=
  let t := jsTrim value
  if intLike t.data then .vnum (intOfChars t.data) else .vstr t

/-- `decodeValue` as re-applied by loadCSV to already-decoded cells (JS
stringifies the argument before trimming). -/
def decodeAgain (v : JSValue) : JSValue := decodeValue (jsToString v)

/-- The character machine of `parseCSV(content, delimiter, quote)`:
one pass over the content with an in-quotes flag, a current cell, a
current row and the finished rows (cells decoded as they are pushed).
Faithful to the index loop of csv.js, including the escaped-quote
lookahead, the \r\n lookahead and the final-cell/final-row flush. -/
def parseCSVAux (delim quote : Char) :
    Nat → List Char → Bool → List Char → List JSValue → List (List JSValue) →
    List (List JSValue)
  | _, [], _, val, row, rows =>
    let row2 := if !val.isEmpty then row ++ [decodeValue (String.mk val)] else row
    if !row2.isEmpty then rows ++ [row2] else rows
  | 0, _ :: _, _, val, row, rows =>
    let row2 := if !val.isEmpty then row ++ [decodeValue (String.mk val)] else row
    if !row2.isEmpty then rows ++ [row2] else rows
  | fuel + 1, c :: rest, inQ, val, row, rows =>
    if c = quote then
      match rest with
      | c2 :: rest2 =>
        if inQ ∧ c2 = quote then
          parseCSVAux delim quote fuel rest2 inQ (val ++ [quote]) row rows
        else
          parseCSVAux delim quote fuel (c2 :: rest2) (!inQ) val row rows
      | [] => parseCSVAux delim quote fuel [] (!inQ) val row rows
    else if c = delim ∧ inQ = false then
      parseCSVAux delim quote fuel rest inQ [] (row ++ [decodeValue (String.mk val)]) rows
    else if (c = '\n' ∨ (c = '\r' ∧ rest.head? = some '\n')) ∧ inQ = false then
      parseCSVAux delim quote fuel (if c = '\r' then rest.tail else rest) inQ [] []
        (rows ++ [row ++ [decodeValue (String.mk val)]])
    else
      parseCSVAux delim quote fuel rest inQ (val ++ [c]) row rows

/-- `parseCSV(content, delimiter, quote)`: the 2D decoded-cell view of the
content (fuel dominates the input length, so the machine always runs to
the end of the content). -/
def parseCSV (content : String) (delimiter : Char := ',') (quote : Char := '"') :
    List (List JSValue) :=
  parseCSVAux delimiter quote content.data.length content.data false [] [] []

/-- JS property-key coercion: the object key written by
`result[cols[i]] = v`; an out-of-range header index yields the string
"undefined". -/
def keyOfCell : Option JSValue → String
  | some v => jsToString v
  | none => "undefined"

/-- `loadCSV(filePath, delimiter, quote, softError)`: reads the file (it
must exist), parses, takes the first row as headers, and maps every
remaining row to an object keyed by the headers, decoding cells once
more.  Parse errors cannot occur in the machine; only the missing-file
error remains, which softError does not suppress (it is thrown before
the try block). -/
def loadCSV (fs : FSState) (filePath : String) (delimiter : Char := ',')
    (quote : Char := '"') : Except String JSValue :=
  if ¬ isFileAt fs filePath then .error ("File not found: " ++ filePath)
  else
    let all := parseCSV (fileContent fs filePath) delimiter quote
    let cols := all.headD []
    let rows := all.tail
    .ok (jarr (rows.map (fun row =>
      jobj ((List.range row.length).map (fun i =>
        (keyOfCell cols[i]?, decodeAgain (row.getD i .vnull)))))))

/-- `escapeCell(cell)` of saveCSV: a string cell containing the
delimiter, the quote or the end-of-line is quoted with inner quotes
doubled; every other cell is stringified as-is. -/
def escapeCell (delim quote eol : Char) (cell : JSValue) : String :=
  match cell with
  | .vstr s =>
    if s.data.any (fun c => c = delim || c = quote || c = eol) then
      String.mk (quote :: s.data.flatMap (fun c => if c = quote then [quote, quote] else [c]) ++ [quote])
    else s
  | v => jsToString v

/-- `saveCSV(filePath, data, delimiter, quote, eol)`: header row from the
first record's keys, then one row per record, cells escaped and joined;
writes and returns the text.  The data must be an array of objects
(anything else throws in JS when its keys/values are enumerated). -/
def saveCSV (fs : FSState) (filePath : String)
    (data : List (List (String × JSValue)))
    (delim : Char := ',') (quote : Char := '"') (eol : Char := '\n') :
    Except String (FSState × String) :=
  let rowStr := fun (cells : List String) =>
    joinChar cells delim
  let lines :=
    match data with
    | [] => []
    | row0 :: _ =>
      rowStr (row0.map (fun kv => escapeCell delim quote eol (.vstr kv.1))) ::
      data.map (fun row => rowStr (row.map (fun kv => escapeCell delim quote eol kv.2)))
  let text := joinChar lines eol
  match fsWriteFile fs filePath text with
  | .ok fs2 => .ok (fs2, text)
  | .error e => .error e
where
  /-- Array.prototype.join with a one-character separator. -/
  joinChar : List String → Char → String
    | [], _ => ""
    | [x], _ => x
    | x :: rest, d => x ++ String.mk [d] ++ joinChar rest d

/-! ## The json codec (src/file-system/json.js)

JSON.stringify and JSON.parse are modelled directly; numbers are
restricted to the integral literals of the embedding (the parser
rejects fractions and exponents instead of rounding them). -/

/-- A lowercase hexadecimal digit character. -/
def hexDigit (n : Nat) : Char :=
  if n < 10 then Char.ofNat (48 + n) else Char.ofNat (87 + n)

/-- JSON string escaping of one character, as JSON.stringify emits it. -/
def escapeJChar (c : Char) : List Char :=
  if c = '"' then ['\\', '"']
  else if c = '\\' then ['\\', '\\']
  else if c = '\n' then ['\\', 'n']
  else if c = '\r' then ['\\', 'r']
  else if c = '\t' then ['\\', 't']
  else if c = Char.ofNat 8 then ['\\', 'b']
  else if c = Char.ofNat 12 then ['\\', 'f']
  else if c.toNat < 32 then
    ['\\', 'u', '0', '0', hexDigit (c.toNat / 16), hexDigit (c.toNat % 16)]
  else [c]

/-- A JSON string literal: quoted, characters escaped. -/
def renderJStr (s : String) : List Char :=
  '"' :: (s.data.flatMap escapeJChar ++ ['"'])

/-- The newline-plus-indent JSON.stringify inserts when a gap is
configured (and nothing otherwise). -/
def nlInd (gap ind : List Char) : List Char :=
  if gap.isEmpty then [] else '\n' :: ind

/-- The space after a member colon when a gap is configured. -/
def gapSpace (gap : List Char) : List Char :=
  if gap.isEmpty then [] else [' ']

mutual
/-- JSON.stringify's rendering of a value at the given accumulated
indent. -/
def renderJVal (gap ind : List Char) : JSValue → List Char
  | .vnull => ['n', 'u', 'l', 'l']
  | .vbool true => ['t', 'r', 'u', 'e']
  | .vbool false => ['f', 'a', 'l', 's', 'e']
  | .vnum n => intChars n
  | .vstr s => renderJStr s
  | .varr .nil => ['[', ']']
  | .varr (.cons v vs) =>
    '[' :: (nlInd gap (ind ++ gap) ++ renderJVal gap (ind ++ gap) v ++
      renderJElems gap (ind ++ gap) vs ++ nlInd gap ind ++ [']'])
  | .vobj .nil => ['{', '}']
  | .vobj (.cons k v fs) =>
    '{' :: (nlInd gap (ind ++ gap) ++ renderJStr k ++ ':' :: (gapSpace gap ++
      renderJVal gap (ind ++ gap) v ++
      renderJFields gap (ind ++ gap) fs ++ nlInd gap ind ++ ['}']))

/-- The remaining elements of a nonempty array, each preceded by a comma
and the gap break. -/
def renderJElems (gap ind : List Char) : JSList → List Char
  | .nil => []
  | .cons v vs =>
    ',' :: (nlInd gap ind ++ renderJVal gap ind v ++ renderJElems gap ind vs)

/-- The remaining members of a nonempty object. -/
def renderJFields (gap ind : List Char) : JSFields → List Char
  | .nil => []
  | .cons k v fs =>
    ',' :: (nlInd gap ind ++ renderJStr k ++ ':' :: (gapSpace gap ++
      renderJVal gap ind v ++ renderJFields gap ind fs))
end

/-- `toJSON(data, replacer, space)` of json.js: JSON.stringify with a
space count (gap capped at ten spaces, as in JS). -/
def toJSON (data : JSValue) (space : Nat := 0) : String :=
  String.mk (renderJVal (List.replicate (min space 10) ' ') [] data)

/-- JSON whitespace (space, tab, line feed, carriage return). -/
def isJsonWs (c : Char) : Bool :=
  c = ' ' || c = '\t' || c = '\n' || c = '\r'

/-- Skips JSON whitespace. -/
def skipWsJson : List Char → List Char
  | c :: cs => if isJsonWs c then skipWsJson cs else c :: cs
  | [] => []

/-- Hexadecimal digit value. -/
def hexValJ (c : Char) : Option Nat :=
  if '0' ≤ c ∧ c ≤ '9' then some (c.toNat - 48)
  else if 'a' ≤ c ∧ c ≤ 'f' then some (c.toNat - 87)
  else if 'A' ≤ c ∧ c ≤ 'F' then some (c.toNat - 55)
  else none

/-- Named JSON escapes. -/
def unescapeJ (e : Char) : Option Char :=
  if e = '"' ∨ e = '\\' ∨ e = '/' then some e
  else if e = 'n' then some '\n'
  else if e = 'r' then some '\r'
  else if e = 't' then some '\t'
  else if e = 'b' then some (Char.ofNat 8)
  else if e = 'f' then some (Char.ofNat 12)
  else none

/-- Parses the body of a JSON string literal after the opening quote
(raw control characters are rejected, as JSON.parse does). -/
def parseJStrAux (acc : List Char) : List Char → Except String (String × List Char)
  | '"' :: rest => .ok (String.mk acc.reverse, rest)
  | '\\' :: 'u' :: a :: b :: c :: d :: rest =>
    (match hexValJ a, hexValJ b, hexValJ c, hexValJ d with
     | some va, some vb, some vc, some vd =>
       parseJStrAux (Char.ofNat (((va * 16 + vb) * 16 + vc) * 16 + vd) :: acc) rest
     | _, _, _, _ => .error "bad unicode escape")
  | '\\' :: e :: rest =>
    (match unescapeJ e with
     | some ch => parseJStrAux (ch :: acc) rest
     | none => .error "bad escape")
  | c :: rest =>
    if c.toNat < 32 then .error "raw control character in string"
    else parseJStrAux (c :: acc) rest
  | [] => .error "unterminated string"

/-- Longest leading digit run. -/
def takeDigitsJ : List Char → List Char × List Char
  | c :: cs =>
    if isDigitChar c then
      let (ds, r) := takeDigitsJ cs
      (c :: ds, r)
    else ([], c :: cs)
  | [] => ([], [])

/-- Parses a JSON number (the embedding's integral grammar: optional
minus then digits; a fraction or exponent is rejected rather than
rounded). -/
def parseJNum (cs : List Char) : Except String (Int × List Char) :=
  let (neg, cs1) := match cs with
    | '-' :: r => (true, r)
    | _ => (false, cs)
  let (ds, cs2) := takeDigitsJ cs1
  if ds.isEmpty then .error "expected digits"
  else
    match cs2 with
    | '.' :: _ => .error "non-integral number outside the model"
    | 'e' :: _ => .error "non-integral number outside the model"
    | 'E' :: _ => .error "non-integral number outside the model"
    | _ => .ok ((if neg then -(digitsVal ds : Int) else (digitsVal ds : Int)), cs2)

mutual
/-- JSON.parse on one value (fuel bounds the nesting; the top-level
wrapper passes enough for any input). -/
def parseJVal : Nat → List Char → Except String (JSValue × List Char)
  | 0, _ => .error "nesting exhausted the fuel"
  | fuel + 1, cs =>
    match skipWsJson cs with
    | 'n' :: 'u' :: 'l' :: 'l' :: r => .ok (.vnull, r)
    | 't' :: 'r' :: 'u' :: 'e' :: r => .ok (.vbool true, r)
    | 'f' :: 'a' :: 'l' :: 's' :: 'e' :: r => .ok (.vbool false, r)
    | '"' :: r =>
      (match parseJStrAux [] r with
       | .ok (s, r2) => .ok (.vstr s, r2)
       | .error e => .error e)
    | '[' :: r =>
      (match skipWsJson r with
       | ']' :: r2 => .ok (.varr .nil, r2)
       | r2 =>
         match parseJElems fuel r2 with
         | .ok (es, r3) => .ok (.varr es, r3)
         | .error e => .error e)
    | '{' :: r =>
      (match skipWsJson r with
       | '}' :: r2 => .ok (.vobj .nil, r2)
       | r2 =>
         match parseJFields fuel r2 with
         | .ok (fs, r3) => .ok (.vobj fs, r3)
         | .error e => .error e)
    | c :: r =>
      if c = '-' ∨ isDigitChar c then
        (match parseJNum (c :: r) with
         | .ok (n, r2) => .ok (.vnum n, r2)
         | .error e => .error e)
      else .error "unexpected character"
    | [] => .error "unexpected end of input"

/-- One or more comma-separated array elements up to the closing
bracket. -/
def parseJElems : Nat → List Char → Except String (JSList × List Char)
  | 0, _ => .error "nesting exhausted the fuel"
  | fuel + 1, cs =>
    match parseJVal fuel cs with
    | .error e => .error e
    | .ok (v, r) =>
      match skipWsJson r with
      | ',' :: r2 =>
        (match parseJElems fuel r2 with
         | .ok (vs, r3) => .ok (.cons v vs, r3)
         | .error e => .error e)
      | ']' :: r2 => .ok (.cons v .nil, r2)
      | _ => .error "expected comma or closing bracket"

/-- One or more comma-separated object members up to the closing
brace. -/
def parseJFields : Nat → List Char → Except String (JSFields × List Char)
  | 0, _ => .error "nesting exhausted the fuel"
  | fuel + 1, cs =>
    match skipWsJson cs with
    | '"' :: r =>
      (match parseJStrAux [] r with
       | .error e => .error e
       | .ok (k, r1) =>
         match skipWsJson r1 with
         | ':' :: r2 =>
           (match parseJVal fuel r2 with
            | .error e => .error e
            | .ok (v, r3) =>
              match skipWsJson r3 with
              | ',' :: r4 =>
                (match parseJFields fuel r4 with
                 | .ok (fs, r5) => .ok (.cons k v fs, r5)
                 | .error e => .error e)
              | '}' :: r4 => .ok (.cons k v .nil, r4)
              | _ => .error "expected comma or closing brace")
         | _ => .error "expected colon")
    | _ => .error "expected a string key"
end

/-- `fromJSON(content)` of json.js: JSON.parse of a whole document. -/
def fromJSON (content : String) : Except String JSValue :=
  match parseJVal (content.data.length + 1) content.data with
  | .error e => .error e
  | .ok (v, r) =>
    if (skipWsJson r).isEmpty then .ok v else .error "trailing characters"

/-- `loadJSON(file, softError)`: reads and parses; errors (missing file,
parse failure) yield null under softError and propagate otherwise. -/
def loadJSON (fs : FSState) (file : String) (softError : Bool := false) :
    Except String JSValue :=
  if isFileAt fs file then
    match fromJSON (fileContent fs file) with
    | .ok v => .ok v
    | .error e => if softError then .ok .vnull else .error e
  else if softError then .ok .vnull else .error "ENOENT: no such file or directory"

/-- `saveJSON(file, data, replacer, space)`: a string that itself looks
like a JSON object or array is parsed first (and kept verbatim when
parsing fails); the value is then stringified and written.  (The Map
branch of the original has no counterpart: the embedding's values carry
no Maps.) -/
def saveJSON (fs : FSState) (file : String) (data : JSValue) (space : Nat := 0) :
    Except String (FSState × String) :=
  let data2 :=
    match data with
    | .vstr s =>
      if (strStartsWith s "\x7b" && strEndsWith s "\x7d") ||
         (strStartsWith s "[" && strEndsWith s "]") then
        match fromJSON s with
        | .ok v => v
        | .error _ => data
      else data
    | d => d
  let json := toJSON data2 space
  match fsWriteFile fs file json with
  | .ok fs2 => .ok (fs2, json)
  | .error e => .error e

/-! ## The format dispatcher (file-system/index.js)

Modelled from the spec: only the declaration file of the dispatcher is in
the repository.  Spec 4.3 fixes the chain: .json maps to pretty JSON,
.jsonl to line-delimited JSON, .yaml/.yml to YAML, .csv/.tsv to the
delimited table codec, and anything else (including .txt) to raw text.
The YAML and JSONL codecs are not modelled (no claim exercises them);
their branches are explicit errors so that nothing can silently rely on
them.  FSDriver.test.js pins the raw-text branch to the unsplit content
and the JSON branch to pretty output. -/

/-- `load(file, opts)` of the dispatcher, with default options: parses
the file by its (node, non-lowercased) extension. -/
def fsLoad (fs : FSState) (file : String) : Except String JSValue :=
  match nodeExtname file with
  | ".json" => loadJSON fs file
  | ".csv" => loadCSV fs file ',' '"'
  | ".tsv" => loadCSV fs file '\t' '"'
  | ".yaml" => .error "YAML codec outside the model"
  | ".yml" => .error "YAML codec outside the model"
  | ".jsonl" => .error "JSONL codec outside the model"
  | _ => loadTXT fs file "" false

/-- The array-of-records view that saveCSV enumerates. -/
def asRecords : JSValue → Option (List (List (String × JSValue)))
  | .varr es => some (es.toList.map (fun v =>
      match v with
      | .vobj fs => fs.toList
      | _ => []))
  | _ => none

/-- `save(file, data, ...)` of the dispatcher: serializes by extension
(pretty JSON with a two-space gap, per the spec and FSDriver.test.js)
and returns the written content. -/
def fsSave (fs : FSState) (file : String) (data : JSValue) :
    Except String (FSState × JSValue) :=
  match nodeExtname file with
  | ".json" =>
    (match saveJSON fs file data 2 with
     | .ok (fs2, t) => .ok (fs2, .vstr t)
     | .error e => .error e)
  | ".csv" =>
    (match asRecords data with
     | some rows =>
       match saveCSV fs file rows ',' '"' '\n' with
       | .ok (fs2, t) => .ok (fs2, .vstr t)
       | .error e => .error e
     | none => .error "saveCSV expects an array of records")
  | ".tsv" =>
    (match asRecords data with
     | some rows =>
       match saveCSV fs file rows '\t' '"' '\n' with
       | .ok (fs2, t) => .ok (fs2, .vstr t)
       | .error e => .error e
     | none => .error "saveCSV expects an array of records")
  | ".yaml" => .error "YAML codec outside the model"
  | ".yml" => .error "YAML codec outside the model"
  | ".jsonl" => .error "JSONL codec outside the model"
  | _ =>
    (match saveTXT fs file data "\n" with
     | .ok (fs2, t) => .ok (fs2, .vstr t)
     | .error e => .error e)

/-! ## Document metadata and the store state -/

/-- The metadata record of a document (src/FS.js builds it from
fs.Stats via createDocumentStatFrom; timestamps, device and owner
fields are omitted from the model, and size counts characters). -/
structure DocumentStat where
  isFile : Bool := false
  isDirectory : Bool := false
  size : Nat := 0
  hasError : Bool := false
deriving DecidableEq, Repr

/-- Modelled from the spec: the existence flag of DocumentStat (the
class lives in the base package); a stat taken from the native layer
shows a file or a directory, and the not-found stat shows neither. -/
def DocumentStat.exists (st : DocumentStat) : Bool :=
  st.isFile || st.isDirectory

/-- `DBFS.createDocumentStatFrom(stats)`: the DocumentStat of a native
node. -/
def createDocumentStatFrom : FNode → DocumentStat
  | .file c => { isFile := true, size := c.data.length }
  | .dir => { isDirectory := true }

/-- The stat of the node at a path (the root "/" is a directory). -/
def fsStatNode (fs : FSState) (p : String) : Option FNode :=
  if p = "/" then some .dir else fsFind fs p

/-- A directory-listing record (the DocumentEntry of the base package,
restricted to the fields listDir populates). -/
structure DocumentEntry where
  name : String
  path : String
  depth : Nat
  stat : DocumentStat
deriving DecidableEq, Repr

/-- One event of an operation's trace: an ensureAccess check, a call
into the native filesystem layer, or a loader/saver invocation (the
codecs' own native reads and writes happen inside those invocations). -/
inductive Ev where
  | access (uri level : String)
  | native (op : String)
  | loaderCall (i : Nat)
  | saverCall (i : Nat)
deriving DecidableEq, Repr

/-- A DBFS store instance: configuration (cwd, root), the meta and data
caches, and the native filesystem it talks to. -/
structure Store where
  cwd : String := "/"
  root : String := "."
  meta : List (String × DocumentStat) := []
  data : List (String × JSValue) := []
  fs : FSState := ⟨[]⟩

/-- JS Map.set: replaces in place, appends when fresh. -/
def mapSet (m : List (String × α)) (k : String) (v : α) : List (String × α) :=
  if m.any (·.1 = k) then m.map (fun kv => if kv.1 = k then (k, v) else kv)
  else m ++ [(k, v)]

/-- JS Map.delete. -/
def mapDelete (m : List (String × α)) (k : String) : List (String × α) :=
  m.filter (·.1 ≠ k)

/-! ## The DBFS operations (src/FS.js)

Each operation returns its result together with the store it leaves
behind and the trace of its access checks, native touches and
loader/saver invocations.  Errors thrown in JS are `.error` results;
mutations performed before a throw stay visible in the returned
store. -/

/-- `DBFS.ensureAccess(uri, level)`: the base-class check (modelled from
the spec: the default base implementation grants, the policy lives in
this subclass), then the resolved path; a URI ending in
"/llm.config.js" is permitted from anywhere, and a resolved path
escaping the container (leading "..") is denied. -/
def ensureAccess (_s : Store) (uri : String) (level : String := "r") :
    Except String Unit × List Ev :=
  if strEndsWith uri "/llm.config.js" then (.ok (), [.access uri level])
  else if strStartsWith (resolveSync [uri]) ".." then
    (.error "No access outside of the db container", [.access uri level])
  else (.ok (), [.access uri level])

/-- `DBFS.statDocument(uri)`: no access check; existsSync then statSync,
with a not-found or thrown error captured in the stat itself. -/
def statDocument (s : Store) (uri : String) : DocumentStat × Store × List Ev :=
  let file := resolveSync [uri]
  let path := nodeResolve [s.cwd, s.root, file]
  match fsStatNode s.fs path with
  | none => ({ hasError := true }, s, [.native "existsSync"])
  | some node =>
    (createDocumentStatFrom node, s, [.native "existsSync", .native "statSync"])

/-- A loader: reads the file (under the given extension) from the native
filesystem, or returns the JS-false no-match sentinel, or throws. -/
abbrev Loader := FSState → String → String → Except String JSValue

/-- The registered loader chain of DBFS: the .txt fast path (raw
unsplit content, soft errors), then the format dispatcher. -/
def dbfsLoaders : List Loader :=
  [fun fs file ext => if ext = ".txt" then loadTXT fs file "" true else .ok (.vbool false),
   fun fs file _ => fsLoad fs file]

/-- Runs a loader chain in registration order: the first result that is
not the JS-false sentinel wins; an exhausted chain yields JS false; a
loader's throw propagates. -/
def runLoaders (fs : FSState) (path ext : String) :
    List Loader → Nat → Except String JSValue × List Ev
  | [], _ => (.ok (.vbool false), [])
  | l :: rest, i =>
    match l fs path ext with
    | .error e => (.error e, [.loaderCall i])
    | .ok res =>
      if res.isFalse then
        let (r, tr) := runLoaders fs path ext rest (i + 1)
        (r, .loaderCall i :: tr)
      else (.ok res, [.loaderCall i])

/-- `DBFS.loadDocumentAs(ext, uri, defaultValue)` over an arbitrary
registered chain: access check, path resolution, the missing-path
default, then the loader chain. -/
def loadDocumentAsWith (chain : List Loader) (s : Store) (ext uri : String)
    (defaultValue : JSValue := .vstr "") : Except String JSValue × Store × List Ev :=
  match ensureAccess s uri "r" with
  | (.error e, tr) => (.error e, s, tr)
  | (.ok _, tr) =>
    let file := resolveSync [uri]
    let path := nodeResolve [s.cwd, s.root, file]
    if ¬ fsExists s.fs path then (.ok defaultValue, s, tr ++ [.native "existsSync"])
    else
      let (r, tr2) := runLoaders s.fs path ext chain 0
      (r, s, tr ++ [.native "existsSync"] ++ tr2)

/-- `DBFS.loadDocumentAs` with the registered DBFS chain. -/
def loadDocumentAs (s : Store) (ext uri : String)
    (defaultValue : JSValue := .vstr "") : Except String JSValue × Store × List Ev :=
  loadDocumentAsWith dbfsLoaders s ext uri defaultValue

/-- `DBFS.loadDocument(uri, defaultValue)`: resolves the extension and
delegates. -/
def loadDocument (s : Store) (uri : String) (defaultValue : JSValue := .vstr "") :
    Except String JSValue × Store × List Ev :=
  loadDocumentAs s (extname uri) uri defaultValue

/-- `DBFS._buildPath(uri)`: ensures the parent directory of the URI
exists (recursive mkdir). -/
def _buildPath (s : Store) (uri : String) : Except String Store × List Ev :=
  let dir := resolveSync [uri, ".."]
  let path := nodeResolve [s.cwd, s.root, dir]
  match fsMkdirRec s.fs path with
  | .ok fs2 => (.ok { s with fs := fs2 }, [.native "mkdirSync"])
  | .error e => (.error e, [.native "mkdirSync"])

/-- A saver: writes the document (under the given extension), returning
the new filesystem and the JS value the saver reports, or the JS-false
no-match sentinel, or throws. -/
abbrev Saver := FSState → String → JSValue → String → Except String (FSState × JSValue)

/-- The registered saver chain of DBFS: the format dispatcher. -/
def dbfsSavers : List Saver :=
  [fun fs file data _ => fsSave fs file data]

/-- Runs a saver chain in registration order; `.ok none` means no saver
accepted the document. -/
def runSavers (fs : FSState) (path : String) (document : JSValue) (ext : String) :
    List Saver → Nat → Except String (Option FSState) × List Ev
  | [], _ => (.ok none, [])
  | sv :: rest, i =>
    match sv fs path document ext with
    | .error e => (.error e, [.saverCall i])
    | .ok (fs2, res) =>
      if res.isFalse then
        let (r, tr) := runSavers fs path document ext rest (i + 1)
        (r, .saverCall i :: tr)
      else (.ok (some fs2), [.saverCall i])

/-- `DBFS.saveDocument(uri, document)`: write access, parent directory,
the saver chain; on the first accepting saver the file is re-stated and
the meta/data caches are updated (data to the not-loaded sentinel);
true when saved, false when no saver accepted. -/
def saveDocument (s : Store) (uri : String) (document : JSValue) :
    Except String Bool × Store × List Ev :=
  match ensureAccess s uri "w" with
  | (.error e, tr) => (.error e, s, tr)
  | (.ok _, tr) =>
    match _buildPath s uri with
    | (.error e, trB) => (.error e, s, tr ++ trB)
    | (.ok s1, trB) =>
      let file := resolveSync [uri]
      let path := nodeResolve [s1.cwd, s1.root, file]
      let ext := extname uri
      match runSavers s1.fs path document ext dbfsSavers 0 with
      | (.error e, trS) => (.error e, s1, tr ++ trB ++ trS)
      | (.ok none, trS) => (.ok false, s1, tr ++ trB ++ trS)
      | (.ok (some fs2), trS) =>
        let s2 := { s1 with fs := fs2 }
        let r := statDocument s2 uri
        let s3 := { s2 with meta := mapSet s2.meta uri r.1,
                            data := mapSet s2.data uri (.vbool false) }
        (.ok true, s3, tr ++ trB ++ trS ++ r.2.2)

/-- `DBFS.writeDocument(uri, chunk)`: write access, parent directory,
then a raw native append below the format layer. -/
def writeDocument (s : Store) (uri : String) (chunk : String) :
    Except String Bool × Store × List Ev :=
  match ensureAccess s uri "w" with
  | (.error e, tr) => (.error e, s, tr)
  | (.ok _, tr) =>
    match _buildPath s uri with
    | (.error e, trB) => (.error e, s, tr ++ trB)
    | (.ok s1, trB) =>
      let file := resolveSync [uri]
      let path := nodeResolve [s1.cwd, s1.root, file]
      match fsAppendFile s1.fs path chunk with
      | .error e => (.error e, s1, tr ++ trB ++ [.native "appendFileSync"])
      | .ok fs2 => (.ok true, { s1 with fs := fs2 }, tr ++ trB ++ [.native "appendFileSync"])

/-- `DBFS.dropDocument(uri)`: delete access; a missing document is
false, not an error; a directory with cached children refuses; a
removed file is re-stated and the caches are cleared only when the
removal is confirmed. -/
def dropDocument (s : Store) (uri : String) :
    Except String Bool × Store × List Ev :=
  match ensureAccess s uri "d" with
  | (.error e, tr) => (.error e, s, tr)
  | (.ok _, tr) =>
    let file := resolveSync [uri]
    let (stat, _, tr1) := statDocument s uri
    if ¬ stat.exists then (.ok false, s, tr ++ tr1)
    else
      let path := nodeResolve [s.cwd, s.root, file]
      if stat.isDirectory then
        let nested := (s.meta.filter (fun kv => strStartsWith kv.1 (file ++ "/"))).length
        if nested > 0 then
          (.error "Directory has children, delete them first", s, tr ++ tr1)
        else
          match fsRmdir s.fs path with
          | .error e => (.error e, s, tr ++ tr1 ++ [.native "rmdirSync"])
          | .ok fs2 =>
            (.ok true,
             { s with fs := fs2, meta := mapDelete s.meta file,
                      data := mapDelete s.data file },
             tr ++ tr1 ++ [.native "rmdirSync"])
      else
        match fsUnlink s.fs path with
        | .error e => (.error e, s, tr ++ tr1 ++ [.native "unlinkSync"])
        | .ok fs2 =>
          let s2 := { s with fs := fs2 }
          let (stat2, _, tr2) := statDocument s2 uri
          if ¬ stat2.exists then
            (.ok true,
             { s2 with data := mapDelete s2.data file, meta := mapDelete s2.meta file },
             tr ++ tr1 ++ [.native "unlinkSync"] ++ tr2)
          else (.ok false, s2, tr ++ tr1 ++ [.native "unlinkSync"] ++ tr2)

/-- The record listDir builds for one native child: name, path relative
to the cwd, the requested depth label, and the stat (skipped to the
default record under skipStat). -/
def listEntryOf (s : Store) (path : String) (depth : Nat) (skipStat : Bool)
    (nv : String × FNode) : DocumentEntry :=
  { name := nv.1,
    path := nodeRelative s.cwd (nodeResolve [s.cwd, path, nv.1]),
    depth := depth,
    stat := if skipStat then {} else createDocumentStatFrom nv.2 }

/-- `DBFS.listDir(uri, depth, skipStat)`: no access check; one native
readdir level, a per-entry stat unless skipStat (a per-entry stat
failure would be captured in that entry), the depth label, and the
stable directories-first sort.  JS Array.prototype.sort is stable and
the comparator keys on the isDirectory flag alone, so the sorted order
is exactly the directories-then-others partition of the native
order. -/
def listDir (s : Store) (uri : String) (depth : Nat := 0) (skipStat : Bool := false) :
    Except String (List DocumentEntry) × Store × List Ev :=
  let path := nodeResolve [s.cwd, s.root, uri]
  if ¬ isDirAt s.fs path then
    (.error "ENOENT: cannot read directory", s, [.native "readdirSync"])
  else
    let entries := fsChildren s.fs path
    let files := entries.map (listEntryOf s path depth skipStat)
    (.ok (files.filter (·.stat.isDirectory) ++ files.filter (fun e => !e.stat.isDirectory)),
     s,
     .native "readdirSync" :: (if skipStat then [] else entries.map (fun _ => .native "statSync")))

/-! ## Spec-side and derived definitions used by the claims -/

/-- Does the string contain an unresolved ".." segment? -/
def hasDotDotSeg (s : String) : Bool := (splitSlash s).any (· = "..")

/-- Reads a resolved URI as root-relative: a leading "/" marks the
virtual root (spec 4.1) and is dropped before composing under the
configured root. -/
def stripLeadingSlash (s : String) : String :=
  if strStartsWith s "/" then String.mk s.data.tail else s

/-- The spec's loader-chain contract (spec 4.3), written from its words:
loaders are tried in registration order, the first result that is not
the no-match sentinel wins, an exhausted chain reports the sentinel,
and a loader's error propagates.  Stated separately from `runLoaders`
so that the operation can be proved to refine it. -/
def specLoaderChain (fs : FSState) (path ext : String) :
    List Loader → Except String JSValue
  | [] => .ok (.vbool false)
  | l :: rest =>
    match l fs path ext with
    | .error e => .error e
    | .ok v => if v.isFalse then specLoaderChain fs path ext rest else .ok v

/-- Looks a key up in a cache. -/
def mapGet (m : List (String × α)) (k : String) : Option α :=
  (m.find? (·.1 = k)).map (·.2)

/-- The native location of a URI: FS.resolve(cwd, root, resolve(uri)),
the composition every operation routes through. -/
def locOf (s : Store) (uri : String) : String :=
  nodeResolve [s.cwd, s.root, resolveSync [uri]]

/-- A small concrete store over a two-entry filesystem, used by the
witness theorems. -/
def wStore : Store :=
  { cwd := "/c", root := "r", fs := ⟨[("/c/r", .dir), ("/c/r/a.txt", .file "x")]⟩ }

/-- A store whose root holds a file before a directory in the native
listing order, used by the listDir theorems. -/
def wStore2 : Store :=
  { cwd := "/c", root := "r",
    fs := ⟨[("/c/r", .dir), ("/c/r/a.txt", .file "x"), ("/c/r/b", .dir)]⟩ }

/-- The data cache holds nothing but the boolean not-loaded sentinel. -/
def dataSentinelOnly (s : Store) : Bool :=
  s.data.all (fun kv => kv.2.isFalse)

mutual
/-- The fuel parseJVal needs on the rendering of a value (the parser
spends one unit per value and one per further list element). -/
def needV : JSValue → Nat
  | .varr es => 1 + needL es
  | .vobj fs => 1 + needF fs
  | _ => 1

/-- Fuel needed by parseJElems on a rendered element list. -/
def needL : JSList → Nat
  | .nil => 1
  | .cons v vs => 1 + max (needV v) (needL vs)

/-- Fuel needed by parseJFields on a rendered member list. -/
def needF : JSFields → Nat
  | .nil => 1
  | .cons _ v fs => 1 + max (needV v) (needF fs)
end

/-- Only JSON whitespace characters. -/
def wsOnly (l : List Char) : Prop := ∀ c ∈ l, isJsonWs c = true

/-- The continuation cannot extend a just-parsed number literal: it does
not start with a digit, a decimal point or an exponent marker. -/
def numDelim (rest : List Char) : Prop :=
  ∀ c, rest.head? = some c → isDigitChar c = false ∧ c ≠ '.' ∧ c ≠ 'e' ∧ c ≠ 'E'

/-- Not a string that saveJSON's brace-sniffing quirk would re-parse. -/
def notBracedStr : JSValue → Bool
  | .vstr s => !((strStartsWith s "\x7b" && strEndsWith s "\x7d") ||
                 (strStartsWith s "[" && strEndsWith s "]"))
  | _ => true

/-- A character a CSV cell can hold without triggering quoting or a
cell/row break: not the delimiter, the quote or an end-of-line. -/
def plainCellChar (d q c : Char) : Bool :=
  !(c = d || c = q || c = '\n' || c = '\r')

/-- Array.prototype.join at the character level: the data of
`joinChar`. -/
def joinCharL (ch : Char) : List (List Char) → List Char
  | [] => []
  | [x] => x
  | x :: rest => x ++ ch :: joinCharL ch rest

/-- Directories never follow files: once a non-directory entry appears
in a listing, no directory entry appears after it. -/
def dirsBeforeFiles (es : List DocumentEntry) : Prop :=
  es.Pairwise (fun a b => b.stat.isDirectory = true → a.stat.isDirectory = true)

/-! # Theorems

First the path-layer lemmas feeding the resolution claims, then one
theorem per claim (with its witness or counterexample). -/

/-- Pieces produced by the character splitter never contain the
separator. -/
theorem splitOnChar_mem_no_sep (sep : Char) :
    ∀ (cs : List Char) (g : List Char), g ∈ splitOnChar sep cs → sep ∉ g := by
  intro cs
  induction cs with
  | nil => intro g hg; simp [splitOnChar] at hg; simp [hg]
  | cons c rest ih =>
    intro g hg
    simp only [splitOnChar] at hg
    by_cases hc : c = sep
    · simp [hc] at hg
      rcases hg with h | h
      · simp [h]
      · exact ih g h
    · simp only [if_neg hc] at hg
      rcases hsplit : splitOnChar sep rest with _ | ⟨g0, gs⟩
      · rw [hsplit] at hg
        simp at hg
        subst hg
        intro hmem
        rcases List.mem_singleton.mp hmem with rfl
        exact hc rfl
      · rw [hsplit] at hg
        simp at hg
        rcases hg with h | h
        · subst h
          intro hmem
          rcases List.mem_cons.mp hmem with rfl | hmem2
          · exact hc rfl
          · exact ih g0 (by simp [hsplit]) hmem2
        · exact ih g (by simp [hsplit, h])

/-- The splitter on a separator-free run returns that run whole. -/
theorem splitOnChar_no_sep (sep : Char) :
    ∀ (cs : List Char), sep ∉ cs → splitOnChar sep cs = [cs] := by
  intro cs
  induction cs with
  | nil => intro _; rfl
  | cons c rest ih =>
    intro h
    have hc : ¬ c = sep := fun e => h (by simp [e])
    have hr : sep ∉ rest := fun m => h (by simp [m])
    simp [splitOnChar, hc, ih hr]

/-- The splitter cuts exactly at a separator following a separator-free
run. -/
theorem splitOnChar_cut (sep : Char) :
    ∀ (a r : List Char), sep ∉ a →
      splitOnChar sep (a ++ sep :: r) = a :: splitOnChar sep r := by
  intro a
  induction a with
  | nil => intro r _; simp [splitOnChar]
  | cons c rest ih =>
    intro r h
    have hc : ¬ c = sep := fun e => h (by simp [e])
    have hr : sep ∉ rest := fun m => h (by simp [m])
    have h2 := ih r hr
    show (if c = sep then _ else _) = _
    rw [if_neg hc]
    show (match splitOnChar sep (rest ++ sep :: r) with
          | [] => [[c]]
          | g :: gs => (c :: g) :: gs) = _
    rw [h2]

/-- Members of a collapse run come from the accumulator or the input. -/
theorem collapse_mem (l : List String) :
    ∀ (acc : List String) (x : String), x ∈ List.foldl collapseStep acc l →
      x ∈ acc ∨ x ∈ l := by
  induction l with
  | nil => intro acc x h; exact .inl h
  | cons a rest ih =>
    intro acc x h
    rcases ih (collapseStep acc a) x h with h2 | h2
    · unfold collapseStep at h2
      split at h2
      · exact .inl h2
      · split at h2
        · exact .inl ((List.dropLast_sublist _).subset h2)
        · rcases List.mem_append.mp h2 with h3 | h3
          · exact .inl h3
          · exact .inr (by simp [List.mem_singleton.mp h3])
    · exact .inr (List.mem_cons_of_mem a h2)

/-- Collapse keeps only clean segments. -/
theorem collapse_clean (l : List String) :
    ∀ (acc : List String), (∀ x ∈ acc, cleanSeg x = true) →
      ∀ x ∈ List.foldl collapseStep acc l, cleanSeg x = true := by
  induction l with
  | nil => intro acc hacc x h; exact hacc x h
  | cons a rest ih =>
    intro acc hacc x h
    refine ih (collapseStep acc a) ?_ x h
    intro y hy
    unfold collapseStep at hy
    split at hy
    · exact hacc y hy
    · split at hy
      · exact hacc y ((List.dropLast_sublist _).subset hy)
      · rcases List.mem_append.mp hy with h3 | h3
        · exact hacc y h3
        · rcases List.mem_singleton.mp h3 with rfl
          rename_i h1 h2
          simp only [Bool.or_eq_true, decide_eq_true_eq] at h1
          simp [cleanSeg, h1, h2]
          refine ⟨?_, ?_⟩ <;> [exact fun e => h1 (.inl e); exact fun e => h1 (.inr e)]

/-- A climb-free run of the collapser appends its clean segments. -/
theorem collapse_no_climb (l : List String) :
    ∀ (acc : List String), (∀ x ∈ l, x ≠ "..") →
      List.foldl collapseStep acc l = acc ++ l.filter (fun x => cleanSeg x) := by
  induction l with
  | nil => intro acc _; simp
  | cons a rest ih =>
    intro acc h
    have ha : a ≠ ".." := h a (by simp)
    have hrest : ∀ x ∈ rest, x ≠ ".." := fun x hx => h x (by simp [hx])
    by_cases hskip : a = "" ∨ a = "."
    · have hstep : collapseStep acc a = acc := by
        unfold collapseStep
        rw [if_pos (by simpa using hskip)]
      have hfil : cleanSeg a = false := by
        rcases hskip with rfl | rfl <;> rfl
      simp only [List.foldl_cons, hstep, List.filter_cons, hfil]
      exact ih acc hrest
    · have hclean : cleanSeg a = true := by
        push_neg at hskip
        simp [cleanSeg, hskip.1, hskip.2, ha]
      have hstep : collapseStep acc a = acc ++ [a] := by
        unfold collapseStep
        rw [if_neg (by simpa using hskip), if_neg ha]
      simp only [List.foldl_cons, hstep, List.filter_cons, hclean, if_pos]
      rw [ih (acc ++ [a]) hrest, List.append_assoc]
      rfl

/-- A slash-free segment survives splitting whole. -/
theorem splitSlash_single (s : String) (h : '/' ∉ s.data) : splitSlash s = [s] := by
  unfold splitSlash
  rw [splitOnChar_no_sep '/' s.data h]
  simp

/-- Splitting undoes joining on nonempty slash-free segments. -/
theorem splitSlash_joinSegs :
    ∀ (segs : List String), segs ≠ [] → (∀ g ∈ segs, '/' ∉ g.data) →
      splitSlash (joinSegs segs) = segs := by
  intro segs
  induction segs with
  | nil => intro h; exact absurd rfl h
  | cons a rest ih =>
    intro _ hfree
    cases rest with
    | nil => exact splitSlash_single a (hfree a (by simp))
    | cons b rest2 =>
      have hj : joinSegs (a :: b :: rest2) = a ++ "/" ++ joinSegs (b :: rest2) := rfl
      have ha : '/' ∉ a.data := hfree a (by simp)
      have hdata : (a ++ "/" ++ joinSegs (b :: rest2)).data
          = a.data ++ '/' :: (joinSegs (b :: rest2)).data := by
        simp [String.data_append]
      unfold splitSlash
      rw [hj, hdata, splitOnChar_cut '/' a.data (joinSegs (b :: rest2)).data ha]
      have ih2 := ih (by simp) (fun g hg => hfree g (by simp [hg]))
      unfold splitSlash at ih2
      simp only [List.map_cons, ih2]

/-- Joining distributes over appending nonempty segment lists. -/
theorem joinSegs_append (A B : List String) (hA : A ≠ []) (hB : B ≠ []) :
    joinSegs (A ++ B) = joinSegs A ++ "/" ++ joinSegs B := by
  induction A with
  | nil => exact absurd rfl hA
  | cons a rest ih =>
    cases rest with
    | nil =>
      cases B with
      | nil => exact absurd rfl hB
      | cons b rest2 => rfl
    | cons a2 rest2 =>
      have h2 : joinSegs (a :: a2 :: rest2) = a ++ "/" ++ joinSegs (a2 :: rest2) := rfl
      rw [List.cons_append]
      show a ++ "/" ++ joinSegs (a2 :: rest2 ++ B) = joinSegs (a :: a2 :: rest2) ++ "/" ++ joinSegs B
      rw [ih (by simp), h2]
      simp [String.ext_iff, String.data_append]

/-- Appending extends a string on the left of the prefix order. -/
theorem strStartsWith_append (a b : String) : strStartsWith (a ++ b) a = true := by
  unfold strStartsWith
  rw [List.isPrefixOf_iff_prefix]
  simp [String.data_append]

/-- The split pieces of a possibly-slash-prefixed join of clean
slash-free segments: each is empty, ".", or clean. -/
theorem tame_pieces (segs : List String) (isAbs : Bool)
    (hclean : ∀ x ∈ segs, cleanSeg x = true)
    (hfree : ∀ x ∈ segs, '/' ∉ x.data) :
    ∀ g ∈ splitSlash (if segs.isEmpty then (if isAbs then "/" else ".")
      else (if isAbs then "/" else "") ++ joinSegs segs),
      g = "" ∨ g = "." ∨ cleanSeg g = true := by
  intro g hg
  by_cases hempty : segs.isEmpty
  · rw [if_pos hempty] at hg
    rcases isAbs with _ | _
    · have h1 : splitSlash (if (false : Bool) = true then "/" else ".") = ["."] := by decide
      rw [h1] at hg
      rcases List.mem_singleton.mp hg with rfl
      exact .inr (.inl rfl)
    · have h1 : splitSlash (if (true : Bool) = true then "/" else ".") = ["", ""] := by decide
      rw [h1] at hg
      rcases List.mem_cons.mp hg with rfl | h2
      · exact .inl rfl
      · rcases List.mem_singleton.mp h2 with rfl
        exact .inl rfl
  · rw [if_neg hempty] at hg
    have hne : segs ≠ [] := by
      intro h
      rw [h] at hempty
      exact hempty rfl
    rcases isAbs with _ | _
    · rw [if_neg (by simp)] at hg
      have hid : ("" ++ joinSegs segs) = joinSegs segs := by
        apply String.ext
        simp [String.data_append]
      rw [hid, splitSlash_joinSegs segs hne hfree] at hg
      exact .inr (.inr (hclean g hg))
    · rw [if_pos rfl] at hg
      have hdata : ("/" ++ joinSegs segs).data = [] ++ '/' :: (joinSegs segs).data := by
        simp [String.data_append]
      unfold splitSlash at hg
      rw [hdata, splitOnChar_cut '/' [] (joinSegs segs).data (by simp)] at hg
      simp only [List.map_cons] at hg
      rcases List.mem_cons.mp hg with rfl | h2
      · exact .inl rfl
      · have h3 := splitSlash_joinSegs segs hne hfree
        unfold splitSlash at h3
        rw [h3] at h2
        exact .inr (.inr (hclean g h2))

/-- Every output of the collapser is clean and slash-free when fed from
split segments. -/
theorem collapse_flatMap_tame (kept : List String) :
    (∀ x ∈ collapse (kept.flatMap splitSlash), cleanSeg x = true) ∧
      (∀ x ∈ collapse (kept.flatMap splitSlash), '/' ∉ x.data) := by
  constructor
  · exact collapse_clean _ [] (by intro x h; cases h)
  · intro x hx
    rcases collapse_mem _ [] x hx with h | h
    · cases h
    · rcases List.mem_flatMap.mp h with ⟨a, _, hmem⟩
      unfold splitSlash at hmem
      rcases List.mem_map.mp hmem with ⟨cs, hcs, rfl⟩
      exact splitOnChar_mem_no_sep '/' a.data cs hcs

/-- The segments of a resolveSync result: every piece of the split output
is clean, or empty, or "." (so in particular never ".."). -/
theorem resolveSync_segs_tame (args : List String) :
    ∀ g ∈ splitSlash (resolveSync args), g = "" ∨ g = "." ∨ cleanSeg g = true := by
  intro g hg
  have h := collapse_flatMap_tame
    (args.foldl (fun acc a => if strStartsWith a "/" then [a] else acc ++ [a]) [])
  exact tame_pieces _ _ h.1 h.2 g hg

/-- Appending the empty string on the right changes nothing. -/
theorem strAppend_empty (s : String) : s ++ "" = s := by
  apply String.ext
  simp [String.data_append]

/-- Prepending the empty string changes nothing. -/
theorem strEmpty_append (s : String) : "" ++ s = s := by
  apply String.ext
  simp [String.data_append]

/-- The split pieces of a normalize-shaped result are tame. -/
theorem tame_pieces_norm (segs : List String) (trailing : Bool)
    (hclean : ∀ x ∈ segs, cleanSeg x = true)
    (hfree : ∀ x ∈ segs, '/' ∉ x.data) :
    ∀ g ∈ splitSlash (if segs.isEmpty then "."
      else joinSegs segs ++ (if trailing then "/" else "")),
      g = "" ∨ g = "." ∨ cleanSeg g = true := by
  intro g hg
  by_cases hempty : segs.isEmpty
  · rw [if_pos hempty] at hg
    have h1 : splitSlash "." = ["."] := by decide
    rw [h1] at hg
    rcases List.mem_singleton.mp hg with rfl
    exact .inr (.inl rfl)
  · rw [if_neg hempty] at hg
    have hne : segs ≠ [] := fun h => hempty (by rw [h]; rfl)
    rcases trailing with _ | _
    · rw [if_neg (by simp), strAppend_empty] at hg
      rw [splitSlash_joinSegs segs hne hfree] at hg
      exact .inr (.inr (hclean g hg))
    · rw [if_pos rfl] at hg
      have hj : joinSegs segs ++ "/" = joinSegs (segs ++ [""]) := by
        rw [joinSegs_append segs [""] hne (by simp)]
        show _ = _ ++ "/" ++ joinSegs [""]
        rw [show joinSegs [""] = "" from rfl, strAppend_empty]
      rw [hj, splitSlash_joinSegs (segs ++ [""]) (by simp)
        (by intro x hx
            rcases List.mem_append.mp hx with h | h
            · exact hfree x h
            · rcases List.mem_singleton.mp h with rfl
              simp)] at hg
      rcases List.mem_append.mp hg with h | h
      · exact .inr (.inr (hclean g h))
      · rcases List.mem_singleton.mp h with rfl
        exact .inl rfl

/-- The segments of a normalize result are tame (never ".."). -/
theorem normalize_segs_tame (args : List String) :
    ∀ g ∈ splitSlash (normalize args), g = "" ∨ g = "." ∨ cleanSeg g = true := by
  intro g hg
  have h := collapse_flatMap_tame args
  have h2 : ∀ x ∈ collapse (args.flatMap splitSlash), cleanSeg x = true := by
    intro x hx
    exact collapse_clean _ [] (by intro y hy; cases hy) x hx
  have h3 : ∀ x ∈ collapse (args.flatMap splitSlash), '/' ∉ x.data := by
    intro x hx
    rcases collapse_mem _ [] x hx with hmem | hmem
    · cases hmem
    · rcases List.mem_flatMap.mp hmem with ⟨a, _, hmem2⟩
      unfold splitSlash at hmem2
      rcases List.mem_map.mp hmem2 with ⟨cs, hcs, rfl⟩
      exact splitOnChar_mem_no_sep '/' a.data cs hcs
  exact tame_pieces_norm _ _ h2 h3 g hg

/-- Tame pieces are never "..". -/
theorem tame_no_dotdot {g : String} (h : g = "" ∨ g = "." ∨ cleanSeg g = true) :
    g ≠ ".." := by
  rcases h with h | h | h
  · rw [h]; decide
  · rw [h]; decide
  · simp only [cleanSeg, Bool.and_eq_true, decide_eq_true_eq, ne_eq] at h
    exact h.2

/-- A tame string has no ".." segment. -/
theorem tame_hasDotDot_false {s : String}
    (h : ∀ g ∈ splitSlash s, g = "" ∨ g = "." ∨ cleanSeg g = true) :
    hasDotDotSeg s = false := by
  unfold hasDotDotSeg
  rw [List.any_eq_false]
  intro g hg
  simpa using tame_no_dotdot (h g hg)

/-- Composition under an absolute root: a relative URI with tame
segments lands at the root or strictly below it. -/
theorem nodeResolve_under_root (root rel : String)
    (hroot : strStartsWith root "/" = true)
    (hrel : strStartsWith rel "/" = false)
    (htame : ∀ g ∈ splitSlash rel, g = "" ∨ g = "." ∨ cleanSeg g = true)
    (hkeep : collapse (splitSlash root) ≠ []) :
    nodeResolve [root, rel] = nodeResolve [root] ∨
      strStartsWith (nodeResolve [root, rel]) (nodeResolve [root] ++ "/") = true := by
  have hfold2 : List.foldl (fun acc a => if strStartsWith a "/" then [a] else acc ++ [a])
      ["/"] [root, rel] = [root, rel] := by
    simp [hroot, hrel]
  have hfold1 : List.foldl (fun acc a => if strStartsWith a "/" then [a] else acc ++ [a])
      ["/"] [root] = [root] := by
    simp [hroot]
  have hnc : ∀ x ∈ splitSlash rel, x ≠ ".." := fun x hx => tame_no_dotdot (htame x hx)
  have hsplit : collapse (splitSlash root ++ splitSlash rel)
      = collapse (splitSlash root) ++ (splitSlash rel).filter (fun x => cleanSeg x) := by
    unfold collapse
    rw [List.foldl_append]
    exact collapse_no_climb _ _ hnc
  have h1 : nodeResolve [root, rel]
      = "/" ++ joinSegs (collapse (splitSlash root) ++ (splitSlash rel).filter (fun x => cleanSeg x)) := by
    unfold nodeResolve
    rw [hfold2]
    show "/" ++ joinSegs (collapse ([root, rel].flatMap splitSlash)) = _
    have hfm : ([root, rel].flatMap splitSlash) = splitSlash root ++ splitSlash rel := by
      simp
    rw [hfm, hsplit]
  have h2 : nodeResolve [root] = "/" ++ joinSegs (collapse (splitSlash root)) := by
    unfold nodeResolve
    rw [hfold1]
    show "/" ++ joinSegs (collapse ([root].flatMap splitSlash)) = _
    have hfm : ([root].flatMap splitSlash) = splitSlash root ++ [] := by simp
    rw [hfm, List.append_nil]
  by_cases hF : (splitSlash rel).filter (fun x => cleanSeg x) = []
  · left
    rw [h1, h2, hF, List.append_nil]
  · right
    rw [h1, h2, joinSegs_append _ _ hkeep hF]
    have hassoc : ("/" : String) ++ (joinSegs (collapse (splitSlash root)) ++ "/"
          ++ joinSegs ((splitSlash rel).filter (fun x => cleanSeg x)))
        = ("/" ++ joinSegs (collapse (splitSlash root)) ++ "/")
          ++ joinSegs ((splitSlash rel).filter (fun x => cleanSeg x)) := by
      apply String.ext
      simp [String.data_append]
    rw [hassoc]
    exact strStartsWith_append _ _

/-- The stripped root-relative reading of a resolveSync result: it never
starts with "/" and its segments stay tame. -/
theorem strip_resolveSync_tame (args : List String) :
    strStartsWith (stripLeadingSlash (resolveSync args)) "/" = false ∧
      ∀ g ∈ splitSlash (stripLeadingSlash (resolveSync args)),
        g = "" ∨ g = "." ∨ cleanSeg g = true := by
  have main : ∀ (segs : List String) (isAbs : Bool),
      (∀ x ∈ segs, cleanSeg x = true) → (∀ x ∈ segs, '/' ∉ x.data) →
      strStartsWith (stripLeadingSlash (if segs.isEmpty then (if isAbs then "/" else ".")
        else (if isAbs then "/" else "") ++ joinSegs segs)) "/" = false ∧
      ∀ g ∈ splitSlash (stripLeadingSlash (if segs.isEmpty then (if isAbs then "/" else ".")
        else (if isAbs then "/" else "") ++ joinSegs segs)),
        g = "" ∨ g = "." ∨ cleanSeg g = true := by
    intro segs isAbs hclean hfree
    by_cases hempty : segs.isEmpty
    · rw [if_pos hempty]
      rcases isAbs with _ | _
      · rw [if_neg (by simp)]
        constructor
        · decide
        · intro g hg
          have h1 : stripLeadingSlash "." = "." := by decide
          rw [h1] at hg
          have h2 : splitSlash "." = ["."] := by decide
          rw [h2] at hg
          rcases List.mem_singleton.mp hg with rfl
          exact .inr (.inl rfl)
      · rw [if_pos rfl]
        constructor
        · decide
        · intro g hg
          have h1 : stripLeadingSlash "/" = "" := by decide
          rw [h1] at hg
          have h2 : splitSlash "" = [""] := by decide
          rw [h2] at hg
          rcases List.mem_singleton.mp hg with rfl
          exact .inl rfl
    · rw [if_neg hempty]
      have hne : segs ≠ [] := fun h => hempty (by rw [h]; rfl)
      have hjoin_nosl : strStartsWith (joinSegs segs) "/" = false := by
        cases segs with
        | nil => exact absurd rfl hne
        | cons a rest =>
          have ha : cleanSeg a = true := hclean a (by simp)
          have hafree : '/' ∉ a.data := hfree a (by simp)
          have hane : a ≠ "" := by
            simp only [cleanSeg, Bool.and_eq_true, decide_eq_true_eq, ne_eq] at ha
            exact ha.1.1
          have hj : ∃ t, (joinSegs (a :: rest)).data = a.data ++ t := by
            cases rest with
            | nil => exact ⟨[], by simp [joinSegs]⟩
            | cons b r2 =>
              refine ⟨('/' :: (joinSegs (b :: r2)).data), ?_⟩
              show (a ++ "/" ++ joinSegs (b :: r2)).data = _
              simp [String.data_append]
          rcases hj with ⟨t, ht⟩
          cases hcs : a.data with
          | nil => exact absurd (by cases a; simp at hcs; simp [hcs]) hane
          | cons c cs =>
            have hc : c ≠ '/' := by
              intro h
              exact hafree (by rw [hcs, h]; simp)
            unfold strStartsWith
            rw [ht, hcs]
            simp only [List.cons_append, List.isPrefixOf, Bool.and_eq_false_iff]
            left
            simp only [beq_eq_false_iff_ne, ne_eq]
            exact fun h => hc h.symm
      rcases isAbs with _ | _
      · rw [if_neg (by simp), strEmpty_append]
        have hstr : stripLeadingSlash (joinSegs segs) = joinSegs segs := by
          unfold stripLeadingSlash
          rw [hjoin_nosl]
          simp
        rw [hstr]
        refine ⟨hjoin_nosl, ?_⟩
        intro g hg
        rw [splitSlash_joinSegs segs hne hfree] at hg
        exact .inr (.inr (hclean g hg))
      · rw [if_pos rfl]
        have habs : strStartsWith ("/" ++ joinSegs segs) "/" = true := by
          have : ("/" ++ joinSegs segs).data = '/' :: (joinSegs segs).data := by
            simp [String.data_append]
          unfold strStartsWith
          rw [this]
          simp [List.isPrefixOf]
        have hstr : stripLeadingSlash ("/" ++ joinSegs segs) = joinSegs segs := by
          unfold stripLeadingSlash
          rw [habs]
          simp only [if_pos]
          apply String.ext
          simp [String.data_append]
        rw [hstr]
        refine ⟨hjoin_nosl, ?_⟩
        intro g hg
        rw [splitSlash_joinSegs segs hne hfree] at hg
        exact .inr (.inr (hclean g hg))
  have h := collapse_flatMap_tame
    (args.foldl (fun acc a => if strStartsWith a "/" then [a] else acc ++ [a]) [])
  exact main _ _ h.1 h.2

/-- C3: resolve, resolveSync and normalize saturate at the configured
root: ".." segments clamp instead of erroring, no unresolved ".."
segment survives in any result, and the root-relative reading of a
resolved URI composed under an absolute root never denotes a path
outside that root. -/
theorem c3_resolution_saturates (args : List String) (root : String)
    (hroot : strStartsWith root "/" = true)
    (hrootReal : collapse (splitSlash root) ≠ []) :
    hasDotDotSeg (normalize args) = false ∧
    hasDotDotSeg (resolveSync args) = false ∧
    (nodeResolve [root, stripLeadingSlash (resolveSync args)] = nodeResolve [root] ∨
     strStartsWith (nodeResolve [root, stripLeadingSlash (resolveSync args)])
       (nodeResolve [root] ++ "/") = true) := by
  refine ⟨tame_hasDotDot_false (normalize_segs_tame args),
          tame_hasDotDot_false (resolveSync_segs_tame args), ?_⟩
  have h := strip_resolveSync_tame args
  exact nodeResolve_under_root root _ hroot h.1 h.2 hrootReal

/-- C3 witness: the clamped boundary case from the spec, instantiated at
a concrete root. -/
theorem c3_resolution_saturates_witness :
    strStartsWith "/base" "/" = true ∧ collapse (splitSlash "/base") ≠ [] ∧
    (hasDotDotSeg (normalize ["../../", "var", "www"]) = false ∧
     hasDotDotSeg (resolveSync ["../../", "var", "www"]) = false ∧
     (nodeResolve ["/base", stripLeadingSlash (resolveSync ["../../", "var", "www"])]
        = nodeResolve ["/base"] ∨
      strStartsWith (nodeResolve ["/base", stripLeadingSlash (resolveSync ["../../", "var", "www"])])
        (nodeResolve ["/base"] ++ "/") = true)) :=
  ⟨by decide, by decide,
   c3_resolution_saturates ["../../", "var", "www"] "/base" (by decide) (by decide)⟩

/-- C2: ensureAccess(uri, level) raises the access-denied error exactly
when the resolved path begins with the parent-escape marker ".." and
the URI does not end with the "/llm.config.js" suffix; a URI with that
suffix is permitted regardless of its resolved path. -/
theorem c2_ensureAccess_denies_iff (s : Store) (uri level : String) :
    (∃ e, (ensureAccess s uri level).1 = .error e) ↔
      (strStartsWith (resolveSync [uri]) ".." = true ∧
       strEndsWith uri "/llm.config.js" = false) := by
  unfold ensureAccess
  by_cases h1 : strEndsWith uri "/llm.config.js"
  · simp [h1]
  · by_cases h2 : strStartsWith (resolveSync [uri]) ".."
    · simp [h1, h2]
    · simp [h1, h2]

/-- The access check depends only on the URI: neither the store nor the
requested level changes the verdict. -/
theorem ensureAccess_fst_level (s s2 : Store) (uri level level2 : String) :
    (ensureAccess s uri level).1 = (ensureAccess s2 uri level2).1 := by
  unfold ensureAccess
  split
  · rfl
  · split <;> rfl

/-- The access check emits exactly its one access event. -/
theorem ensureAccess_trace (s : Store) (uri level : String) :
    (ensureAccess s uri level).2 = [.access uri level] := by
  unfold ensureAccess
  split
  · rfl
  · split <;> rfl

/-- The access check grants or denies with the fixed message. -/
theorem ensureAccess_fst_cases (s : Store) (uri level : String) :
    (ensureAccess s uri level).1 = .ok () ∨
      (ensureAccess s uri level).1 = .error "No access outside of the db container" := by
  unfold ensureAccess
  split
  · exact .inl rfl
  · split
    · exact .inr rfl
    · exact .inl rfl

/-- _buildPath only touches the filesystem: configuration and caches
survive. -/
theorem _buildPath_frame (s : Store) (uri : String) :
    ∀ s1 tr, _buildPath s uri = (.ok s1, tr) →
      s1.cwd = s.cwd ∧ s1.root = s.root ∧ s1.meta = s.meta ∧ s1.data = s.data := by
  intro s1 tr h
  simp only [_buildPath] at h
  split at h
  · simp only [Prod.mk.injEq, Except.ok.injEq] at h
    rw [← h.1]
    exact ⟨rfl, rfl, rfl, rfl⟩
  · simp at h

/-- C10: statDocument, loadDocument and loadDocumentAs leave the store's
meta and data caches unchanged, and so do writeDocument and listDir:
among the public document operations only saveDocument and dropDocument
mutate the caches. -/
theorem c10_read_ops_frame (s : Store) (uri ext chunk : String) (d : JSValue)
    (dep : Nat) (sk : Bool) :
    ((statDocument s uri).2.1.meta = s.meta ∧ (statDocument s uri).2.1.data = s.data) ∧
    ((loadDocument s uri d).2.1.meta = s.meta ∧ (loadDocument s uri d).2.1.data = s.data) ∧
    ((loadDocumentAs s ext uri d).2.1.meta = s.meta ∧
      (loadDocumentAs s ext uri d).2.1.data = s.data) ∧
    ((writeDocument s uri chunk).2.1.meta = s.meta ∧
      (writeDocument s uri chunk).2.1.data = s.data) ∧
    ((listDir s uri dep sk).2.1.meta = s.meta ∧ (listDir s uri dep sk).2.1.data = s.data) := by
  have hstat : (statDocument s uri).2.1 = s := by
    simp only [statDocument]
    split <;> rfl
  have hloadAs : ∀ e u dv, (loadDocumentAs s e u dv).2.1 = s := by
    intro e u dv
    simp only [loadDocumentAs, loadDocumentAsWith]
    split
    · rfl
    · split
      · rfl
      · rfl
  have hwrite : (writeDocument s uri chunk).2.1.meta = s.meta ∧
      (writeDocument s uri chunk).2.1.data = s.data := by
    simp only [writeDocument]
    split
    · exact ⟨rfl, rfl⟩
    · rename_i tr heq
      split
      · rename_i trB heqB
        exact ⟨rfl, rfl⟩
      · rename_i s1 trB heqB
        have hb := _buildPath_frame s uri s1 trB heqB
        split
        · simpa using ⟨hb.2.2.1, hb.2.2.2⟩
        · simpa using ⟨hb.2.2.1, hb.2.2.2⟩
  have hlist : (listDir s uri dep sk).2.1 = s := by
    simp only [listDir]
    split <;> rfl
  refine ⟨⟨by rw [hstat], by rw [hstat]⟩, ?_, ?_, hwrite, ⟨by rw [hlist], by rw [hlist]⟩⟩
  · unfold loadDocument
    rw [hloadAs]
    exact ⟨rfl, rfl⟩
  · rw [hloadAs]
    exact ⟨rfl, rfl⟩

/-- statDocument never moves the store. -/
theorem statDocument_store (s : Store) (uri : String) :
    (statDocument s uri).2.1 = s := by
  simp only [statDocument]
  split <;> rfl

/-- The stat statDocument returns is determined by the node at the
URI's location. -/
theorem statDocument_fst (s : Store) (uri : String) :
    (statDocument s uri).1 =
      (match fsStatNode s.fs (locOf s uri) with
       | none => { hasError := true }
       | some node => createDocumentStatFrom node) := by
  simp only [statDocument, locOf]
  split <;> rfl

/-- Nonexistence in the stat is exactly a missing node. -/
theorem statDocument_not_exists_iff (s : Store) (uri : String) :
    (statDocument s uri).1.exists = false ↔ fsStatNode s.fs (locOf s uri) = none := by
  rw [statDocument_fst]
  cases hn : fsStatNode s.fs (locOf s uri) with
  | none => simp [DocumentStat.exists]
  | some node =>
    cases node <;> simp [createDocumentStatFrom, DocumentStat.exists]

/-- A lookup after removal finds nothing. -/
theorem fsFind_removed (es : List (String × FNode)) (p : String) :
    fsFind ⟨es.filter (·.1 ≠ p)⟩ p = none := by
  unfold fsFind
  induction es with
  | nil => rfl
  | cons kv rest ih =>
    by_cases h : kv.1 = p
    · simp only [List.filter_cons, h]
      simpa using ih
    · simp only [List.filter_cons, h]
      simpa [h] using ih

/-- Successful unlink: the target was a regular file (so not "/") and the
result drops exactly its entry. -/
theorem fsUnlink_ok (fs : FSState) (p : String) (fs2 : FSState)
    (h : fsUnlink fs p = .ok fs2) :
    isFileAt fs p = true ∧ p ≠ "/" ∧ fs2 = ⟨fs.entries.filter (·.1 ≠ p)⟩ := by
  unfold fsUnlink at h
  split at h
  · rename_i hf
    refine ⟨hf, ?_, by injection h with h2; exact h2.symm⟩
    intro hp
    rw [hp] at hf
    unfold isFileAt at hf
    simp at hf
  · cases h

/-- Successful rmdir: the target was not "/" and the result drops exactly
its entry. -/
theorem fsRmdir_ok (fs : FSState) (p : String) (fs2 : FSState)
    (h : fsRmdir fs p = .ok fs2) :
    p ≠ "/" ∧ fs2 = ⟨fs.entries.filter (·.1 ≠ p)⟩ := by
  unfold fsRmdir at h
  split at h
  · rename_i hc
    exact ⟨hc.1, by injection h with h2; exact h2.symm⟩
  · cases h

/-- After removal the stat shows nothing. -/
theorem fsStatNode_removed (fs : FSState) (p : String) (hp : p ≠ "/") :
    fsStatNode ⟨fs.entries.filter (·.1 ≠ p)⟩ p = none := by
  unfold fsStatNode
  rw [if_neg hp]
  exact fsFind_removed fs.entries p

/-- C7: dropDocument on a missing document returns false immediately,
leaving the store untouched and throwing nothing; consequently whenever
a dropDocument call returns (with either verdict), a second call on the
same URI returns false. -/
theorem c7_dropDocument_idempotent (s : Store) (uri : String) :
    ((ensureAccess s uri "d").1 = .ok () →
      (statDocument s uri).1.exists = false →
      (dropDocument s uri).1 = .ok false ∧ (dropDocument s uri).2.1 = s) ∧
    (∀ b s' tr, dropDocument s uri = (.ok b, s', tr) →
      (dropDocument s' uri).1 = .ok false) := by
  have missing_case : ∀ (t : Store),
      (ensureAccess t uri "d").1 = .ok () →
      (statDocument t uri).1.exists = false →
      (dropDocument t uri).1 = .ok false ∧ (dropDocument t uri).2.1 = t := by
    intro t hacc hmiss
    simp only [dropDocument]
    rcases hea : ensureAccess t uri "d" with ⟨r, trA⟩
    rcases r with e | u
    · rw [hea] at hacc
      cases hacc
    · rcases hsd : statDocument t uri with ⟨stat, s9, tr1⟩
      have hx : stat.exists = false := by
        have h0 := hmiss
        rw [hsd] at h0
        exact h0
      dsimp only
      rw [if_pos (show ¬ stat.exists = true by simp [hx])]
      exact ⟨rfl, rfl⟩
  constructor
  · intro hacc hmiss
    exact missing_case s hacc hmiss
  · intro b s' tr h
    unfold dropDocument at h
    split at h
    · rename_i e trA heqEA
      simp only [Prod.mk.injEq] at h
      exact absurd h.1 (fun hx => Except.noConfusion hx)
    · rename_i u trA heqEA
      have hacc1 : (ensureAccess s uri "d").1 = .ok () := by rw [heqEA]
      rcases hsd : statDocument s uri with ⟨stat, s9, tr1⟩
      rw [hsd] at h
      dsimp only at h
      by_cases hex : stat.exists = true
      · rw [if_neg (by simp [hex])] at h
        by_cases hdir : stat.isDirectory = true
        · rw [if_pos hdir] at h
          split at h
          · simp only [Prod.mk.injEq] at h
            exact absurd h.1 (fun hx => Except.noConfusion hx)
          · split at h
            · rename_i e hrm
              simp only [Prod.mk.injEq] at h
              exact absurd h.1 (fun hx => Except.noConfusion hx)
            · rename_i fs2 hrm
              simp only [Prod.mk.injEq, Except.ok.injEq] at h
              obtain ⟨hb, hs', htr⟩ := h
              obtain ⟨hp, hfs2⟩ := fsRmdir_ok s.fs _ fs2 hrm
              subst hs'
              refine (missing_case _ (by
                rw [← ensureAccess_fst_level s _ uri "d" "d"]
                exact hacc1) ?_).1
              rw [statDocument_not_exists_iff]
              show fsStatNode fs2 (nodeResolve [s.cwd, s.root, resolveSync [uri]]) = none
              rw [hfs2]
              exact fsStatNode_removed s.fs _ hp
        · rw [if_neg hdir] at h
          split at h
          · rename_i e hun
            simp only [Prod.mk.injEq] at h
            exact absurd h.1 (fun hx => Except.noConfusion hx)
          · rename_i fs2 hun
            obtain ⟨hfile, hp, hfs2⟩ := fsUnlink_ok s.fs _ fs2 hun
            rcases hsd2 : statDocument { s with fs := fs2 } uri with ⟨stat2, s8, tr2⟩
            rw [hsd2] at h
            dsimp only at h
            have hx2 : stat2.exists = false := by
              have h5 : (statDocument { s with fs := fs2 } uri).1.exists = false := by
                rw [statDocument_not_exists_iff]
                show fsStatNode fs2 (nodeResolve [s.cwd, s.root, resolveSync [uri]]) = none
                rw [hfs2]
                exact fsStatNode_removed s.fs _ hp
              rw [hsd2] at h5
              exact h5
            rw [if_pos (by simp [hx2] : ¬ stat2.exists = true)] at h
            simp only [Prod.mk.injEq, Except.ok.injEq] at h
            obtain ⟨hb, hs', htr⟩ := h
            subst hs'
            refine (missing_case _ (by
              rw [← ensureAccess_fst_level s _ uri "d" "d"]
              exact hacc1) ?_).1
            rw [statDocument_not_exists_iff]
            show fsStatNode fs2 (nodeResolve [s.cwd, s.root, resolveSync [uri]]) = none
            rw [hfs2]
            exact fsStatNode_removed s.fs _ hp
      · rw [if_pos (by simp [hex])] at h
        simp only [Prod.mk.injEq, Except.ok.injEq] at h
        obtain ⟨hb, hs', htr⟩ := h
        subst hs'
        refine (missing_case s hacc1 ?_).1
        rw [hsd]
        simpa using hex

/-- C7 witness: the drop of a missing document returns false leaving the
store alone, and dropping the same existing file twice ends in false. -/
theorem c7_dropDocument_idempotent_witness :
    ((dropDocument wStore "nope.txt").1 = .ok false ∧
      (dropDocument wStore "nope.txt").2.1 = wStore) ∧
    (dropDocument (dropDocument wStore "a.txt").2.1 "a.txt").1 = .ok false :=
  ⟨(c7_dropDocument_idempotent wStore "nope.txt").1 (by rfl) (by rfl),
   (c7_dropDocument_idempotent wStore "a.txt").2 true
     (dropDocument wStore "a.txt").2.1 (dropDocument wStore "a.txt").2.2 (by rfl)⟩

/-- A lookup finds the entry a set just placed. -/
theorem fsFind_setEntry_self (es : List (String × FNode)) (p : String) (v : FNode) :
    fsFind ⟨setEntry es p v⟩ p = some v := by
  unfold fsFind setEntry
  by_cases hany : es.any (·.1 = p)
  · rw [if_pos hany]
    induction es with
    | nil => simp at hany
    | cons kv rest ih =>
      by_cases h : kv.1 = p
      · simp [List.find?, h]
      · simp only [List.map_cons, if_neg h]
        simp only [List.any_cons] at hany
        have hrest : rest.any (·.1 = p) := by
          rcases Bool.or_eq_true _ _ |>.mp hany with h2 | h2
          · exact absurd (by simpa using h2) h
          · exact h2
        simpa [List.find?, h] using ih hrest
  · rw [if_neg hany]
    induction es with
    | nil => simp [List.find?]
    | cons kv rest ih =>
      simp only [List.any_cons, Bool.or_eq_true, not_or] at hany
      have h : ¬ kv.1 = p := by simpa using hany.1
      simp only [List.cons_append]
      simpa [List.find?, h] using ih (by simpa using hany.2)

/-- Successful write: the target was not "/" and its entry now holds the
written content. -/
theorem fsWriteFile_ok (fs : FSState) (p c : String) (fs2 : FSState)
    (h : fsWriteFile fs p c = .ok fs2) :
    p ≠ "/" ∧ fs2 = ⟨setEntry fs.entries p (.file c)⟩ := by
  unfold fsWriteFile at h
  split at h
  · cases h
  · rename_i hdir
    split at h
    · cases h
    · refine ⟨?_, by injection h with h2; exact h2.symm⟩
      intro hp
      rw [hp] at hdir
      unfold isDirAt at hdir
      simp at hdir

/-- A write-and-report wrapper yields exactly the written text and the
written filesystem. -/
theorem writeWrap_ok (fs : FSState) (file t0 : String) (fs2 : FSState) (t : String)
    (h : (match fsWriteFile fs file t0 with
          | .ok f => Except.ok (f, t0)
          | .error e => .error e) = .ok (fs2, t)) :
    t = t0 ∧ fsWriteFile fs file t0 = .ok fs2 := by
  split at h
  · rename_i f hw
    simp only [Except.ok.injEq, Prod.mk.injEq] at h
    exact ⟨h.2.symm, h.1 ▸ hw⟩
  · cases h

/-- A successful saveJSON wrote the reported text. -/
theorem saveJSON_ok (fs : FSState) (file : String) (data : JSValue) (space : Nat)
    (fs2 : FSState) (t : String) (h : saveJSON fs file data space = .ok (fs2, t)) :
    fsWriteFile fs file t = .ok fs2 := by
  dsimp only [saveJSON] at h
  obtain ⟨rfl, hw⟩ := writeWrap_ok _ _ _ _ _ h
  exact hw

/-- A successful saveCSV wrote the reported text. -/
theorem saveCSV_ok (fs : FSState) (file : String)
    (rows : List (List (String × JSValue))) (d q e : Char)
    (fs2 : FSState) (t : String) (h : saveCSV fs file rows d q e = .ok (fs2, t)) :
    fsWriteFile fs file t = .ok fs2 := by
  dsimp only [saveCSV] at h
  obtain ⟨rfl, hw⟩ := writeWrap_ok _ _ _ _ _ h
  exact hw

/-- A successful saveTXT wrote the reported text. -/
theorem saveTXT_ok (fs : FSState) (file : String) (data : JSValue) (delim : String)
    (fs2 : FSState) (t : String) (h : saveTXT fs file data delim = .ok (fs2, t)) :
    fsWriteFile fs file t = .ok fs2 := by
  dsimp only [saveTXT] at h
  obtain ⟨rfl, hw⟩ := writeWrap_ok _ _ _ _ _ h
  exact hw

/-- A successful saver run of the dispatcher reports the written content
as a string and leaves a regular file at the target. -/
theorem fsSave_written (fs : FSState) (file : String) (data : JSValue)
    (fs2 : FSState) (res : JSValue) (h : fsSave fs file data = .ok (fs2, res)) :
    (∃ t, res = .vstr t) ∧ ∃ c, fsStatNode fs2 file = some (.file c) := by
  have hwf : ∀ (c : String), fsWriteFile fs file c = .ok fs2 →
      fsStatNode fs2 file = some (.file c) := by
    intro c hw
    obtain ⟨hp, hfs2⟩ := fsWriteFile_ok fs file c fs2 hw
    rw [hfs2]
    unfold fsStatNode
    rw [if_neg hp]
    exact fsFind_setEntry_self fs.entries file (.file c)
  unfold fsSave at h
  split at h
  · -- json
    split at h
    · rename_i fs2x t hsj
      simp only [Prod.mk.injEq, Except.ok.injEq] at h
      obtain ⟨rfl, rfl⟩ := h
      exact ⟨⟨t, rfl⟩, t, hwf t (saveJSON_ok _ _ _ _ _ _ hsj)⟩
    · cases h
  · -- csv
    split at h
    · split at h
      · rename_i fs2x t hsc
        simp only [Prod.mk.injEq, Except.ok.injEq] at h
        obtain ⟨rfl, rfl⟩ := h
        exact ⟨⟨t, rfl⟩, t, hwf t (saveCSV_ok _ _ _ _ _ _ _ _ hsc)⟩
      · cases h
    · cases h
  · -- tsv
    split at h
    · split at h
      · rename_i fs2x t hsc
        simp only [Prod.mk.injEq, Except.ok.injEq] at h
        obtain ⟨rfl, rfl⟩ := h
        exact ⟨⟨t, rfl⟩, t, hwf t (saveCSV_ok _ _ _ _ _ _ _ _ hsc)⟩
      · cases h
    · cases h
  · cases h
  · cases h
  · cases h
  · -- txt
    split at h
    · rename_i fs2x t hst
      simp only [Prod.mk.injEq, Except.ok.injEq] at h
      obtain ⟨rfl, rfl⟩ := h
      exact ⟨⟨t, rfl⟩, t, hwf t (saveTXT_ok _ _ _ _ _ _ hst)⟩
    · cases h

/-- The registered saver chain never runs out without a verdict: its one
saver reports a string on success. -/
theorem runSavers_dbfs_some (fs : FSState) (path : String) (doc : JSValue)
    (ext : String) (o : Option FSState) (tr : List Ev)
    (h : runSavers fs path doc ext dbfsSavers 0 = (.ok o, tr)) :
    ∃ fs2, o = some fs2 ∧ ∃ c, fsStatNode fs2 path = some (.file c) := by
  simp only [dbfsSavers, runSavers] at h
  split at h
  · cases h
  · rename_i fs2 res hsv
    obtain ⟨⟨t, rfl⟩, c, hc⟩ := fsSave_written fs path doc fs2 res hsv
    rw [if_neg (by simp [JSValue.isFalse])] at h
    simp only [Prod.mk.injEq, Except.ok.injEq] at h
    exact ⟨fs2, h.1.symm, c, hc⟩

/-- Setting the sentinel keeps the data cache sentinel-only. -/
theorem dataSentinel_mapSet (m : List (String × JSValue)) (k : String)
    (h : m.all (fun kv => kv.2.isFalse) = true) :
    (mapSet m k (.vbool false)).all (fun kv => kv.2.isFalse) = true := by
  unfold mapSet
  split
  · rw [List.all_eq_true] at h ⊢
    intro kv hkv
    rcases List.mem_map.mp hkv with ⟨kv0, hkv0, rfl⟩
    by_cases he : kv0.1 = k
    · simp [he, JSValue.isFalse]
    · simpa [he] using h kv0 hkv0
  · rw [List.all_eq_true] at h ⊢
    intro kv hkv
    rcases List.mem_append.mp hkv with h2 | h2
    · exact h kv h2
    · rcases List.mem_singleton.mp h2 with rfl
      rfl

/-- Deleting keeps the data cache sentinel-only. -/
theorem dataSentinel_mapDelete (m : List (String × JSValue)) (k : String)
    (h : m.all (fun kv => kv.2.isFalse) = true) :
    (mapDelete m k).all (fun kv => kv.2.isFalse) = true := by
  rw [List.all_eq_true] at h ⊢
  intro kv hkv
  exact h kv (List.mem_of_mem_filter hkv)

/-- The lookup after a set finds the set value. -/
theorem mapGet_mapSet_self (m : List (String × α)) (k : String) (v : α) :
    mapGet (mapSet m k v) k = some v := by
  unfold mapGet mapSet
  by_cases hany : m.any (·.1 = k)
  · rw [if_pos hany]
    induction m with
    | nil => simp at hany
    | cons kv rest ih =>
      by_cases h : kv.1 = k
      · simp [List.find?, h]
      · simp only [List.map_cons, if_neg h]
        simp only [List.any_cons] at hany
        have hrest : rest.any (·.1 = k) := by
          rcases Bool.or_eq_true _ _ |>.mp hany with h2 | h2
          · exact absurd (by simpa using h2) h
          · exact h2
        simpa [List.find?, h] using ih hrest
  · rw [if_neg hany]
    induction m with
    | nil => simp [List.find?]
    | cons kv rest ih =>
      simp only [List.any_cons, Bool.or_eq_true, not_or] at hany
      have h : ¬ kv.1 = k := by simpa using hany.1
      simp only [List.cons_append]
      simpa [List.find?, h] using ih (by simpa using hany.2)


/-- statDocument's stat depends only on the filesystem and location. -/
theorem statDocument_fst_congr (s s2 : Store) (uri : String)
    (hc : s.cwd = s2.cwd) (hr : s.root = s2.root) (hf : s.fs = s2.fs) :
    (statDocument s uri).1 = (statDocument s2 uri).1 := by
  rw [statDocument_fst, statDocument_fst]
  unfold locOf
  rw [hc, hr, hf]

/-- The store loadDocumentAsWith leaves behind is the input store. -/
theorem loadDocumentAsWith_store (chain : List Loader) (s : Store) (ext uri : String)
    (dv : JSValue) : (loadDocumentAsWith chain s ext uri dv).2.1 = s := by
  simp only [loadDocumentAsWith]
  split
  · rfl
  · split
    · rfl
    · rfl

/-- The store listDir leaves behind is the input store. -/
theorem listDir_store (s : Store) (uri : String) (dep : Nat) (sk : Bool) :
    (listDir s uri dep sk).2.1 = s := by
  simp only [listDir]
  split <;> rfl

/-- writeDocument never touches the data cache. -/
theorem writeDocument_data (s : Store) (uri chunk : String) :
    (writeDocument s uri chunk).2.1.data = s.data := by
  simp only [writeDocument]
  split
  · rfl
  · split
    · rfl
    · rename_i s1 trB heqB
      have hb := _buildPath_frame s uri s1 trB heqB
      split
      · exact hb.2.2.2
      · exact hb.2.2.2

/-- The data cache dropDocument leaves behind: unchanged, or with the
resolved URI deleted. -/
theorem dropDocument_data (s : Store) (uri : String) :
    (dropDocument s uri).2.1.data = s.data ∨
    (dropDocument s uri).2.1.data = mapDelete s.data (resolveSync [uri]) := by
  unfold dropDocument
  split
  · exact Or.inl rfl
  · dsimp only
    split
    · exact Or.inl rfl
    · split
      · split
        · exact Or.inl rfl
        · split
          · exact Or.inl rfl
          · exact Or.inr rfl
      · split
        · exact Or.inl rfl
        · split
          · exact Or.inr rfl
          · exact Or.inl rfl

/-- The data cache saveDocument leaves behind: unchanged, or with the
not-loaded sentinel set at the URI. -/
theorem saveDocument_data (s : Store) (uri : String) (doc : JSValue) :
    (saveDocument s uri doc).2.1.data = s.data ∨
    (saveDocument s uri doc).2.1.data = mapSet s.data uri (.vbool false) := by
  unfold saveDocument
  split
  · exact Or.inl rfl
  · split
    · exact Or.inl rfl
    · rename_i s1 trB heqB
      have hb := _buildPath_frame s uri s1 trB heqB
      dsimp only
      split
      · exact Or.inl hb.2.2.2
      · exact Or.inl hb.2.2.2
      · right
        show mapSet s1.data uri (.vbool false) = mapSet s.data uri (.vbool false)
        rw [hb.2.2.2]

/-- A regular file at the URI's location makes the stat a file stat. -/
theorem statDocument_isFile_of (s : Store) (uri c : String)
    (h : fsStatNode s.fs (locOf s uri) = some (.file c)) :
    ((statDocument s uri).1).isFile = true := by
  rw [statDocument_fst, h]
  rfl

/-- C6: a successful saveDocument returns true, re-stats the saved file
(the meta cache maps the URI to the fresh stat of a regular file) and
sets the data cache to the boolean not-loaded sentinel; and across every
documented operation a sentinel-only data cache stays sentinel-only. -/
theorem c6_saveDocument_caches (s : Store) (uri ext chunk d : String)
    (doc dv : JSValue) (dep : Nat) (sk : Bool) :
    (∀ b s2 tr, saveDocument s uri doc = (.ok b, s2, tr) →
      b = true ∧
      mapGet s2.meta uri = some (statDocument s2 uri).1 ∧
      ((statDocument s2 uri).1).isFile = true ∧
      mapGet s2.data uri = some (.vbool false)) ∧
    (dataSentinelOnly s = true →
      dataSentinelOnly (statDocument s uri).2.1 = true ∧
      dataSentinelOnly (loadDocument s uri dv).2.1 = true ∧
      dataSentinelOnly (loadDocumentAs s ext uri dv).2.1 = true ∧
      dataSentinelOnly (saveDocument s uri doc).2.1 = true ∧
      dataSentinelOnly (writeDocument s uri chunk).2.1 = true ∧
      dataSentinelOnly (dropDocument s uri).2.1 = true ∧
      dataSentinelOnly (listDir s d dep sk).2.1 = true) := by
  constructor
  · intro b s2 tr h
    unfold saveDocument at h
    split at h
    · simp at h
    · split at h
      · simp at h
      · rename_i s1 trB heqB
        dsimp only at h
        split at h
        · simp at h
        · rename_i trS heqS
          obtain ⟨fs2x, hx, -⟩ := runSavers_dbfs_some _ _ _ _ _ _ heqS
          simp at hx
        · rename_i fs2 trS heqS
          obtain ⟨fs2x, hx, c, hc⟩ := runSavers_dbfs_some _ _ _ _ _ _ heqS
          rw [Option.some_inj] at hx
          subst hx
          simp only [Prod.mk.injEq, Except.ok.injEq] at h
          obtain ⟨hb, hs2, -⟩ := h
          subst hs2
          refine ⟨hb.symm, ?_, ?_, ?_⟩
          · show mapGet (mapSet s1.meta uri _) uri = _
            rw [mapGet_mapSet_self]
            rw [Option.some_inj]
            exact statDocument_fst_congr _ _ uri rfl rfl rfl
          · exact statDocument_isFile_of _ uri c hc
          · exact mapGet_mapSet_self _ _ _
  · intro hs
    refine ⟨?_, ?_, ?_, ?_, ?_, ?_, ?_⟩
    · rw [statDocument_store]; exact hs
    · unfold loadDocument loadDocumentAs
      rw [loadDocumentAsWith_store]; exact hs
    · unfold loadDocumentAs
      rw [loadDocumentAsWith_store]; exact hs
    · rcases saveDocument_data s uri doc with h | h
      · unfold dataSentinelOnly; rw [h]; exact hs
      · unfold dataSentinelOnly; rw [h]
        exact dataSentinel_mapSet _ _ hs
    · unfold dataSentinelOnly; rw [writeDocument_data]; exact hs
    · rcases dropDocument_data s uri with h | h
      · unfold dataSentinelOnly; rw [h]; exact hs
      · unfold dataSentinelOnly; rw [h]
        exact dataSentinel_mapDelete _ _ hs
    · rw [listDir_store]; exact hs

/-- C6 witness: a concrete save plants the sentinel, and a concrete drop
keeps the cache sentinel-only. -/
theorem c6_saveDocument_caches_witness :
    mapGet (saveDocument wStore "b.txt" (.vstr "hi")).2.1.data "b.txt" =
      some (.vbool false) ∧
    dataSentinelOnly (dropDocument wStore "a.txt").2.1 = true := by
  have H := c6_saveDocument_caches wStore "b.txt" ".txt" "A" "" (.vstr "hi")
    (.vstr "") 0 false
  constructor
  · exact (H.1 true (saveDocument wStore "b.txt" (.vstr "hi")).2.1
      (saveDocument wStore "b.txt" (.vstr "hi")).2.2 rfl).2.2.2
  · exact (H.2 rfl).2.2.2.2.2.1

/-- The loader runner computes exactly the spec chain semantics,
regardless of the numbering offset. -/
theorem runLoaders_fst (fs : FSState) (path ext : String) (chain : List Loader) :
    ∀ i, (runLoaders fs path ext chain i).1 = specLoaderChain fs path ext chain := by
  induction chain with
  | nil => intro i; rfl
  | cons l rest ih =>
    intro i
    have ih2 := ih (i + 1)
    rcases hrec : runLoaders fs path ext rest (i + 1) with ⟨r, tr2⟩
    rw [hrec] at ih2
    cases hl : l fs path ext with
    | error e => simp [runLoaders, specLoaderChain, hl]
    | ok v =>
      by_cases hv : v.isFalse
      · simp [runLoaders, specLoaderChain, hl, hv, hrec, ih2]
      · simp [runLoaders, specLoaderChain, hl, hv]

/-- C5: under a granted read check, a missing path returns the default
value with no loader invoked, and an existing path returns exactly the
spec's first-match verdict of the registered chain (JS false when no
loader matched, a loader's error propagated). -/
theorem c5_load_missing_default_else_chain (chain : List Loader) (s : Store)
    (ext uri : String) (dv : JSValue) (u : Unit) (tr0 : List Ev)
    (hacc : ensureAccess s uri "r" = (.ok u, tr0)) :
    (fsExists s.fs (locOf s uri) = false →
      (loadDocumentAsWith chain s ext uri dv).1 = .ok dv ∧
      ∀ i, Ev.loaderCall i ∉ (loadDocumentAsWith chain s ext uri dv).2.2) ∧
    (fsExists s.fs (locOf s uri) = true →
      (loadDocumentAsWith chain s ext uri dv).1 =
        specLoaderChain s.fs (locOf s uri) ext chain) := by
  have htr : tr0 = [.access uri "r"] := by
    have h2 := ensureAccess_trace s uri "r"
    rw [hacc] at h2
    exact h2
  subst htr
  constructor
  · intro hex
    rw [show (locOf s uri) = nodeResolve [s.cwd, s.root, resolveSync [uri]] from rfl] at hex
    simp only [loadDocumentAsWith, hacc, hex, Bool.not_false, if_true]
    refine ⟨rfl, ?_⟩
    intro i
    simp
  · intro hex
    rw [show (locOf s uri) = nodeResolve [s.cwd, s.root, resolveSync [uri]] from rfl] at hex
    simp only [loadDocumentAsWith, hacc, hex, Bool.not_true, if_false]
    rcases hrun : runLoaders s.fs (nodeResolve [s.cwd, s.root, resolveSync [uri]]) ext chain 0
      with ⟨r, tr2⟩
    have h1 := runLoaders_fst s.fs (nodeResolve [s.cwd, s.root, resolveSync [uri]]) ext chain 0
    rw [hrun] at h1
    simp only [hrun]
    exact h1

/-- C5 witness: on a concrete store an existing .txt document follows
the spec chain and a missing one falls back to the default. -/
theorem c5_load_missing_default_else_chain_witness :
    (loadDocumentAsWith dbfsLoaders wStore ".txt" "a.txt" (.vnum 7)).1 =
      specLoaderChain wStore.fs (locOf wStore "a.txt") ".txt" dbfsLoaders ∧
    (loadDocumentAsWith dbfsLoaders wStore ".txt" "missing.txt" (.vnum 7)).1 =
      .ok (.vnum 7) := by
  have H1 := c5_load_missing_default_else_chain dbfsLoaders wStore ".txt" "a.txt"
    (.vnum 7) () [.access "a.txt" "r"] rfl
  have H2 := c5_load_missing_default_else_chain dbfsLoaders wStore ".txt" "missing.txt"
    (.vnum 7) () [.access "missing.txt" "r"] rfl
  exact ⟨H1.2 rfl, (H2.1 rfl).1⟩

/-- C1 (amended): the four guarded operations (loadDocumentAs and thus
loadDocument, saveDocument, writeDocument, dropDocument) emit their
access event before anything else, and when the check denies they
return the denial untouched: store unchanged and the access event the
whole trace, so no native call was made.  statDocument and listDir are
exceptions: see the counterexample. -/
theorem c1_guarded_ops_check_access_first (s : Store) (uri ext chunk : String)
    (dv doc : JSValue) :
    ((loadDocumentAs s ext uri dv).2.2.head? = some (.access uri "r")) ∧
    ((saveDocument s uri doc).2.2.head? = some (.access uri "w")) ∧
    ((writeDocument s uri chunk).2.2.head? = some (.access uri "w")) ∧
    ((dropDocument s uri).2.2.head? = some (.access uri "d")) ∧
    (∀ e, (ensureAccess s uri "r").1 = .error e →
      loadDocumentAs s ext uri dv = (.error e, s, [.access uri "r"]) ∧
      saveDocument s uri doc = (.error e, s, [.access uri "w"]) ∧
      writeDocument s uri chunk = (.error e, s, [.access uri "w"]) ∧
      dropDocument s uri = (.error e, s, [.access uri "d"])) := by
  have htrace : ∀ level, (ensureAccess s uri level).2 = [.access uri level] :=
    fun level => ensureAccess_trace s uri level
  refine ⟨?_, ?_, ?_, ?_, ?_⟩
  · unfold loadDocumentAs loadDocumentAsWith
    rcases hacc : ensureAccess s uri "r" with ⟨res, tr⟩
    have htr : tr = [.access uri "r"] := by
      have h2 := htrace "r"
      rw [hacc] at h2
      exact h2
    subst htr
    cases res with
    | error e => rfl
    | ok u =>
      dsimp only
      split
      · rfl
      · rcases hrun : runLoaders s.fs (nodeResolve [s.cwd, s.root, resolveSync [uri]])
          ext dbfsLoaders 0 with ⟨r, tr2⟩
        rfl
  · unfold saveDocument
    rcases hacc : ensureAccess s uri "w" with ⟨res, tr⟩
    have htr : tr = [.access uri "w"] := by
      have h2 := htrace "w"
      rw [hacc] at h2
      exact h2
    subst htr
    cases res with
    | error e => rfl
    | ok u =>
      dsimp only
      split
      · rfl
      · split <;> rfl
  · unfold writeDocument
    rcases hacc : ensureAccess s uri "w" with ⟨res, tr⟩
    have htr : tr = [.access uri "w"] := by
      have h2 := htrace "w"
      rw [hacc] at h2
      exact h2
    subst htr
    cases res with
    | error e => rfl
    | ok u =>
      dsimp only
      split
      · rfl
      · split <;> rfl
  · unfold dropDocument
    rcases hacc : ensureAccess s uri "d" with ⟨res, tr⟩
    have htr : tr = [.access uri "d"] := by
      have h2 := htrace "d"
      rw [hacc] at h2
      exact h2
    subst htr
    cases res with
    | error e => rfl
    | ok u =>
      dsimp only
      rcases hst : statDocument s uri with ⟨stat, sx, tr1⟩
      split
      · rfl
      · split
        · split
          · rfl
          · split <;> rfl
        · split
          · rfl
          · rcases hst2 : statDocument _ uri with ⟨stat2, sy, tr2⟩
            split <;> rfl
  · intro e he
    have hlevel : ∀ level, (ensureAccess s uri level).1 = .error e := by
      intro level
      rw [← ensureAccess_fst_level s s uri "r" level]
      exact he
    have hpair : ∀ level, ensureAccess s uri level = (.error e, [.access uri level]) := by
      intro level
      have h1 := hlevel level
      have h2 := htrace level
      rcases hacc : ensureAccess s uri level with ⟨res, tr⟩
      rw [hacc] at h1 h2
      dsimp only at h1 h2
      rw [h1, h2]
    refine ⟨?_, ?_, ?_, ?_⟩
    · unfold loadDocumentAs loadDocumentAsWith
      rw [hpair "r"]
    · unfold saveDocument
      rw [hpair "w"]
    · unfold writeDocument
      rw [hpair "w"]
    · unfold dropDocument
      rw [hpair "d"]

/-- C1 witness: a concrete denied drop is the bare denial. -/
theorem c1_guarded_ops_check_access_first_witness :
    dropDocument wStore "..x" =
      (.error "No access outside of the db container", wStore, [.access "..x" "d"]) := by
  have H := c1_guarded_ops_check_access_first wStore "..x" ".txt" "A"
    (.vstr "") (.vstr "x")
  exact (H.2.2.2.2 "No access outside of the db container" rfl).2.2.2

/-- C1 counterexample: statDocument performs a native existsSync call
with no access event at all, even on a URI the access policy denies
(and on this URI the check would deny), refuting the clause for
statDocument. -/
theorem c1_statDocument_unchecked_cex :
    (ensureAccess wStore "..x" "r").1 =
      .error "No access outside of the db container" ∧
    (statDocument wStore "..x").2.2 = [.native "existsSync"] := by
  exact ⟨rfl, rfl⟩

/-- The directories-then-others partition of any entry list keys the
order on the stat's directory flag. -/
theorem dirsBeforeFiles_partition (l : List DocumentEntry) :
    dirsBeforeFiles (l.filter (·.stat.isDirectory) ++
      l.filter (fun e => !e.stat.isDirectory)) := by
  unfold dirsBeforeFiles
  rw [List.pairwise_append]
  refine ⟨?_, ?_, ?_⟩
  · exact List.pairwise_of_forall_mem_list
      (fun a ha b _ => fun _ => by simpa using (List.mem_filter.mp ha).2)
  · exact List.pairwise_of_forall_mem_list
      (fun a _ b hb => fun hbd => by
        have h2 := (List.mem_filter.mp hb).2
        rw [hbd] at h2
        simp at h2)
  · intro a ha b hb
    intro _
    simpa using (List.mem_filter.mp ha).2

/-- C9 (amended): on an existing directory, listDir returns one level:
a permutation of the native children each labelled with the requested
depth, each carrying the child's real stat unless skipStat (then the
blank default stat), partitioned with stat-directories first; under
skipStat every stat is blank, so the sort keys on nothing and the
native order survives even when a real directory follows a file (see
the counterexample). -/
theorem c9_listDir_one_level (s : Store) (uri : String) (dep : Nat) (sk : Bool)
    (hdir : isDirAt s.fs (nodeResolve [s.cwd, s.root, uri]) = true) :
    ∃ es,
      listDir s uri dep sk = (.ok es, s,
        .native "readdirSync" :: (if sk then [] else
          (fsChildren s.fs (nodeResolve [s.cwd, s.root, uri])).map
            (fun _ => .native "statSync"))) ∧
      es.Perm ((fsChildren s.fs (nodeResolve [s.cwd, s.root, uri])).map
        (listEntryOf s (nodeResolve [s.cwd, s.root, uri]) dep sk)) ∧
      (∀ e ∈ es, e.depth = dep) ∧
      (sk = false → ∀ e ∈ es,
        ∃ nv ∈ fsChildren s.fs (nodeResolve [s.cwd, s.root, uri]),
          e.name = nv.1 ∧ e.stat = createDocumentStatFrom nv.2) ∧
      (sk = true → ∀ e ∈ es, e.stat = ({} : DocumentStat)) ∧
      dirsBeforeFiles es := by
  have hmem : ∀ e,
      e ∈ ((fsChildren s.fs (nodeResolve [s.cwd, s.root, uri])).map
          (listEntryOf s (nodeResolve [s.cwd, s.root, uri]) dep sk)).filter
            (·.stat.isDirectory) ++
        ((fsChildren s.fs (nodeResolve [s.cwd, s.root, uri])).map
          (listEntryOf s (nodeResolve [s.cwd, s.root, uri]) dep sk)).filter
            (fun e => !e.stat.isDirectory) →
      ∃ nv ∈ fsChildren s.fs (nodeResolve [s.cwd, s.root, uri]),
        e = listEntryOf s (nodeResolve [s.cwd, s.root, uri]) dep sk nv := by
    intro e he
    have he2 : e ∈ (fsChildren s.fs (nodeResolve [s.cwd, s.root, uri])).map
        (listEntryOf s (nodeResolve [s.cwd, s.root, uri]) dep sk) := by
      rcases List.mem_append.mp he with h2 | h2
      · exact List.mem_of_mem_filter h2
      · exact List.mem_of_mem_filter h2
    rcases List.mem_map.mp he2 with ⟨nv, hnv, rfl⟩
    exact ⟨nv, hnv, rfl⟩
  refine ⟨((fsChildren s.fs (nodeResolve [s.cwd, s.root, uri])).map
      (listEntryOf s (nodeResolve [s.cwd, s.root, uri]) dep sk)).filter
        (·.stat.isDirectory) ++
    ((fsChildren s.fs (nodeResolve [s.cwd, s.root, uri])).map
      (listEntryOf s (nodeResolve [s.cwd, s.root, uri]) dep sk)).filter
        (fun e => !e.stat.isDirectory),
    ?_, ?_, ?_, ?_, ?_, dirsBeforeFiles_partition _⟩
  · simp only [listDir, hdir, not_true_eq_false, if_false]
  · exact List.filter_append_perm _ _
  · intro e he
    rcases hmem e he with ⟨nv, hnv, rfl⟩
    rfl
  · intro hsk e he
    rcases hmem e he with ⟨nv, hnv, rfl⟩
    subst hsk
    exact ⟨nv, hnv, rfl, rfl⟩
  · intro hsk e he
    rcases hmem e he with ⟨nv, hnv, rfl⟩
    subst hsk
    rfl

/-- C9 witness: listing the concrete root without skipStat puts its
directory before its file, with the real stats. -/
theorem c9_listDir_one_level_witness :
    ∃ es, (listDir wStore2 "." 0 false).1 = .ok es ∧ dirsBeforeFiles es ∧
      (∀ e ∈ es, e.depth = 0) := by
  obtain ⟨es, heq, -, hdep, -, -, hdbf⟩ :=
    c9_listDir_one_level wStore2 "." 0 false (by decide)
  exact ⟨es, by rw [heq], hdbf, hdep⟩

/-- C9 counterexample: under skipStat the real directory "b" stays
after the real file "a.txt" (the native order), so the listing is not
sorted with directories before files; without skipStat it is. -/
theorem c9_listDir_skipStat_unsorted_cex :
    (listDir wStore2 "." 0 true).1 =
      .ok [{ name := "a.txt", path := "r/a.txt", depth := 0, stat := {} },
           { name := "b", path := "r/b", depth := 0, stat := {} }] ∧
    isFileAt wStore2.fs "/c/r/a.txt" = true ∧
    isDirAt wStore2.fs "/c/r/b" = true ∧
    (listDir wStore2 "." 0 false).1 =
      .ok [{ name := "b", path := "r/b", depth := 0, stat := { isDirectory := true } },
           { name := "a.txt", path := "r/a.txt", depth := 0,
             stat := { isFile := true, size := 1 } }] := by
  exact ⟨rfl, rfl, rfl, rfl⟩

/-- The content at a key a set just wrote. -/
theorem fileContent_setEntry_self (es : List (String × FNode)) (p c : String) :
    fileContent ⟨setEntry es p (.file c)⟩ p = c := by
  unfold fileContent
  rw [fsFind_setEntry_self]

/-- A freshly set file entry stats as a regular file. -/
theorem isFileAt_setEntry_file (es : List (String × FNode)) (p c : String)
    (hp : p ≠ "/") : isFileAt ⟨setEntry es p (.file c)⟩ p = true := by
  unfold isFileAt
  rw [if_neg hp, fsFind_setEntry_self]

/-- Appending a fresh directory entry never changes a file's content. -/
theorem fileContent_append_dir (es : List (String × FNode)) (k q : String) :
    fileContent ⟨es ++ [(k, FNode.dir)]⟩ q = fileContent ⟨es⟩ q := by
  unfold fileContent fsFind
  rw [List.find?_append]
  cases hf : es.find? (·.1 = q) with
  | some kv => rfl
  | none =>
    by_cases hk : k = q
    · simp [List.find?, hk]
    · simp [List.find?, hk]

/-- The mkdir fold only ever adds directory entries, so file contents
survive it. -/
theorem foldl_mkdir_fileContent (l : List String) (es : List (String × FNode))
    (q : String) :
    fileContent ⟨l.foldl
      (fun es q2 => if fsExists ⟨es⟩ q2 then es else es ++ [(q2, .dir)]) es⟩ q =
      fileContent ⟨es⟩ q := by
  induction l generalizing es with
  | nil => rfl
  | cons a rest ih =>
    simp only [List.foldl_cons]
    by_cases h : fsExists ⟨es⟩ a
    · rw [if_pos h]
      exact ih es
    · rw [if_neg h, ih]
      exact fileContent_append_dir es a q

/-- Recursive mkdir leaves every file's content as it was. -/
theorem fsMkdirRec_fileContent (fs : FSState) (p : String) (fs2 : FSState)
    (h : fsMkdirRec fs p = .ok fs2) (q : String) :
    fileContent fs2 q = fileContent fs q := by
  unfold fsMkdirRec at h
  split at h
  · cases h
  · rw [Except.ok.injEq] at h
    rw [← h]
    exact foldl_mkdir_fileContent (absPrefixes p) fs.entries q

/-- _buildPath leaves every file's content as it was. -/
theorem _buildPath_fileContent (s : Store) (uri : String) (s1 : Store)
    (tr : List Ev) (h : _buildPath s uri = (.ok s1, tr)) (q : String) :
    fileContent s1.fs q = fileContent s.fs q := by
  simp only [_buildPath] at h
  split at h
  · rename_i fs2 heq
    simp only [Prod.mk.injEq, Except.ok.injEq] at h
    rw [← h.1]
    exact fsMkdirRec_fileContent s.fs _ fs2 heq q
  · simp at h

/-- A successful append leaves a regular file holding the old content
with the chunk attached. -/
theorem fsAppendFile_content (fs : FSState) (p chunk : String) (fs2 : FSState)
    (h : fsAppendFile fs p chunk = .ok fs2) :
    fileContent fs2 p = fileContent fs p ++ chunk ∧ isFileAt fs2 p = true := by
  unfold fsAppendFile at h
  split at h
  · cases h
  · split at h
    · cases h
    · rename_i hdir _
      rw [Except.ok.injEq] at h
      subst h
      have hp : p ≠ "/" := by
        intro hp
        rw [hp] at hdir
        simp [isDirAt] at hdir
      exact ⟨fileContent_setEntry_self fs.entries p _,
        isFileAt_setEntry_file fs.entries p _ hp⟩

/-- A successful writeDocument returned true, kept the configuration,
and appended exactly the chunk to the document's location. -/
theorem writeDocument_ok (s : Store) (uri chunk : String) (b : Bool)
    (s1 : Store) (tr : List Ev)
    (h : writeDocument s uri chunk = (.ok b, s1, tr)) :
    b = true ∧ s1.cwd = s.cwd ∧ s1.root = s.root ∧
    fileContent s1.fs (locOf s uri) = fileContent s.fs (locOf s uri) ++ chunk ∧
    isFileAt s1.fs (locOf s uri) = true := by
  unfold writeDocument at h
  split at h
  · simp at h
  · split at h
    · simp at h
    · rename_i sB trB heqB
      have hfr := _buildPath_frame s uri sB trB heqB
      have hfc := _buildPath_fileContent s uri sB trB heqB
      dsimp only at h
      split at h
      · simp at h
      · rename_i fs2 heqA
        simp only [Prod.mk.injEq, Except.ok.injEq] at h
        obtain ⟨hb, hs1, -⟩ := h
        subst hs1
        rw [hfr.1, hfr.2.1] at heqA
        have hap := fsAppendFile_content sB.fs (locOf s uri) chunk fs2 heqA
        refine ⟨hb.symm, hfr.1, hfr.2.1, ?_, hap.2⟩
        rw [hap.1, hfc (locOf s uri)]

/-- A loader that answers with a non-false value ends the chain with
its verdict and its one call event. -/
theorem runLoaders_first_hit (fs : FSState) (path ext : String) (l : Loader)
    (rest : List Loader) (i : Nat) (v : JSValue)
    (hl : l fs path ext = .ok v) (hv : v.isFalse = false) :
    runLoaders fs path ext (l :: rest) i = (.ok v, [.loaderCall i]) := by
  simp only [runLoaders]
  rw [hl]
  dsimp only
  rw [hv]
  rfl

/-- Loading a .txt URI under a granted check returns the raw file
content unsplit (the fast-path loader with the empty delimiter). -/
theorem loadDocument_txt (s : Store) (uri : String) (dv : JSValue)
    (hext : extname uri = ".txt")
    (hacc : (ensureAccess s uri "r").1 = .ok ())
    (hfile : isFileAt s.fs (locOf s uri) = true) :
    (loadDocument s uri dv).1 = .ok (.vstr (fileContent s.fs (locOf s uri))) := by
  obtain ⟨c, hfind⟩ : ∃ c, fsFind s.fs (locOf s uri) = some (.file c) := by
    unfold isFileAt at hfile
    split at hfile
    · cases hfile
    · split at hfile
      · rename_i c hc
        exact ⟨c, hc⟩
      · cases hfile
  have hexists : fsExists s.fs (locOf s uri) = true := by
    unfold fsExists
    rw [hfind]
    simp
  unfold loadDocument loadDocumentAs loadDocumentAsWith
  rw [hext]
  rcases hacc2 : ensureAccess s uri "r" with ⟨res, tra⟩
  rw [hacc2] at hacc
  dsimp only at hacc
  subst hacc
  dsimp only
  rw [show (nodeResolve [s.cwd, s.root, resolveSync [uri]]) = locOf s uri from rfl,
    hexists]
  simp only [Bool.not_true, if_false]
  have hload : loadTXT s.fs (locOf s uri) "" true = .ok (.vstr (fileContent s.fs (locOf s uri))) := by
    unfold loadTXT
    rw [if_pos hfile]
    rfl
  have hrun : runLoaders s.fs (locOf s uri) ".txt" dbfsLoaders 0 =
      (.ok (.vstr (fileContent s.fs (locOf s uri))), [.loaderCall 0]) := by
    rw [show dbfsLoaders = [fun fs file ext =>
        if ext = ".txt" then loadTXT fs file "" true else .ok (.vbool false),
        fun fs file _ => fsLoad fs file] from rfl]
    refine runLoaders_first_hit _ _ _ _ _ _ _ ?_ rfl
    dsimp only
    rw [if_pos rfl]
    exact hload
  rw [hrun]
  simp

/-- C8 (amended): on a .txt URI with a granted check and an initially
empty (or absent) document, two appends followed by a load return
exactly the concatenation of the two chunks; the counterexample shows
the clause fails for other extensions. -/
theorem c8_txt_append_concatenates (s : Store) (uri A B : String) (dv : JSValue)
    (b1 b2 : Bool) (s1 s2 : Store) (tr1 tr2 : List Ev)
    (hext : extname uri = ".txt")
    (hacc : (ensureAccess s uri "r").1 = .ok ())
    (hfresh : fileContent s.fs (locOf s uri) = "")
    (h1 : writeDocument s uri A = (.ok b1, s1, tr1))
    (h2 : writeDocument s1 uri B = (.ok b2, s2, tr2)) :
    (loadDocument s2 uri dv).1 = .ok (.vstr (A ++ B)) := by
  obtain ⟨-, hc1, hr1, hf1, -⟩ := writeDocument_ok s uri A b1 s1 tr1 h1
  obtain ⟨-, hc2, hr2, hf2, hisf2⟩ := writeDocument_ok s1 uri B b2 s2 tr2 h2
  have hloc1 : locOf s1 uri = locOf s uri := by
    unfold locOf
    rw [hc1, hr1]
  have hloc2 : locOf s2 uri = locOf s uri := by
    unfold locOf
    rw [hc2, hr2, hc1, hr1]
  have hacc2 : (ensureAccess s2 uri "r").1 = .ok () := by
    rw [ensureAccess_fst_level s2 s uri "r" "r"]
    exact hacc
  rw [hloc1] at hf2 hisf2
  have hcontent : fileContent s2.fs (locOf s2 uri) = A ++ B := by
    rw [hloc2, hf2, hf1, hfresh, strEmpty_append]
  have hfile2 : isFileAt s2.fs (locOf s2 uri) = true := by
    rw [hloc2]
    exact hisf2
  rw [loadDocument_txt s2 uri dv hext hacc2 hfile2, hcontent]

/-- C8 witness: two concrete appends to a fresh .txt document load back
as the plain concatenation. -/
theorem c8_txt_append_concatenates_witness :
    (loadDocument ((writeDocument (writeDocument wStore "n.txt" "ab").2.1
      "n.txt" "cd").2.1) "n.txt" (.vstr "")).1 = .ok (.vstr "abcd") := by
  exact c8_txt_append_concatenates wStore "n.txt" "ab" "cd" (.vstr "")
    true true (writeDocument wStore "n.txt" "ab").2.1
    ((writeDocument (writeDocument wStore "n.txt" "ab").2.1 "n.txt" "cd").2.1)
    (writeDocument wStore "n.txt" "ab").2.2
    ((writeDocument (writeDocument wStore "n.txt" "ab").2.1 "n.txt" "cd").2.2)
    rfl rfl rfl rfl rfl

/-- C8 counterexample: on a .json URI the same two appends load back as
the number 12, not the string "12": the format layer re-parses the
concatenated bytes, so the claim's every-URI quantification fails. -/
theorem c8_json_append_reparsed_cex :
    (loadDocument ((writeDocument (writeDocument wStore "x.json" "1").2.1
      "x.json" "2").2.1) "x.json" (.vstr "")).1 = .ok (.vnum 12) ∧
    (JSValue.vnum 12) ≠ (.vstr ("1" ++ "2")) := by
  exact ⟨rfl, fun h => JSValue.noConfusion h⟩

/-- toNat of a basic-plane ofNat. -/
theorem char_toNat_ofNat (n : Nat) (h : n < 55000) : (Char.ofNat n).toNat = n := by
  unfold Char.ofNat
  rw [dif_pos]
  · rfl
  · exact Or.inl (by omega)

/-- The code point of a digit character. -/
theorem digitChar_toNat (n : Nat) (h : n < 10) : (digitChar n).toNat = 48 + n := by
  unfold digitChar
  exact char_toNat_ofNat (48 + n) (by omega)

/-- Digit characters are digits. -/
theorem isDigitChar_digitChar (n : Nat) (h : n < 10) :
    isDigitChar (digitChar n) = true := by
  unfold isDigitChar
  rw [Bool.and_eq_true, decide_eq_true_eq, decide_eq_true_eq]
  have h2 : (digitChar n).toNat = 48 + n := digitChar_toNat n h
  have hlo : (48 : Nat) ≤ (digitChar n).toNat := by omega
  have hhi : (digitChar n).toNat ≤ 57 := by omega
  exact ⟨hlo, hhi⟩

/-- The digit-run builder only appends to its accumulator. -/
theorem natCharsF_append (fuel : Nat) :
    ∀ n acc, natCharsF fuel n acc = natCharsF fuel n [] ++ acc := by
  induction fuel with
  | zero => intro n acc; rfl
  | succ f ih =>
    intro n acc
    unfold natCharsF
    by_cases h : n < 10
    · rw [if_pos h, if_pos h]
      rfl
    · rw [if_neg h, if_neg h, ih (n / 10) (digitChar (n % 10) :: acc),
        ih (n / 10) [digitChar (n % 10)]]
      simp

/-- The digit-run builder emits only digits. -/
theorem natCharsF_all_digits (fuel : Nat) :
    ∀ n acc, acc.all isDigitChar = true →
      (natCharsF fuel n acc).all isDigitChar = true := by
  induction fuel with
  | zero => intro n acc hacc; exact hacc
  | succ f ih =>
    intro n acc hacc
    unfold natCharsF
    by_cases h : n < 10
    · rw [if_pos h]
      simp only [List.all_cons, Bool.and_eq_true]
      exact ⟨isDigitChar_digitChar n h, hacc⟩
    · rw [if_neg h]
      refine ih (n / 10) _ ?_
      simp only [List.all_cons, Bool.and_eq_true]
      exact ⟨isDigitChar_digitChar (n % 10) (Nat.mod_lt _ (by omega)), hacc⟩

/-- The digit-run builder never returns an empty run. -/
theorem natCharsF_ne_nil (fuel : Nat) :
    ∀ n acc, acc ≠ [] ∨ fuel ≠ 0 → natCharsF fuel n acc ≠ [] := by
  induction fuel with
  | zero =>
    intro n acc h
    rcases h with h | h
    · exact h
    · exact absurd rfl h
  | succ f ih =>
    intro n acc h
    unfold natCharsF
    by_cases h10 : n < 10
    · rw [if_pos h10]
      exact List.cons_ne_nil _ _
    · rw [if_neg h10]
      exact ih (n / 10) _ (Or.inl (List.cons_ne_nil _ _))

/-- Splitting a digit value over an append. -/
theorem digitsVal_append (xs ys : List Char) :
    digitsVal (xs ++ ys) =
      ys.foldl (fun a c => a * 10 + (c.toNat - 48)) (digitsVal xs) := by
  unfold digitsVal
  rw [List.foldl_append]

/-- The digit run of a number evaluates back to the number. -/
theorem natCharsF_val (fuel : Nat) :
    ∀ n, n < 10 ^ fuel → digitsVal (natCharsF fuel n []) = n := by
  induction fuel with
  | zero =>
    intro n h
    interval_cases n
    rfl
  | succ f ih =>
    intro n h
    unfold natCharsF
    by_cases h10 : n < 10
    · rw [if_pos h10]
      show digitsVal [digitChar n] = n
      unfold digitsVal
      simp only [List.foldl_cons, List.foldl_nil]
      rw [digitChar_toNat n h10]
      omega
    · rw [if_neg h10, natCharsF_append, digitsVal_append]
      simp only [List.foldl_cons, List.foldl_nil]
      have hb : n / 10 < 10 ^ f := by
        rw [Nat.pow_succ] at h
        exact Nat.div_lt_of_lt_mul (by omega)
      rw [ih (n / 10) hb, digitChar_toNat (n % 10) (Nat.mod_lt _ (by omega))]
      omega

/-- natChars evaluates back to its number. -/
theorem natChars_val (n : Nat) : digitsVal (natChars n []) = n := by
  unfold natChars
  refine natCharsF_val (n + 1) n ?_
  calc n < 10 ^ n := Nat.lt_pow_self (by omega) n
    _ ≤ 10 ^ (n + 1) := Nat.pow_le_pow_right (by omega) (Nat.le_succ n)

/-- natChars is a nonempty all-digit run. -/
theorem natChars_cons (n : Nat) :
    ∃ d ds, natChars n [] = d :: ds ∧ (d :: ds).all isDigitChar = true := by
  have hne : natChars n [] ≠ [] := natCharsF_ne_nil (n + 1) n [] (Or.inr (by omega))
  have hall : (natChars n []).all isDigitChar = true :=
    natCharsF_all_digits (n + 1) n [] rfl
  cases hcs : natChars n [] with
  | nil => exact absurd hcs hne
  | cons d ds =>
    rw [hcs] at hall
    exact ⟨d, ds, rfl, hall⟩

/-- intChars starts with a minus sign or a digit. -/
theorem intChars_cons (n : Int) :
    ∃ c cs, intChars n = c :: cs ∧ (c = '-' ∨ isDigitChar c = true) := by
  unfold intChars
  by_cases h : n < 0
  · rw [if_pos h]
    exact ⟨'-', _, rfl, Or.inl rfl⟩
  · rw [if_neg h]
    obtain ⟨d, ds, hnc, hall⟩ := natChars_cons n.natAbs
    rw [hnc]
    simp only [List.all_cons, Bool.and_eq_true] at hall
    exact ⟨d, ds, rfl, Or.inr hall.1⟩

/-- A run starting with a non-digit takes no digits. -/
theorem takeDigitsJ_not_digit (cs : List Char)
    (h : ∀ c, cs.head? = some c → isDigitChar c = false) :
    takeDigitsJ cs = ([], cs) := by
  cases cs with
  | nil => rfl
  | cons c r =>
    unfold takeDigitsJ
    rw [h c rfl]
    rfl

/-- takeDigitsJ splits a digit run off a non-digit continuation. -/
theorem takeDigitsJ_run (ds : List Char) :
    ∀ rest, ds.all isDigitChar = true →
      (∀ c, rest.head? = some c → isDigitChar c = false) →
      takeDigitsJ (ds ++ rest) = (ds, rest) := by
  induction ds with
  | nil =>
    intro rest _ hrest
    exact takeDigitsJ_not_digit rest hrest
  | cons d ds2 ih =>
    intro rest hds hrest
    simp only [List.all_cons, Bool.and_eq_true] at hds
    simp only [List.cons_append]
    unfold takeDigitsJ
    rw [hds.1]
    simp only [if_true]
    rw [ih rest hds.2 hrest]

/-- The parse of a rendered integer under a number delimiter. -/
theorem parseJNum_intChars (n : Int) (rest : List Char) (hrest : numDelim rest) :
    parseJNum (intChars n ++ rest) = .ok (n, rest) := by
  have hrd : ∀ c, rest.head? = some c → isDigitChar c = false :=
    fun c hc => (hrest c hc).1
  obtain ⟨d, ds, hnc, hall⟩ := natChars_cons n.natAbs
  have hdne : d ≠ '-' := by
    intro h
    simp only [List.all_cons, Bool.and_eq_true] at hall
    rw [h] at hall
    exact absurd hall.1 (by decide)
  have hisE : (natChars n.natAbs []).isEmpty = false := by
    rw [hnc]
    rfl
  have htake : takeDigitsJ (natChars n.natAbs [] ++ rest) = (natChars n.natAbs [], rest) :=
    takeDigitsJ_run _ rest (natCharsF_all_digits (n.natAbs + 1) n.natAbs [] rfl) hrd
  have hv : digitsVal (natChars n.natAbs []) = n.natAbs := natChars_val n.natAbs
  unfold parseJNum intChars
  by_cases hneg : n < 0
  · rw [if_pos hneg]
    simp only [List.cons_append]
    simp only [htake, hisE, Bool.false_eq_true, if_false]
    split
    · exact absurd rfl (hrest '.' rfl).2.1
    · exact absurd rfl (hrest 'e' rfl).2.2.1
    · exact absurd rfl (hrest 'E' rfl).2.2.2
    · simp only [hv, if_true]
      have hn2 : -((n.natAbs : Nat) : Int) = n := by omega
      rw [hn2]
  · rw [if_neg hneg]
    rw [hnc]
    simp only [List.cons_append]
    have hsign : (match (d :: (ds ++ rest) : List Char) with
        | '-' :: r => ((true : Bool), r)
        | x => (false, d :: (ds ++ rest))) = (false, d :: (ds ++ rest)) := by
      split
      · rename_i heq
        simp only [List.cons.injEq] at heq
        exact absurd heq.1 hdne
      · rfl
    rw [hsign]
    dsimp only
    rw [← List.cons_append, ← hnc, htake]
    simp only [hisE, Bool.false_eq_true, if_false]
    split
    · exact absurd rfl (hrest '.' rfl).2.1
    · exact absurd rfl (hrest 'e' rfl).2.2.1
    · exact absurd rfl (hrest 'E' rfl).2.2.2
    · simp only [hv, Bool.false_eq_true, if_false]
      have hn2 : ((n.natAbs : Nat) : Int) = n := by omega
      rw [hn2]

/-- Skipping whitespace stops at a non-whitespace head. -/
theorem skipWsJson_not_ws (c : Char) (cs : List Char) (h : isJsonWs c = false) :
    skipWsJson (c :: cs) = c :: cs := by
  unfold skipWsJson
  rw [h]
  rfl

/-- Skipping whitespace runs through an all-whitespace prefix. -/
theorem skipWsJson_ws_append (ws : List Char) :
    ∀ cs, wsOnly ws → skipWsJson (ws ++ cs) = skipWsJson cs := by
  induction ws with
  | nil => intro cs _; rfl
  | cons a l ih =>
    intro cs h
    simp only [List.cons_append]
    rw [skipWsJson, h a (List.mem_cons_self a l)]
    simp only [if_true]
    exact ih cs (fun c hc => h c (List.mem_cons_of_mem a hc))

/-- A whitespace character is none of the characters the parser treats
specially after a token. -/
theorem ws_char_facts (c : Char) (h : isJsonWs c = true) :
    isDigitChar c = false ∧ c ≠ '.' ∧ c ≠ 'e' ∧ c ≠ 'E' := by
  unfold isJsonWs at h
  simp only [Bool.or_eq_true, decide_eq_true_eq] at h
  rcases h with ((h | h) | h) | h <;> subst h <;>
    exact ⟨by decide, by decide, by decide, by decide⟩

/-- A head with the delimiter facts delimits a number. -/
theorem numDelim_cons (c : Char) (rest : List Char)
    (h : isDigitChar c = false ∧ c ≠ '.' ∧ c ≠ 'e' ∧ c ≠ 'E') :
    numDelim (c :: rest) := by
  intro c2 hc2
  simp only [List.head?_cons, Option.some.injEq] at hc2
  rw [← hc2]
  exact h

/-- The empty continuation delimits a number. -/
theorem numDelim_nil : numDelim [] := by
  intro c hc
  cases hc

/-- A whitespace prefix preserves number delimitation. -/
theorem numDelim_ws_append (tail : List Char) (cs : List Char)
    (hws : wsOnly tail) (h : numDelim cs) : numDelim (tail ++ cs) := by
  cases tail with
  | nil => exact h
  | cons a l =>
    intro c hc
    simp only [List.cons_append, List.head?_cons, Option.some.injEq] at hc
    rw [← hc]
    exact ws_char_facts a (hws a (List.mem_cons_self a l))

/-- Hexadecimal digits read back their value. -/
theorem hexValJ_hexDigit (m : Nat) (h : m < 16) : hexValJ (hexDigit m) = some m := by
  interval_cases m <;> decide

/-- The string parser undoes one character's escape. -/
theorem parse_escape (c : Char) (acc k : List Char) :
    parseJStrAux acc (escapeJChar c ++ k) = parseJStrAux (c :: acc) k := by
  by_cases h1 : c = '"'
  · subst h1; rfl
  by_cases h2 : c = '\\'
  · subst h2; rfl
  by_cases h3 : c = '\n'
  · subst h3; rfl
  by_cases h4 : c = '\r'
  · subst h4; rfl
  by_cases h5 : c = '\t'
  · subst h5; rfl
  by_cases h6 : c = Char.ofNat 8
  · subst h6; rfl
  by_cases h7 : c = Char.ofNat 12
  · subst h7; rfl
  by_cases h8 : c.toNat < 32
  · have heJ : escapeJChar c =
        ['\\', 'u', '0', '0', hexDigit (c.toNat / 16), hexDigit (c.toNat % 16)] := by
      unfold escapeJChar
      rw [if_neg h1, if_neg h2, if_neg h3, if_neg h4, if_neg h5, if_neg h6, if_neg h7,
        if_pos h8]
    rw [heJ]
    show parseJStrAux acc ('\\' :: 'u' :: '0' :: '0' :: hexDigit (c.toNat / 16) ::
      hexDigit (c.toNat % 16) :: k) = _
    rw [parseJStrAux]
    rw [hexValJ_hexDigit (c.toNat / 16) (by omega),
      hexValJ_hexDigit (c.toNat % 16) (by omega),
      show hexValJ '0' = some 0 from rfl]
    dsimp only
    have harith : (((0 * 16 + 0) * 16 + c.toNat / 16) * 16 + c.toNat % 16) = c.toNat := by
      omega
    rw [harith, Char.ofNat_toNat]
  · have heJ : escapeJChar c = [c] := by
      unfold escapeJChar
      rw [if_neg h1, if_neg h2, if_neg h3, if_neg h4, if_neg h5, if_neg h6, if_neg h7,
        if_neg h8]
    rw [heJ]
    show parseJStrAux acc (c :: k) = _
    conv_lhs => unfold parseJStrAux
    split
    · rename_i heq
      simp only [List.cons.injEq] at heq
      exact absurd heq.1 h1
    · rename_i heq
      simp only [List.cons.injEq] at heq
      exact absurd heq.1 h2
    · rename_i heq
      simp only [List.cons.injEq] at heq
      exact absurd heq.1 h2
    · rename_i heq
      simp only [List.cons.injEq] at heq
      obtain ⟨hc2, hk2⟩ := heq
      rw [← hc2, ← hk2, if_neg h8]
    · rename_i heq
      simp at heq

/-- The string parser undoes the whole escaped body up to the closing
quote. -/
theorem parseJStrAux_render (l : List Char) :
    ∀ acc k, parseJStrAux acc (l.flatMap escapeJChar ++ '"' :: k) =
      .ok (String.mk (acc.reverse ++ l), k) := by
  induction l with
  | nil =>
    intro acc k
    simp only [List.flatMap_nil, List.nil_append, List.append_nil]
    rfl
  | cons c l2 ih =>
    intro acc k
    simp only [List.flatMap_cons, List.append_assoc]
    rw [parse_escape c acc (l2.flatMap escapeJChar ++ '"' :: k), ih (c :: acc) k]
    simp

/-- A digit character is none of the parser's structural characters. -/
theorem digit_char_facts (c : Char) (h : isDigitChar c = true) :
    isJsonWs c = false ∧ c ≠ ']' ∧ c ≠ '}' ∧ c ≠ 'n' ∧ c ≠ 't' ∧ c ≠ 'f' ∧
    c ≠ '"' ∧ c ≠ '[' ∧ c ≠ '{' ∧ c ≠ '-' := by
  have hws : isJsonWs c = false := by
    cases hw : isJsonWs c with
    | false => rfl
    | true => exact absurd h (by rw [(ws_char_facts c hw).1]; decide)
  exact ⟨hws,
    fun hc => absurd (hc ▸ h) (by decide), fun hc => absurd (hc ▸ h) (by decide),
    fun hc => absurd (hc ▸ h) (by decide), fun hc => absurd (hc ▸ h) (by decide),
    fun hc => absurd (hc ▸ h) (by decide), fun hc => absurd (hc ▸ h) (by decide),
    fun hc => absurd (hc ▸ h) (by decide), fun hc => absurd (hc ▸ h) (by decide),
    fun hc => absurd (hc ▸ h) (by decide)⟩

/-- Every rendering starts with a non-whitespace character that closes
nothing. -/
theorem renderJVal_head (gap ind : List Char) (v : JSValue) :
    ∃ c cs, renderJVal gap ind v = c :: cs ∧ isJsonWs c = false ∧
      c ≠ ']' ∧ c ≠ '}' := by
  cases v with
  | vnull =>
    refine ⟨'n', _, rfl, ?_, ?_, ?_⟩ <;> decide
  | vbool b =>
    cases b
    · refine ⟨'f', _, rfl, ?_, ?_, ?_⟩ <;> decide
    · refine ⟨'t', _, rfl, ?_, ?_, ?_⟩ <;> decide
  | vnum n =>
    obtain ⟨c, cs, hc, hd⟩ := intChars_cons n
    refine ⟨c, cs, by rw [show renderJVal gap ind (.vnum n) = intChars n from rfl, hc],
      ?_, ?_, ?_⟩
    · rcases hd with h | h
      · rw [h]; decide
      · exact (digit_char_facts c h).1
    · rcases hd with h | h
      · rw [h]; decide
      · exact (digit_char_facts c h).2.1
    · rcases hd with h | h
      · rw [h]; decide
      · exact (digit_char_facts c h).2.2.1
  | vstr s => exact ⟨'"', _, rfl, by decide, by decide, by decide⟩
  | varr es =>
    cases es with
    | nil => exact ⟨'[', _, rfl, by decide, by decide, by decide⟩
    | cons v vs => exact ⟨'[', _, rfl, by decide, by decide, by decide⟩
  | vobj fs =>
    cases fs with
    | nil => exact ⟨'{', _, rfl, by decide, by decide, by decide⟩
    | cons k v fs2 => exact ⟨'{', _, rfl, by decide, by decide, by decide⟩

/-- nlInd emits only whitespace. -/
theorem wsOnly_nlInd (gap ind : List Char) (hgap : wsOnly gap) (hind : wsOnly ind) :
    wsOnly (nlInd gap ind) := by
  unfold nlInd
  split
  · intro c hc; cases hc
  · intro c hc
    rcases List.mem_cons.mp hc with h | h
    · rw [h]; rfl
    · exact hind c h

/-- gapSpace emits only whitespace. -/
theorem wsOnly_gapSpace (gap : List Char) : wsOnly (gapSpace gap) := by
  unfold gapSpace
  split
  · intro c hc; cases hc
  · intro c hc
    rcases List.mem_cons.mp hc with h | h
    · rw [h]; rfl
    · cases h

/-- An all-space indent is whitespace. -/
theorem wsOnly_append (a b : List Char) (ha : wsOnly a) (hb : wsOnly b) :
    wsOnly (a ++ b) := by
  intro c hc
  rcases List.mem_append.mp hc with h | h
  · exact ha c h
  · exact hb c h

/-- A value parse ignores leading whitespace. -/
theorem parseJVal_ws (fuel : Nat) (ws cs : List Char) (h : wsOnly ws) :
    parseJVal fuel (ws ++ cs) = parseJVal fuel cs := by
  cases fuel with
  | zero => rfl
  | succ f =>
    unfold parseJVal
    rw [skipWsJson_ws_append ws cs h]

/-- An element parse ignores leading whitespace. -/
theorem parseJElems_ws (fuel : Nat) (ws cs : List Char) (h : wsOnly ws) :
    parseJElems fuel (ws ++ cs) = parseJElems fuel cs := by
  cases fuel with
  | zero => rfl
  | succ f =>
    unfold parseJElems
    rw [parseJVal_ws f ws cs h]

/-- A member parse ignores leading whitespace. -/
theorem parseJFields_ws (fuel : Nat) (ws cs : List Char) (h : wsOnly ws) :
    parseJFields fuel (ws ++ cs) = parseJFields fuel cs := by
  cases fuel with
  | zero => rfl
  | succ f =>
    unfold parseJFields
    rw [skipWsJson_ws_append ws cs h]

/-- Every value needs fuel. -/
theorem needV_pos (v : JSValue) : 1 ≤ needV v := by
  cases v <;> simp [needV]

/-- The parser's array branch. -/
theorem parseJVal_arr (f : Nat) (r : List Char) :
    parseJVal (f + 1) ('[' :: r) =
      (match skipWsJson r with
       | ']' :: r2 => .ok (.varr .nil, r2)
       | r2 =>
         match parseJElems f r2 with
         | .ok (es, r3) => .ok (.varr es, r3)
         | .error e => .error e) := by
  rw [parseJVal, skipWsJson_not_ws '[' r (by decide)]
  rfl

/-- The parser's object branch. -/
theorem parseJVal_obj (f : Nat) (r : List Char) :
    parseJVal (f + 1) ('{' :: r) =
      (match skipWsJson r with
       | '}' :: r2 => .ok (.vobj .nil, r2)
       | r2 =>
         match parseJFields f r2 with
         | .ok (fs, r3) => .ok (.vobj fs, r3)
         | .error e => .error e) := by
  rw [parseJVal, skipWsJson_not_ws '{' r (by decide)]
  rfl

/-- The parser's string branch. -/
theorem parseJVal_str (f : Nat) (r : List Char) :
    parseJVal (f + 1) ('"' :: r) =
      (match parseJStrAux [] r with
       | .ok (s, r2) => .ok (.vstr s, r2)
       | .error e => .error e) := by
  rw [parseJVal, skipWsJson_not_ws '"' r (by decide)]
  rfl

/-- The parser's number branch. -/
theorem parseJVal_num (f : Nat) (c : Char) (r : List Char)
    (hd : c = '-' ∨ isDigitChar c = true) (hnws : isJsonWs c = false) :
    parseJVal (f + 1) (c :: r) =
      (match parseJNum (c :: r) with
       | .ok (n, r2) => .ok (.vnum n, r2)
       | .error e => .error e) := by
  have hfacts : c ≠ 'n' ∧ c ≠ 't' ∧ c ≠ 'f' ∧ c ≠ '"' ∧ c ≠ '[' ∧ c ≠ '{' := by
    rcases hd with h | h
    · subst h
      exact ⟨by decide, by decide, by decide, by decide, by decide, by decide⟩
    · exact ⟨(digit_char_facts c h).2.2.2.1, (digit_char_facts c h).2.2.2.2.1,
        (digit_char_facts c h).2.2.2.2.2.1, (digit_char_facts c h).2.2.2.2.2.2.1,
        (digit_char_facts c h).2.2.2.2.2.2.2.1, (digit_char_facts c h).2.2.2.2.2.2.2.2.1⟩
  rw [parseJVal, skipWsJson_not_ws c r hnws]
  split
  · rename_i heq
    simp only [List.cons.injEq] at heq
    exact absurd heq.1 hfacts.1
  · rename_i heq
    simp only [List.cons.injEq] at heq
    exact absurd heq.1 hfacts.2.1
  · rename_i heq
    simp only [List.cons.injEq] at heq
    exact absurd heq.1 hfacts.2.2.1
  · rename_i heq
    simp only [List.cons.injEq] at heq
    exact absurd heq.1 hfacts.2.2.2.1
  · rename_i heq
    simp only [List.cons.injEq] at heq
    exact absurd heq.1 hfacts.2.2.2.2.1
  · rename_i heq
    simp only [List.cons.injEq] at heq
    exact absurd heq.1 hfacts.2.2.2.2.2
  · rename_i heq
    simp only [List.cons.injEq] at heq
    obtain ⟨hc2, hr2⟩ := heq
    rw [← hc2, ← hr2, if_pos]
    exact hd
  · rename_i heq
    simp at heq
/-- The string parser undoes a full rendered string body. -/
theorem parseJStr_render0 (s : String) (k : List Char) :
    parseJStrAux [] (s.data.flatMap escapeJChar ++ '"' :: k) = .ok (s, k) := by
  rw [parseJStrAux_render s.data [] k]
  rfl

/-- Fuel arithmetic for element lists. -/
theorem needL_le (v : JSValue) (vs : JSList) (n : Nat)
    (h : needL (.cons v vs) ≤ n + 1) : needV v ≤ n ∧ needL vs ≤ n := by
  rw [show needL (.cons v vs) = 1 + max (needV v) (needL vs) from rfl] at h
  omega

/-- Fuel arithmetic for member lists. -/
theorem needF_le (k : String) (v : JSValue) (fs : JSFields) (n : Nat)
    (h : needF (.cons k v fs) ≤ n + 1) : needV v ≤ n ∧ needF fs ≤ n := by
  rw [show needF (.cons k v fs) = 1 + max (needV v) (needF fs) from rfl] at h
  omega

/-- Fuel arithmetic for arrays. -/
theorem needV_arr_le (es : JSList) (n : Nat) (h : needV (.varr es) ≤ n + 1) :
    needL es ≤ n := by
  rw [show needV (.varr es) = 1 + needL es from rfl] at h
  omega

/-- Fuel arithmetic for objects. -/
theorem needV_obj_le (fs : JSFields) (n : Nat) (h : needV (.vobj fs) ≤ n + 1) :
    needF fs ≤ n := by
  rw [show needV (.vobj fs) = 1 + needF fs from rfl] at h
  omega

/-- JSON.parse undoes JSON.stringify: the value parse consumes exactly
the rendering (at any whitespace gap and indent) and returns the value,
and likewise for the element and member lists of nonempty arrays and
objects. -/
theorem rt_json (fuel : Nat) :
    (∀ v gap ind rest, needV v ≤ fuel → wsOnly gap → wsOnly ind → numDelim rest →
      parseJVal fuel (renderJVal gap ind v ++ rest) = .ok (v, rest)) ∧
    (∀ v vs gap ind tail rest, needL (.cons v vs) ≤ fuel → wsOnly gap → wsOnly ind →
      wsOnly tail →
      parseJElems fuel (renderJVal gap ind v ++ (renderJElems gap ind vs ++
        (tail ++ ']' :: rest))) = .ok (.cons v vs, rest)) ∧
    (∀ k v fs gap ind tail rest, needF (.cons k v fs) ≤ fuel → wsOnly gap →
      wsOnly ind → wsOnly tail →
      parseJFields fuel (renderJStr k ++ ':' :: (gapSpace gap ++ (renderJVal gap ind v ++
        (renderJFields gap ind fs ++ (tail ++ '}' :: rest))))) =
        .ok (.cons k v fs, rest)) := by
  induction fuel with
  | zero =>
    refine ⟨?_, ?_, ?_⟩
    · intro v gap ind rest hfuel _ _ _
      exact absurd hfuel (by have := needV_pos v; omega)
    · intro v vs gap ind tail rest hfuel _ _ _
      rw [show needL (.cons v vs) = 1 + max (needV v) (needL vs) from rfl] at hfuel
      omega
    · intro k v fs gap ind tail rest hfuel _ _ _
      rw [show needF (.cons k v fs) = 1 + max (needV v) (needF fs) from rfl] at hfuel
      omega
  | succ f ih =>
    obtain ⟨ihV, ihL, ihF⟩ := ih
    refine ⟨?_, ?_, ?_⟩
    · intro v gap ind rest hfuel hgap hind hrest
      cases v with
      | vnull => rfl
      | vbool b => cases b <;> rfl
      | vnum n =>
        obtain ⟨c, cs, hc, hd⟩ := intChars_cons n
        have hnws : isJsonWs c = false := by
          rcases hd with h | h
          · rw [h]; rfl
          · exact (digit_char_facts c h).1
        show parseJVal (f + 1) (intChars n ++ rest) = _
        rw [hc, List.cons_append, parseJVal_num f c (cs ++ rest) hd hnws,
          ← List.cons_append, ← hc, parseJNum_intChars n rest hrest]
      | vstr s =>
        show parseJVal (f + 1) (renderJStr s ++ rest) = _
        rw [show renderJStr s = '"' :: (s.data.flatMap escapeJChar ++ ['"']) from rfl,
          List.cons_append, parseJVal_str, List.append_assoc,
          List.singleton_append, parseJStrAux_render s.data [] rest]
        rfl
      | varr es =>
        cases es with
        | nil => rfl
        | cons v vs =>
          show parseJVal (f + 1)
            (('[' :: (nlInd gap (ind ++ gap) ++ renderJVal gap (ind ++ gap) v ++
              renderJElems gap (ind ++ gap) vs ++ nlInd gap ind ++ [']'])) ++ rest) = _
          rw [List.cons_append, parseJVal_arr]
          simp only [List.append_assoc, List.singleton_append, List.cons_append, List.nil_append]
          rw [skipWsJson_ws_append _ _
            (wsOnly_nlInd gap (ind ++ gap) hgap (wsOnly_append ind gap hind hgap))]
          obtain ⟨c, cs, hcons, hnws, hne1, hne2⟩ := renderJVal_head gap (ind ++ gap) v
          rw [hcons]
          simp only [List.cons_append]
          rw [skipWsJson_not_ws c _ hnws]
          have H := ihL v vs gap (ind ++ gap) (nlInd gap ind) rest
            (needV_arr_le (.cons v vs) f hfuel) hgap
            (wsOnly_append ind gap hind hgap) (wsOnly_nlInd gap ind hgap hind)
          rw [hcons] at H
          simp only [List.cons_append, List.append_assoc, List.nil_append] at H
          split
          · rename_i heq
            simp only [List.cons.injEq] at heq
            exact absurd heq.1 hne1
          · rw [H]
      | vobj fs =>
        cases fs with
        | nil => rfl
        | cons k v fs2 =>
          show parseJVal (f + 1)
            (('{' :: (nlInd gap (ind ++ gap) ++ renderJStr k ++ ':' ::
              (gapSpace gap ++ renderJVal gap (ind ++ gap) v ++
               renderJFields gap (ind ++ gap) fs2 ++ nlInd gap ind ++ ['}']))) ++ rest) = _
          rw [List.cons_append, parseJVal_obj]
          simp only [List.append_assoc, List.cons_append, List.singleton_append, List.nil_append]
          rw [skipWsJson_ws_append _ _
            (wsOnly_nlInd gap (ind ++ gap) hgap (wsOnly_append ind gap hind hgap))]
          have H := ihF k v fs2 gap (ind ++ gap) (nlInd gap ind) rest
            (needV_obj_le (.cons k v fs2) f hfuel) hgap
            (wsOnly_append ind gap hind hgap) (wsOnly_nlInd gap ind hgap hind)
          rw [show renderJStr k = '"' :: (k.data.flatMap escapeJChar ++ ['"']) from rfl]
            at H ⊢
          simp only [List.cons_append, List.append_assoc, List.singleton_append, List.nil_append] at H ⊢
          rw [skipWsJson_not_ws '"' _ (by decide)]
          split
          · rename_i heq
            simp only [List.cons.injEq] at heq
            exact absurd heq.1 (by decide)
          · rw [H]
    · intro v vs gap ind tail rest hfuel hgap hind htail
      have hdel : numDelim (renderJElems gap ind vs ++ (tail ++ ']' :: rest)) := by
        cases vs with
        | nil =>
          show numDelim (([] : List Char) ++ (tail ++ ']' :: rest))
          rw [List.nil_append]
          exact numDelim_ws_append tail _ htail (numDelim_cons ']' rest (by decide))
        | cons v2 vs2 =>
          show numDelim ((',' :: (nlInd gap ind ++ renderJVal gap ind v2 ++
            renderJElems gap ind vs2)) ++ (tail ++ ']' :: rest))
          rw [List.cons_append]
          exact numDelim_cons ',' _ (by decide)
      rw [parseJElems]
      rw [ihV v gap ind _ (needL_le v vs f hfuel).1 hgap hind hdel]
      dsimp only
      cases vs with
      | nil =>
        rw [show renderJElems gap ind JSList.nil = ([] : List Char) from rfl,
          List.nil_append, skipWsJson_ws_append tail _ htail,
          skipWsJson_not_ws ']' rest (by decide)]
        rfl
      | cons v2 vs2 =>
        rw [show renderJElems gap ind (JSList.cons v2 vs2) =
          ',' :: (nlInd gap ind ++ renderJVal gap ind v2 ++ renderJElems gap ind vs2)
          from rfl]
        simp only [List.cons_append, List.append_assoc, List.nil_append]
        rw [skipWsJson_not_ws ',' _ (by decide)]
        have hX : parseJElems f (nlInd gap ind ++ (renderJVal gap ind v2 ++
            (renderJElems gap ind vs2 ++ (tail ++ ']' :: rest)))) =
            .ok (.cons v2 vs2, rest) := by
          rw [parseJElems_ws f (nlInd gap ind) _ (wsOnly_nlInd gap ind hgap hind)]
          exact ihL v2 vs2 gap ind tail rest (needL_le v (.cons v2 vs2) f hfuel).2
            hgap hind htail
        simp only [hX]
    · intro k v fs gap ind tail rest hfuel hgap hind htail
      have hdel : numDelim (renderJFields gap ind fs ++ (tail ++ '}' :: rest)) := by
        cases fs with
        | nil =>
          show numDelim (([] : List Char) ++ (tail ++ '}' :: rest))
          rw [List.nil_append]
          exact numDelim_ws_append tail _ htail (numDelim_cons '}' rest (by decide))
        | cons k2 v2 fs2 =>
          show numDelim ((',' :: (nlInd gap ind ++ renderJStr k2 ++ ':' ::
            (gapSpace gap ++ renderJVal gap ind v2 ++ renderJFields gap ind fs2))) ++
            (tail ++ '}' :: rest))
          rw [List.cons_append]
          exact numDelim_cons ',' _ (by decide)
      rw [parseJFields]
      have h1 : skipWsJson (renderJStr k ++ ':' :: (gapSpace gap ++
          (renderJVal gap ind v ++ (renderJFields gap ind fs ++ (tail ++ '}' :: rest))))) =
          '"' :: (k.data.flatMap escapeJChar ++ '"' :: ':' :: (gapSpace gap ++
          (renderJVal gap ind v ++ (renderJFields gap ind fs ++ (tail ++ '}' :: rest))))) := by
        rw [show renderJStr k = '"' :: (k.data.flatMap escapeJChar ++ ['"']) from rfl]
        simp only [List.cons_append, List.append_assoc, List.singleton_append,
          List.nil_append]
        rw [skipWsJson_not_ws '"' _ (by decide)]
      have h2 := parseJStr_render0 k (':' :: (gapSpace gap ++ (renderJVal gap ind v ++
        (renderJFields gap ind fs ++ (tail ++ '}' :: rest)))))
      have h3 : skipWsJson (':' :: (gapSpace gap ++ (renderJVal gap ind v ++
          (renderJFields gap ind fs ++ (tail ++ '}' :: rest))))) =
          ':' :: (gapSpace gap ++ (renderJVal gap ind v ++
          (renderJFields gap ind fs ++ (tail ++ '}' :: rest)))) :=
        skipWsJson_not_ws ':' _ (by decide)
      have h4 : parseJVal f (gapSpace gap ++ (renderJVal gap ind v ++
          (renderJFields gap ind fs ++ (tail ++ '}' :: rest)))) =
          .ok (v, renderJFields gap ind fs ++ (tail ++ '}' :: rest)) := by
        rw [parseJVal_ws f (gapSpace gap) _ (wsOnly_gapSpace gap)]
        exact ihV v gap ind _ (needF_le k v fs f hfuel).1 hgap hind hdel
      cases fs with
      | nil =>
        have h5 : skipWsJson (renderJFields gap ind JSFields.nil ++
            (tail ++ '}' :: rest)) = '}' :: rest := by
          rw [show renderJFields gap ind JSFields.nil = ([] : List Char) from rfl,
            List.nil_append, skipWsJson_ws_append tail _ htail,
            skipWsJson_not_ws '}' rest (by decide)]
        simp only [h1, h2, h3, h4, h5]
      | cons k2 v2 fs2 =>
        have h5 : skipWsJson (renderJFields gap ind (.cons k2 v2 fs2) ++
            (tail ++ '}' :: rest)) =
            ',' :: ((nlInd gap ind ++ renderJStr k2 ++ ':' ::
              (gapSpace gap ++ renderJVal gap ind v2 ++ renderJFields gap ind fs2)) ++
              (tail ++ '}' :: rest)) := by
          rw [show renderJFields gap ind (JSFields.cons k2 v2 fs2) =
            ',' :: (nlInd gap ind ++ renderJStr k2 ++ ':' ::
              (gapSpace gap ++ renderJVal gap ind v2 ++ renderJFields gap ind fs2))
            from rfl]
          rw [List.cons_append]
          exact skipWsJson_not_ws ',' _ (by decide)
        have h6 : parseJFields f ((nlInd gap ind ++ renderJStr k2 ++ ':' ::
            (gapSpace gap ++ renderJVal gap ind v2 ++ renderJFields gap ind fs2)) ++
            (tail ++ '}' :: rest)) = .ok (.cons k2 v2 fs2, rest) := by
          simp only [List.cons_append, List.append_assoc, List.nil_append]
          rw [parseJFields_ws f (nlInd gap ind) _ (wsOnly_nlInd gap ind hgap hind)]
          exact ihF k2 v2 fs2 gap ind tail rest
            (needF_le k v (.cons k2 v2 fs2) f hfuel).2 hgap hind htail
        simp only [h1, h2, h3, h4, h5, h6]
/-- The parser fuel a value (or rendered list tail) needs is at most
the length of its rendering. -/
theorem need_le_len (n : Nat) :
    (∀ v, needV v ≤ n → ∀ gap ind, needV v ≤ (renderJVal gap ind v).length) ∧
    (∀ v vs, needL (.cons v vs) ≤ n → ∀ gap ind, needL (.cons v vs) ≤
      1 + ((renderJVal gap ind v).length + (renderJElems gap ind vs).length)) ∧
    (∀ k v fs, needF (.cons k v fs) ≤ n → ∀ gap ind, needF (.cons k v fs) ≤
      1 + ((renderJVal gap ind v).length + (renderJFields gap ind fs).length)) := by
  induction n with
  | zero =>
    refine ⟨?_, ?_, ?_⟩
    · intro v h
      exact absurd h (by have := needV_pos v; omega)
    · intro v vs h
      rw [show needL (.cons v vs) = 1 + max (needV v) (needL vs) from rfl] at h
      omega
    · intro k v fs h
      rw [show needF (.cons k v fs) = 1 + max (needV v) (needF fs) from rfl] at h
      omega
  | succ m ih =>
    obtain ⟨ihV, ihL, ihF⟩ := ih
    refine ⟨?_, ?_, ?_⟩
    · intro v hv gap ind
      cases v with
      | vnull => simp [needV, renderJVal]
      | vbool b => cases b <;> simp [needV, renderJVal]
      | vnum n =>
        obtain ⟨c, cs, hc, _⟩ := intChars_cons n
        rw [show renderJVal gap ind (.vnum n) = intChars n from rfl, hc,
          show needV (.vnum n) = 1 from rfl]
        simp
      | vstr s =>
        rw [show renderJVal gap ind (.vstr s) = renderJStr s from rfl,
          show renderJStr s = '"' :: (s.data.flatMap escapeJChar ++ ['"']) from rfl,
          show needV (.vstr s) = 1 from rfl]
        simp
      | varr es =>
        cases es with
        | nil => simp [needV, needL, renderJVal]
        | cons v vs =>
          have h := ihL v vs (needV_arr_le (.cons v vs) m hv) gap (ind ++ gap)
          rw [show needV (.varr (.cons v vs)) = 1 + needL (.cons v vs) from rfl,
            show renderJVal gap ind (.varr (.cons v vs)) =
              '[' :: (nlInd gap (ind ++ gap) ++ renderJVal gap (ind ++ gap) v ++
                renderJElems gap (ind ++ gap) vs ++ nlInd gap ind ++ [']']) from rfl]
          simp only [List.length_cons, List.length_append, List.length_singleton]
          omega
      | vobj fs =>
        cases fs with
        | nil => simp [needV, needF, renderJVal]
        | cons k v fs2 =>
          have h := ihF k v fs2 (needV_obj_le (.cons k v fs2) m hv) gap (ind ++ gap)
          rw [show needV (.vobj (.cons k v fs2)) = 1 + needF (.cons k v fs2) from rfl,
            show renderJVal gap ind (.vobj (.cons k v fs2)) =
              '{' :: (nlInd gap (ind ++ gap) ++ renderJStr k ++ ':' ::
                (gapSpace gap ++ renderJVal gap (ind ++ gap) v ++
                 renderJFields gap (ind ++ gap) fs2 ++ nlInd gap ind ++ ['}'])) from rfl]
          simp only [List.length_cons, List.length_append, List.length_singleton]
          omega
    · intro v vs hvs gap ind
      have hv := ihV v (needL_le v vs m hvs).1 gap ind
      have hv1 : 1 ≤ (renderJVal gap ind v).length := by
        obtain ⟨c, cs, hc, -⟩ := renderJVal_head gap ind v
        rw [hc]
        simp
      cases vs with
      | nil =>
        rw [show needL (.cons v .nil) = 1 + max (needV v) (needL .nil) from rfl,
          show needL JSList.nil = 1 from rfl]
        omega
      | cons v2 vs2 =>
        have h2 := ihL v2 vs2 (needL_le v (.cons v2 vs2) m hvs).2 gap ind
        rw [show needL (.cons v (.cons v2 vs2)) =
          1 + max (needV v) (needL (.cons v2 vs2)) from rfl,
          show renderJElems gap ind (.cons v2 vs2) =
            ',' :: (nlInd gap ind ++ renderJVal gap ind v2 ++ renderJElems gap ind vs2)
            from rfl]
        simp only [List.length_cons, List.length_append]
        omega
    · intro k v fs hfs gap ind
      have hv := ihV v (needF_le k v fs m hfs).1 gap ind
      have hv1 : 1 ≤ (renderJVal gap ind v).length := by
        obtain ⟨c, cs, hc, -⟩ := renderJVal_head gap ind v
        rw [hc]
        simp
      cases fs with
      | nil =>
        rw [show needF (.cons k v .nil) = 1 + max (needV v) (needF .nil) from rfl,
          show needF JSFields.nil = 1 from rfl]
        omega
      | cons k2 v2 fs2 =>
        have h2 := ihF k2 v2 fs2 (needF_le k v (.cons k2 v2 fs2) m hfs).2 gap ind
        rw [show needF (.cons k v (.cons k2 v2 fs2)) =
          1 + max (needV v) (needF (.cons k2 v2 fs2)) from rfl,
          show renderJFields gap ind (.cons k2 v2 fs2) =
            ',' :: (nlInd gap ind ++ renderJStr k2 ++ ':' ::
              (gapSpace gap ++ renderJVal gap ind v2 ++ renderJFields gap ind fs2))
            from rfl]
        simp only [List.length_cons, List.length_append]
        omega

/-- JSON.parse undoes JSON.stringify at every gap width. -/
theorem fromJSON_toJSON (v : JSValue) (space : Nat) :
    fromJSON (toJSON v space) = .ok v := by
  have hws : wsOnly (List.replicate (min space 10) ' ') := by
    intro c hc
    rw [List.eq_of_mem_replicate hc]
    rfl
  have hbound : needV v ≤
      (renderJVal (List.replicate (min space 10) ' ') [] v).length + 1 := by
    have := (need_le_len (needV v)).1 v (Nat.le_refl _)
      (List.replicate (min space 10) ' ') []
    omega
  have hrt := (rt_json ((renderJVal (List.replicate (min space 10) ' ') [] v).length + 1)).1
    v (List.replicate (min space 10) ' ') [] [] hbound hws (fun c hc => absurd hc (by simp))
    numDelim_nil
  rw [List.append_nil] at hrt
  unfold fromJSON toJSON
  show (match parseJVal ((renderJVal (List.replicate (min space 10) ' ') [] v).length + 1)
      (renderJVal (List.replicate (min space 10) ' ') [] v) with
    | Except.error e => Except.error e
    | Except.ok (v, r) =>
      if (skipWsJson r).isEmpty then Except.ok v else Except.error "trailing characters") =
    Except.ok v
  rw [hrt]
  rfl

/-- The components of a plain cell character. -/
theorem plain_facts (d q c : Char) (h : plainCellChar d q c = true) :
    c ≠ d ∧ c ≠ q ∧ c ≠ '\n' ∧ c ≠ '\r' := by
  unfold plainCellChar at h
  rw [Bool.not_eq_true'] at h
  simp only [Bool.or_eq_false_iff, decide_eq_false_iff_not] at h
  exact ⟨h.1.1.1, h.1.1.2, h.1.2, h.2⟩

/-- The machine accumulates a plain run into the current cell, spending
one unit of fuel per character. -/
theorem csv_run (d q : Char) (seg : List Char) :
    ∀ rest fuel val row rows, (∀ c ∈ seg, plainCellChar d q c = true) →
      parseCSVAux d q (seg.length + fuel) (seg ++ rest) false val row rows =
        parseCSVAux d q fuel rest false (val ++ seg) row rows := by
  induction seg with
  | nil =>
    intro rest fuel val row rows _
    simp
  | cons c s2 ih =>
    intro rest fuel val row rows h
    obtain ⟨hd, hq, hn, hr⟩ := plain_facts d q c (h c (List.mem_cons_self c s2))
    have hlen : (c :: s2 : List Char).length + fuel = (s2.length + fuel) + 1 := by
      simp only [List.length_cons]
      omega
    rw [hlen, List.cons_append, parseCSVAux.eq_def]
    dsimp only
    rw [if_neg hq,
      if_neg (fun h2 => hd h2.1),
      if_neg (fun h2 => h2.1.elim hn (fun h3 => hr h3.1)),
      ih rest fuel (val ++ [c]) row rows (fun c2 hc2 => h c2 (List.mem_cons_of_mem c hc2))]
    simp

/-- The machine closes the current cell at an unquoted delimiter. -/
theorem csv_delim (d q : Char) (hdq : d ≠ q) (rest : List Char) (fuel : Nat)
    (val : List Char) (row : List JSValue) (rows : List (List JSValue)) :
    parseCSVAux d q (fuel + 1) (d :: rest) false val row rows =
      parseCSVAux d q fuel rest false [] (row ++ [decodeValue (String.mk val)]) rows := by
  rw [parseCSVAux.eq_def]
  dsimp only
  rw [if_neg hdq, if_pos ⟨rfl, rfl⟩]

/-- The machine closes the current row at an unquoted newline. -/
theorem csv_newline (d q : Char) (hqn : ('\n' : Char) ≠ q) (hdn : ('\n' : Char) ≠ d)
    (rest : List Char) (fuel : Nat) (val : List Char) (row : List JSValue)
    (rows : List (List JSValue)) :
    parseCSVAux d q (fuel + 1) ('\n' :: rest) false val row rows =
      parseCSVAux d q fuel rest false [] []
        (rows ++ [row ++ [decodeValue (String.mk val)]]) := by
  rw [parseCSVAux.eq_def]
  dsimp only
  rw [if_neg hqn, if_neg (fun h2 => hdn h2.1),
    if_pos ⟨Or.inl rfl, rfl⟩, if_neg (by decide : ¬(('\n' : Char) = '\r'))]

/-- The machine flushes a nonempty final cell and row at the end of the
content. -/
theorem csv_end (d q : Char) (fuel : Nat) (val : List Char) (hval : val ≠ [])
    (row : List JSValue) (rows : List (List JSValue)) :
    parseCSVAux d q fuel [] false val row rows =
      rows ++ [row ++ [decodeValue (String.mk val)]] := by
  have h1 : (!val.isEmpty) = true := by
    cases val with
    | nil => exact absurd rfl hval
    | cons a b => rfl
  rw [parseCSVAux]
  simp only [h1, if_true]
  have h2 : (!(row ++ [decodeValue (String.mk val)]).isEmpty) = true := by simp
  simp only [h2, if_true]
/-- A plain run that ends the content flushes as the last cell of the
last row. -/
theorem csv_run_end (d q : Char) (seg : List Char) (hne : seg ≠ [])
    (hpl : ∀ c ∈ seg, plainCellChar d q c = true) (val : List Char)
    (row : List JSValue) (rows : List (List JSValue)) :
    parseCSVAux d q seg.length seg false val row rows =
      rows ++ [row ++ [decodeValue (String.mk (val ++ seg))]] := by
  have h := csv_run d q seg [] 0 val row rows hpl
  simp only [List.append_nil, Nat.add_zero] at h
  rw [h]
  exact csv_end d q 0 (val ++ seg)
    (fun h2 => hne (List.append_eq_nil.mp h2).2) row rows

/-- The machine consumes one rendered line followed by a newline:
the line's cells join the finished rows. -/
theorem csv_line_mid (d q : Char) (hdq : d ≠ q) (hqn : ('\n' : Char) ≠ q)
    (hdn : ('\n' : Char) ≠ d) (cells : List (List Char)) :
    ∀ rest fuel row rows, cells ≠ [] →
      (∀ cl ∈ cells, cl ≠ [] ∧ ∀ c ∈ cl, plainCellChar d q c = true) →
      parseCSVAux d q ((joinCharL d cells).length + 1 + fuel)
          (joinCharL d cells ++ '\n' :: rest) false [] row rows =
        parseCSVAux d q fuel rest false [] []
          (rows ++ [row ++ cells.map (fun cl => decodeValue (String.mk cl))]) := by
  induction cells with
  | nil =>
    intro _ _ _ _ hne _
    exact absurd rfl hne
  | cons c1 cs1 ih =>
    intro rest fuel row rows _ hcond
    obtain ⟨hc1ne, hc1pl⟩ := hcond c1 (List.mem_cons_self c1 cs1)
    cases cs1 with
    | nil =>
      rw [show joinCharL d [c1] = c1 from rfl]
      have hlen : c1.length + 1 + fuel = c1.length + (fuel + 1) := by omega
      rw [hlen, csv_run d q c1 ('\n' :: rest) (fuel + 1) [] row rows hc1pl,
        csv_newline d q hqn hdn rest fuel ([] ++ c1) row rows]
      simp
    | cons c2 cs2 =>
      rw [show joinCharL d (c1 :: c2 :: cs2) = c1 ++ d :: joinCharL d (c2 :: cs2)
        from rfl]
      have hlen : (c1 ++ d :: joinCharL d (c2 :: cs2)).length + 1 + fuel =
          c1.length + ((((joinCharL d (c2 :: cs2)).length + 1 + fuel) + 1)) := by
        simp only [List.length_append, List.length_cons]
        omega
      rw [hlen, List.append_assoc, List.cons_append,
        csv_run d q c1 (d :: (joinCharL d (c2 :: cs2) ++ '\n' :: rest))
          (((joinCharL d (c2 :: cs2)).length + 1 + fuel) + 1) [] row rows hc1pl,
        csv_delim d q hdq _ _ ([] ++ c1) row rows,
        ih rest fuel (row ++ [decodeValue (String.mk ([] ++ c1))]) rows
          (List.cons_ne_nil c2 cs2)
          (fun cl hcl => hcond cl (List.mem_cons_of_mem c1 hcl))]
      simp

/-- The machine consumes a final rendered line (no trailing newline):
the line's cells join the finished rows and the run ends. -/
theorem csv_line_final (d q : Char) (hdq : d ≠ q) (cells : List (List Char)) :
    ∀ row rows, cells ≠ [] →
      (∀ cl ∈ cells, cl ≠ [] ∧ ∀ c ∈ cl, plainCellChar d q c = true) →
      parseCSVAux d q (joinCharL d cells).length (joinCharL d cells) false [] row rows =
        rows ++ [row ++ cells.map (fun cl => decodeValue (String.mk cl))] := by
  induction cells with
  | nil =>
    intro _ _ hne _
    exact absurd rfl hne
  | cons c1 cs1 ih =>
    intro row rows _ hcond
    obtain ⟨hc1ne, hc1pl⟩ := hcond c1 (List.mem_cons_self c1 cs1)
    cases cs1 with
    | nil =>
      rw [show joinCharL d [c1] = c1 from rfl]
      rw [csv_run_end d q c1 hc1ne hc1pl [] row rows]
      simp
    | cons c2 cs2 =>
      rw [show joinCharL d (c1 :: c2 :: cs2) = c1 ++ d :: joinCharL d (c2 :: cs2)
        from rfl]
      have hlen : (c1 ++ d :: joinCharL d (c2 :: cs2)).length =
          c1.length + (((joinCharL d (c2 :: cs2)).length) + 1) := by
        simp only [List.length_append, List.length_cons]
      rw [hlen,
        csv_run d q c1 (d :: joinCharL d (c2 :: cs2))
          ((joinCharL d (c2 :: cs2)).length + 1) [] row rows hc1pl,
        csv_delim d q hdq _ _ ([] ++ c1) row rows,
        ih (row ++ [decodeValue (String.mk ([] ++ c1))]) rows
          (List.cons_ne_nil c2 cs2)
          (fun cl hcl => hcond cl (List.mem_cons_of_mem c1 hcl))]
      simp

/-- The machine decodes a whole rendered table: one finished row per
line, one decoded cell per rendered cell. -/
theorem csv_machine (d q : Char) (hdq : d ≠ q) (hqn : ('\n' : Char) ≠ q)
    (hdn : ('\n' : Char) ≠ d) (lines : List (List (List Char))) :
    ∀ rows0, lines ≠ [] →
      (∀ ln ∈ lines, ln ≠ [] ∧ ∀ cl ∈ ln, cl ≠ [] ∧
        ∀ c ∈ cl, plainCellChar d q c = true) →
      parseCSVAux d q (joinCharL '\n' (lines.map (joinCharL d))).length
          (joinCharL '\n' (lines.map (joinCharL d))) false [] [] rows0 =
        rows0 ++ lines.map (fun ln => ln.map (fun cl => decodeValue (String.mk cl))) := by
  induction lines with
  | nil =>
    intro _ hne _
    exact absurd rfl hne
  | cons l1 ls ih =>
    intro rows0 _ hcond
    obtain ⟨hl1ne, hl1c⟩ := hcond l1 (List.mem_cons_self l1 ls)
    cases ls with
    | nil =>
      rw [show joinCharL '\n' ((l1 :: []).map (joinCharL d)) = joinCharL d l1 from rfl]
      rw [csv_line_final d q hdq l1 [] rows0 hl1ne hl1c]
      simp
    | cons l2 ls2 =>
      rw [show joinCharL '\n' ((l1 :: l2 :: ls2).map (joinCharL d)) =
        joinCharL d l1 ++ '\n' :: joinCharL '\n' ((l2 :: ls2).map (joinCharL d))
        from rfl]
      have hlen : (joinCharL d l1 ++ '\n' ::
          joinCharL '\n' ((l2 :: ls2).map (joinCharL d))).length =
          (joinCharL d l1).length + 1 +
            (joinCharL '\n' ((l2 :: ls2).map (joinCharL d))).length := by
        simp only [List.length_append, List.length_cons]
        omega
      rw [hlen, csv_line_mid d q hdq hqn hdn l1 _ _ [] rows0 hl1ne hl1c,
        ih (rows0 ++ [[] ++ l1.map (fun cl => decodeValue (String.mk cl))])
          (List.cons_ne_nil l2 ls2)
          (fun ln hln => hcond ln (List.mem_cons_of_mem l1 hln))]
      simp
/-- Digits are not JS whitespace. -/
theorem digit_not_jsws (c : Char) (h : isDigitChar c = true) : isJsWs c = false := by
  cases hw : isJsWs c with
  | false => rfl
  | true =>
    unfold isJsWs at hw
    simp only [Bool.or_eq_true, decide_eq_true_eq] at hw
    rcases hw with ((((hw | hw) | hw) | hw) | hw) | hw <;> subst hw <;>
      exact absurd h (by decide)

/-- Trimming is the identity on whitespace-free text. -/
theorem jsTrim_no_ws (l : List Char) (h : ∀ c ∈ l, isJsWs c = false) :
    jsTrim (String.mk l) = String.mk l := by
  have h1 : l.dropWhile isJsWs = l := by
    cases l with
    | nil => rfl
    | cons a t =>
      rw [List.dropWhile_cons_of_neg]
      simp [h a (List.mem_cons_self a t)]
  unfold jsTrim
  show String.mk ((l.dropWhile isJsWs).reverse.dropWhile isJsWs).reverse = _
  rw [h1]
  have h2 : l.reverse.dropWhile isJsWs = l.reverse := by
    cases hr : l.reverse with
    | nil => rfl
    | cons a t =>
      rw [List.dropWhile_cons_of_neg]
      have ha : a ∈ l := by
        rw [← List.mem_reverse, hr]
        exact List.mem_cons_self a t
      simp [h a ha]
  rw [h2, List.reverse_reverse]

/-- Every character of a rendered integer is a minus sign or a digit. -/
theorem intChars_all (n : Int) :
    ∀ c ∈ intChars n, c = '-' ∨ isDigitChar c = true := by
  have hdg : ∀ c ∈ natChars n.natAbs [], isDigitChar c = true := by
    have := natCharsF_all_digits (n.natAbs + 1) n.natAbs [] rfl
    rw [List.all_eq_true] at this
    exact fun c hc => this c hc
  intro c hc
  unfold intChars at hc
  by_cases hneg : n < 0
  · rw [if_pos hneg] at hc
    rcases List.mem_cons.mp hc with h | h
    · exact Or.inl h
    · exact Or.inr (hdg c h)
  · rw [if_neg hneg] at hc
    exact Or.inr (hdg c hc)

/-- A rendered integer has no whitespace. -/
theorem intChars_no_ws (n : Int) : ∀ c ∈ intChars n, isJsWs c = false := by
  intro c hc
  rcases intChars_all n c hc with h | h
  · rw [h]; rfl
  · exact digit_not_jsws c h

/-- A rendered integer is a plain comma-separated cell. -/
theorem intChars_plain (n : Int) :
    ∀ c ∈ intChars n, plainCellChar ',' '"' c = true := by
  intro c hc
  rcases intChars_all n c hc with h | h
  · rw [h]; rfl
  · unfold plainCellChar
    rw [Bool.not_eq_true']
    simp only [Bool.or_eq_false_iff, decide_eq_false_iff_not]
    exact ⟨⟨⟨fun hc2 => absurd (hc2 ▸ h) (by decide),
      fun hc2 => absurd (hc2 ▸ h) (by decide)⟩,
      fun hc2 => absurd (hc2 ▸ h) (by decide)⟩,
      fun hc2 => absurd (hc2 ▸ h) (by decide)⟩

/-- A rendered integer is numeric-looking. -/
theorem intLike_intChars (n : Int) : intLike (intChars n) = true := by
  obtain ⟨d, ds, hnc, hall⟩ := natChars_cons n.natAbs
  have hdnm : d ≠ '-' ∧ d ≠ '+' := by
    simp only [List.all_cons, Bool.and_eq_true] at hall
    exact ⟨fun h => absurd (h ▸ hall.1) (by decide),
      fun h => absurd (h ▸ hall.1) (by decide)⟩
  have hallTrue : (natChars n.natAbs []).all isDigitChar = true := by
    rw [hnc]; exact hall
  unfold intChars
  by_cases hneg : n < 0
  · rw [if_pos hneg]
    show (!(natChars n.natAbs []).isEmpty && (natChars n.natAbs []).all isDigitChar) = true
    rw [hallTrue, hnc]
    rfl
  · rw [if_neg hneg, hnc]
    unfold intLike
    split
    · rename_i heq
      simp only [List.cons.injEq] at heq
      exact absurd heq.1 hdnm.1
    · rename_i heq
      simp only [List.cons.injEq] at heq
      exact absurd heq.1 hdnm.2
    · rw [← hnc, hallTrue, hnc]
      rfl

/-- The numeric value of a rendered integer is the integer. -/
theorem intOfChars_intChars (n : Int) : intOfChars (intChars n) = n := by
  obtain ⟨d, ds, hnc, hall⟩ := natChars_cons n.natAbs
  have hdnm : d ≠ '-' ∧ d ≠ '+' := by
    simp only [List.all_cons, Bool.and_eq_true] at hall
    exact ⟨fun h => absurd (h ▸ hall.1) (by decide),
      fun h => absurd (h ▸ hall.1) (by decide)⟩
  have hv : digitsVal (natChars n.natAbs []) = n.natAbs := natChars_val n.natAbs
  unfold intChars
  by_cases hneg : n < 0
  · rw [if_pos hneg]
    show -(digitsVal (natChars n.natAbs []) : Int) = n
    rw [hv]
    omega
  · rw [if_neg hneg, hnc]
    unfold intOfChars
    split
    · rename_i heq
      simp only [List.cons.injEq] at heq
      exact absurd heq.1 hdnm.1
    · rename_i heq
      simp only [List.cons.injEq] at heq
      exact absurd heq.1 hdnm.2
    · rw [← hnc, hv]
      omega

/-- Decoding a rendered integer cell recovers the number. -/
theorem decode_intChars (n : Int) :
    decodeValue (String.mk (intChars n)) = .vnum n := by
  unfold decodeValue
  rw [jsTrim_no_ws (intChars n) (intChars_no_ws n)]
  show (if intLike (intChars n) then JSValue.vnum (intOfChars (intChars n))
    else JSValue.vstr (String.mk (intChars n))) = _
  rw [intLike_intChars, if_pos rfl, intOfChars_intChars]
/-- A plain string cell escapes to itself. -/
theorem escapeCell_plain_str (d q : Char) (s : String)
    (h : ∀ c ∈ s.data, plainCellChar d q c = true) :
    escapeCell d q '\n' (.vstr s) = s := by
  unfold escapeCell
  dsimp only
  rw [if_neg]
  intro h2
  rw [List.any_eq_true] at h2
  obtain ⟨c, hc, h3⟩ := h2
  obtain ⟨h4, h5, h6, -⟩ := plain_facts d q c (h c hc)
  simp only [Bool.or_eq_true, decide_eq_true_eq] at h3
  rcases h3 with (h3 | h3) | h3
  · exact h4 h3
  · exact h5 h3
  · exact h6 h3

/-- A number cell escapes to its decimal rendering. -/
theorem escapeCell_num (d q e : Char) (n : Int) :
    escapeCell d q e (.vnum n) = String.mk (intChars n) := rfl

/-- A successful saveCSV of a nonempty record list wrote exactly the
joined header and rows. -/
theorem saveCSV_eq (fs : FSState) (path : String)
    (row0 : List (String × JSValue)) (rest : List (List (String × JSValue)))
    (d q e : Char) (fs2 : FSState) (t : String)
    (h : saveCSV fs path (row0 :: rest) d q e = .ok (fs2, t)) :
    t = saveCSV.joinChar
      (saveCSV.joinChar (row0.map fun kv => escapeCell d q e (.vstr kv.1)) d ::
        (row0 :: rest).map (fun row =>
          saveCSV.joinChar (row.map fun kv => escapeCell d q e kv.2) d)) e ∧
    fsWriteFile fs path t = .ok fs2 := by
  dsimp only [saveCSV] at h
  obtain ⟨ht, hw⟩ := writeWrap_ok _ _ _ _ _ h
  refine ⟨ht, ?_⟩
  rw [ht]
  exact hw

/-- The characters of an appended string. -/
theorem string_data_append (a b : String) : (a ++ b).data = a.data ++ b.data := by
  cases a
  cases b
  rfl

/-- The characters of a joined string list. -/
theorem joinChar_data (ch : Char) (l : List String) :
    (saveCSV.joinChar l ch).data = joinCharL ch (l.map (·.data)) := by
  induction l with
  | nil => rfl
  | cons x rest ih =>
    cases rest with
    | nil => rfl
    | cons y t =>
      rw [show saveCSV.joinChar (x :: y :: t) ch =
        x ++ String.mk [ch] ++ saveCSV.joinChar (y :: t) ch from rfl]
      rw [show joinCharL ch ((x :: y :: t).map (·.data)) =
        x.data ++ ch :: joinCharL ch ((y :: t).map (·.data)) from rfl]
      rw [← ih, string_data_append, string_data_append]
      simp

/-- Rebuilding a record from its key row and value row recovers it. -/
theorem range_build (l : List (String × JSValue))
    (hstable : ∀ kv ∈ l, decodeAgain kv.2 = kv.2) :
    (List.range (l.map (·.2)).length).map (fun i =>
      (keyOfCell ((l.map (fun kv => JSValue.vstr kv.1))[i]?),
       decodeAgain ((l.map (·.2)).getD i .vnull))) = l := by
  induction l with
  | nil => rfl
  | cons kv l2 ih =>
    rw [show (((kv :: l2).map (·.2)).length) = ((l2.map (·.2)).length) + 1 from by simp]
    rw [List.range_succ_eq_map, List.map_cons, List.map_map]
    congr 1
    · simp only [List.map_cons, List.getElem?_cons_zero, List.getD_cons_zero]
      rw [hstable kv (List.mem_cons_self kv l2)]
      rfl
    · refine Eq.trans (List.map_congr_left (fun i _ => ?_))
        (ih (fun kv2 hkv2 => hstable kv2 (List.mem_cons_of_mem kv hkv2)))
      simp only [Function.comp_apply, List.map_cons, List.getElem?_cons_succ,
        List.getD_cons_succ]
/-- loadCSV undoes saveCSV on a nonempty uniform-keyed table of plain
decode-stable cells: the records come back with their keys, numbers as
numbers and plain strings as themselves. -/
theorem loadCSV_saveCSV (fs : FSState) (path : String)
    (row0 : List (String × JSValue)) (rest : List (List (String × JSValue)))
    (fs2 : FSState) (t : String) (keys : List String)
    (hk0 : row0.map (·.1) = keys)
    (hkeys : ∀ rec ∈ rest, rec.map (·.1) = keys)
    (hkne : keys ≠ [])
    (hkey_ok : ∀ k ∈ keys, k.data ≠ [] ∧
      (∀ c ∈ k.data, plainCellChar ',' '"' c = true) ∧ decodeValue k = .vstr k)
    (hval_ok : ∀ rec ∈ (row0 :: rest), ∀ kv ∈ rec,
      (∃ n, kv.2 = JSValue.vnum n) ∨
      (∃ s, kv.2 = JSValue.vstr s ∧ s.data ≠ [] ∧
        (∀ c ∈ s.data, plainCellChar ',' '"' c = true) ∧ decodeValue s = .vstr s))
    (h : saveCSV fs path (row0 :: rest) ',' '"' '\n' = .ok (fs2, t)) :
    loadCSV fs2 path ',' '"' = .ok (jarr ((row0 :: rest).map jobj)) := by
  obtain ⟨ht, hw⟩ := saveCSV_eq fs path row0 rest ',' '"' '\n' fs2 t h
  obtain ⟨hpne, hfs2⟩ := fsWriteFile_ok fs path t fs2 hw
  have hfile : isFileAt fs2 path = true := by
    rw [hfs2]
    exact isFileAt_setEntry_file _ _ _ hpne
  have hcontent : fileContent fs2 path = t := by
    rw [hfs2]
    exact fileContent_setEntry_self _ _ _
  -- facts about the escaped cells
  have hesc : ∀ rec ∈ (row0 :: rest), ∀ kv ∈ rec,
      (escapeCell ',' '"' '\n' kv.2).data ≠ [] ∧
      (∀ c ∈ (escapeCell ',' '"' '\n' kv.2).data, plainCellChar ',' '"' c = true) ∧
      decodeValue (String.mk (escapeCell ',' '"' '\n' kv.2).data) = kv.2 := by
    intro rec hrec kv hkv
    rcases hval_ok rec hrec kv hkv with ⟨n, hn⟩ | ⟨s, hs, hne, hpl, hdec⟩
    · rw [hn, escapeCell_num]
      refine ⟨?_, intChars_plain n, decode_intChars n⟩
      have := natCharsF_ne_nil (n.natAbs + 1) n.natAbs [] (Or.inr (by omega))
      unfold intChars
      split
      · exact List.cons_ne_nil _ _
      · exact this
    · rw [hs, escapeCell_plain_str ',' '"' s hpl]
      exact ⟨hne, hpl, hdec⟩
  have hkey : ∀ kv ∈ row0,
      (escapeCell ',' '"' '\n' (JSValue.vstr kv.1)).data ≠ [] ∧
      (∀ c ∈ (escapeCell ',' '"' '\n' (JSValue.vstr kv.1)).data,
        plainCellChar ',' '"' c = true) ∧
      decodeValue (String.mk (escapeCell ',' '"' '\n' (JSValue.vstr kv.1)).data) =
        .vstr kv.1 := by
    intro kv hkv
    have hk : kv.1 ∈ keys := by
      rw [← hk0]
      exact List.mem_map.mpr ⟨kv, hkv, rfl⟩
    obtain ⟨hne, hpl, hdec⟩ := hkey_ok kv.1 hk
    rw [escapeCell_plain_str ',' '"' kv.1 hpl]
    exact ⟨hne, hpl, hdec⟩
  -- the written characters as a joined table of character cells
  have hlines : t.data = joinCharL '\n'
      (((row0.map (fun kv => (escapeCell ',' '"' '\n' (JSValue.vstr kv.1)).data)) ::
        (row0 :: rest).map (fun rec =>
          rec.map (fun kv => (escapeCell ',' '"' '\n' kv.2).data))).map
        (joinCharL ',')) := by
    rw [ht, joinChar_data]
    simp only [List.map_cons, List.map_map, joinChar_data, Function.comp_def]
  have hrow0ne : row0 ≠ [] := by
    intro h2
    rw [h2] at hk0
    exact hkne hk0.symm
  -- run the machine over the written characters
  have hmach := csv_machine ',' '"' (by decide) (by decide) (by decide)
    ((row0.map (fun kv => (escapeCell ',' '"' '\n' (JSValue.vstr kv.1)).data)) ::
      (row0 :: rest).map (fun rec =>
        rec.map (fun kv => (escapeCell ',' '"' '\n' kv.2).data))) []
    (List.cons_ne_nil _ _) ?hconds
  case hconds =>
    intro ln hln
    rcases List.mem_cons.mp hln with hh | hh
    · subst hh
      refine ⟨?_, ?_⟩
      · intro h2
        rw [List.map_eq_nil_iff] at h2
        exact hrow0ne h2
      · intro cl hcl
        rcases List.mem_map.mp hcl with ⟨kv, hkv, rfl⟩
        exact ⟨(hkey kv hkv).1, (hkey kv hkv).2.1⟩
    · rcases List.mem_map.mp hh with ⟨rec, hrec, rfl⟩
      refine ⟨?_, ?_⟩
      · intro h2
        rw [List.map_eq_nil_iff] at h2
        have : rec.map (·.1) = keys := by
          rcases List.mem_cons.mp hrec with h3 | h3
          · rw [h3]; exact hk0
          · exact hkeys rec h3
        rw [h2] at this
        exact hkne this.symm
      · intro cl hcl
        rcases List.mem_map.mp hcl with ⟨kv, hkv, rfl⟩
        exact ⟨(hesc rec hrec kv hkv).1, (hesc rec hrec kv hkv).2.1⟩
  have hparse : parseCSV t ',' '"' =
      (row0.map (fun kv => JSValue.vstr kv.1)) ::
        (row0 :: rest).map (fun rec => rec.map (·.2)) := by
    unfold parseCSV
    rw [hlines, hmach]
    simp only [List.nil_append, List.map_cons, List.map_map]
    congr 1
    · refine List.map_congr_left (fun kv hkv => ?_)
      exact (hkey kv hkv).2.2
    congr 1
    · refine List.map_congr_left (fun kv hkv => ?_)
      exact (hesc row0 (List.mem_cons_self row0 rest) kv hkv).2.2
    · refine List.map_congr_left (fun rec hrec => ?_)
      show List.map (fun cl => decodeValue (String.mk cl))
        (rec.map (fun kv => (escapeCell ',' '"' '\n' kv.2).data)) = _
      rw [List.map_map]
      refine List.map_congr_left (fun kv hkv => ?_)
      exact (hesc rec (List.mem_cons_of_mem row0 hrec) kv hkv).2.2
  -- assemble loadCSV's view
  unfold loadCSV
  rw [if_neg (by rw [hfile]; exact fun h2 => h2 rfl)]
  rw [hcontent, hparse]
  simp only [List.headD_cons, List.tail_cons]
  congr 1
  unfold jarr
  congr 1
  simp only [List.map_map]
  refine congrArg jarrOf ?_
  refine List.map_congr_left (fun rec hrec => ?_)
  simp only [Function.comp_apply]
  have hkrec : rec.map (·.1) = keys := by
    rcases List.mem_cons.mp hrec with h3 | h3
    · rw [h3]; exact hk0
    · exact hkeys rec h3
  have hstab : ∀ kv ∈ rec, decodeAgain kv.2 = kv.2 := by
    intro kv hkv
    rcases hval_ok rec hrec kv hkv with ⟨n, hn⟩ | ⟨s, hs, -, -, hdec⟩
    · rw [hn]
      exact decode_intChars n
    · rw [hs]
      exact hdec
  have hb := range_build rec hstab
  have hcols : row0.map (fun kv => JSValue.vstr kv.1) =
      rec.map (fun kv => JSValue.vstr kv.1) := by
    have : (row0.map (·.1)).map JSValue.vstr = (rec.map (·.1)).map JSValue.vstr := by
      rw [hk0, hkrec]
    simpa [List.map_map, Function.comp] using this
  rw [hcols]
  exact congrArg jobj hb

/-- saveJSON on a value outside the brace-sniffing quirk writes exactly
the stringified value. -/
theorem saveJSON_notBraced (fs : FSState) (file : String) (data : JSValue)
    (space : Nat) (fs2 : FSState) (t : String)
    (hnb : notBracedStr data = true)
    (h : saveJSON fs file data space = .ok (fs2, t)) :
    t = toJSON data space ∧ fsWriteFile fs file (toJSON data space) = .ok fs2 := by
  cases data with
  | vstr s =>
    have hc : ((strStartsWith s "\x7b" && strEndsWith s "\x7d") ||
        (strStartsWith s "[" && strEndsWith s "]")) = false := by
      cases hX : ((strStartsWith s "\x7b" && strEndsWith s "\x7d") ||
          (strStartsWith s "[" && strEndsWith s "]"))
      · rfl
      · rw [show notBracedStr (.vstr s) =
          !((strStartsWith s "\x7b" && strEndsWith s "\x7d") ||
            (strStartsWith s "[" && strEndsWith s "]")) from rfl, hX] at hnb
        cases hnb
    dsimp only [saveJSON] at h
    rw [hc] at h
    simp only [Bool.false_eq_true, if_false] at h
    exact writeWrap_ok _ _ _ _ _ h
  | vnull =>
    dsimp only [saveJSON] at h
    exact writeWrap_ok _ _ _ _ _ h
  | vbool b =>
    dsimp only [saveJSON] at h
    exact writeWrap_ok _ _ _ _ _ h
  | vnum n =>
    dsimp only [saveJSON] at h
    exact writeWrap_ok _ _ _ _ _ h
  | varr es =>
    dsimp only [saveJSON] at h
    exact writeWrap_ok _ _ _ _ _ h
  | vobj fields =>
    dsimp only [saveJSON] at h
    exact writeWrap_ok _ _ _ _ _ h

/-- On a .json target the registered saver chain writes exactly the
two-space pretty JSON of the document. -/
theorem runSavers_dbfs_json (fs : FSState) (path : String) (doc : JSValue)
    (ext : String) (fs2 : FSState) (tr : List Ev)
    (hnode : nodeExtname path = ".json")
    (hnb : notBracedStr doc = true)
    (h : runSavers fs path doc ext dbfsSavers 0 = (.ok (some fs2), tr)) :
    fsWriteFile fs path (toJSON doc 2) = .ok fs2 := by
  simp only [dbfsSavers, runSavers] at h
  split at h
  · cases h
  · rename_i fs2x res hsv
    unfold fsSave at hsv
    split at hsv
    · -- .json
      split at hsv
      · rename_i fs2y t hsj
        simp only [Prod.mk.injEq, Except.ok.injEq] at hsv
        obtain ⟨h1, h2⟩ := hsv
        subst h1
        subst h2
        rw [if_neg (by simp [JSValue.isFalse])] at h
        simp only [Prod.mk.injEq, Except.ok.injEq, Option.some.injEq] at h
        obtain ⟨hfs, -⟩ := h
        subst hfs
        obtain ⟨-, hw⟩ := saveJSON_notBraced fs path doc 2 _ t hnb hsj
        exact hw
      · cases hsv
    · -- .csv: the extension hypothesis contradicts hnode
      rename_i heq
      rw [hnode] at heq
      exact absurd heq (by decide)
    · rename_i heq
      rw [hnode] at heq
      exact absurd heq (by decide)
    · rename_i heq
      rw [hnode] at heq
      exact absurd heq (by decide)
    · rename_i heq
      rw [hnode] at heq
      exact absurd heq (by decide)
    · rename_i heq
      rw [hnode] at heq
      exact absurd heq (by decide)
    · rename_i h1 h2 h3 h4 h5 h6
      exact absurd hnode h1

/-- A successful saveDocument on a URI resolving to a .json path leaves
exactly the pretty-printed document on disk, preserves cwd and root, and
certifies the write access grant. -/
theorem saveDocument_json_content (s : Store) (uri : String) (doc : JSValue)
    (b : Bool) (s1 : Store) (tr : List Ev)
    (hnode : nodeExtname (locOf s uri) = ".json")
    (hnb : notBracedStr doc = true)
    (h : saveDocument s uri doc = (.ok b, s1, tr)) :
    s1.cwd = s.cwd ∧ s1.root = s.root ∧
    (ensureAccess s uri "w").1 = .ok () ∧
    fileContent s1.fs (locOf s uri) = toJSON doc 2 ∧
    isFileAt s1.fs (locOf s uri) = true := by
  unfold saveDocument at h
  split at h
  · simp at h
  · rename_i u tra heqA
    split at h
    · simp at h
    · rename_i sB trB heqB
      obtain ⟨hcwd, hroot, -, -⟩ := _buildPath_frame s uri sB trB heqB
      dsimp only at h
      split at h
      · simp at h
      · rename_i trS heqS
        obtain ⟨fs2x, hcontra, -⟩ := runSavers_dbfs_some sB.fs _ doc _ none trS heqS
        exact Option.noConfusion hcontra
      · rename_i fs2 trS heqS
        have hpath : nodeResolve [sB.cwd, sB.root, resolveSync [uri]] = locOf s uri := by
          unfold locOf
          rw [hcwd, hroot]
        rw [hpath] at heqS
        have hwr := runSavers_dbfs_json sB.fs (locOf s uri) doc (extname uri)
          fs2 trS hnode hnb heqS
        obtain ⟨hpne, hfs2⟩ := fsWriteFile_ok sB.fs (locOf s uri) (toJSON doc 2) fs2 hwr
        simp only [Prod.mk.injEq, Except.ok.injEq] at h
        obtain ⟨-, hs1, -⟩ := h
        subst hs1
        refine ⟨hcwd, hroot, ?_, ?_, ?_⟩
        · rw [heqA]
        · show fileContent fs2 (locOf s uri) = toJSON doc 2
          rw [hfs2]
          exact fileContent_setEntry_self _ _ _
        · show isFileAt fs2 (locOf s uri) = true
          rw [hfs2]
          exact isFileAt_setEntry_file _ _ _ hpne

/-- A loader answering with the JS-false sentinel cedes to the rest of
the chain, leaving its call event. -/
theorem runLoaders_skip (fs : FSState) (path ext : String) (l : Loader)
    (rest : List Loader) (i : Nat) (v0 : JSValue)
    (hl : l fs path ext = .ok v0) (hv : v0.isFalse = true) :
    runLoaders fs path ext (l :: rest) i =
      ((runLoaders fs path ext rest (i + 1)).1,
       .loaderCall i :: (runLoaders fs path ext rest (i + 1)).2) := by
  simp only [runLoaders]
  rw [hl]
  dsimp only
  rw [hv]
  rfl

/-- Loading a non-.txt URI under a granted check runs the format
dispatcher: its non-false verdict is the load result. -/
theorem loadDocument_fsLoad (s : Store) (uri : String) (dv v : JSValue)
    (hext : extname uri ≠ ".txt")
    (hacc : (ensureAccess s uri "r").1 = .ok ())
    (hfile : isFileAt s.fs (locOf s uri) = true)
    (hload : fsLoad s.fs (locOf s uri) = .ok v)
    (hvf : v.isFalse = false) :
    (loadDocument s uri dv).1 = .ok v := by
  obtain ⟨c, hfind⟩ : ∃ c, fsFind s.fs (locOf s uri) = some (.file c) := by
    unfold isFileAt at hfile
    split at hfile
    · cases hfile
    · split at hfile
      · rename_i c hc
        exact ⟨c, hc⟩
      · cases hfile
  have hexists : fsExists s.fs (locOf s uri) = true := by
    unfold fsExists
    rw [hfind]
    simp
  unfold loadDocument loadDocumentAs loadDocumentAsWith
  rcases hacc2 : ensureAccess s uri "r" with ⟨res, tra⟩
  rw [hacc2] at hacc
  dsimp only at hacc
  subst hacc
  dsimp only
  rw [show (nodeResolve [s.cwd, s.root, resolveSync [uri]]) = locOf s uri from rfl,
    hexists]
  simp only [Bool.not_true, if_false]
  have hrun : runLoaders s.fs (locOf s uri) (extname uri) dbfsLoaders 0 =
      (.ok v, [.loaderCall 0, .loaderCall 1]) := by
    have h2 : runLoaders s.fs (locOf s uri) (extname uri)
        [fun fs file _ => fsLoad fs file] 1 = (.ok v, [.loaderCall 1]) := by
      refine runLoaders_first_hit _ _ _ _ _ _ _ ?_ hvf
      exact hload
    have hskip := runLoaders_skip s.fs (locOf s uri) (extname uri)
      (fun fs file ext => if ext = ".txt" then loadTXT fs file "" true
        else .ok (.vbool false))
      [fun fs file _ => fsLoad fs file] 0 (.vbool false)
      (by exact if_neg hext) rfl
    rw [show dbfsLoaders = [fun fs file ext =>
        if ext = ".txt" then loadTXT fs file "" true else .ok (.vbool false),
        fun fs file _ => fsLoad fs file] from rfl]
    rw [hskip, h2]
  rw [hrun]
  simp

/-- On a .json path, loading back a freshly saved document returns it
exactly (via the full JSON round-trip). -/
theorem saveDocument_then_load_json (s : Store) (uri : String) (doc dv : JSValue)
    (b : Bool) (s1 : Store) (tr : List Ev)
    (hext : extname uri ≠ ".txt")
    (hnode : nodeExtname (locOf s uri) = ".json")
    (hnb : notBracedStr doc = true)
    (hvf : doc.isFalse = false)
    (h : saveDocument s uri doc = (.ok b, s1, tr)) :
    (loadDocument s1 uri dv).1 = .ok doc := by
  obtain ⟨hcwd, hroot, hacc, hfc, hif⟩ :=
    saveDocument_json_content s uri doc b s1 tr hnode hnb h
  have hloc : locOf s1 uri = locOf s uri := by
    unfold locOf
    rw [hcwd, hroot]
  have hacc1 : (ensureAccess s1 uri "r").1 = .ok () := by
    rw [ensureAccess_fst_level s1 s uri "r" "w"]
    exact hacc
  have hload : fsLoad s1.fs (locOf s1 uri) = .ok doc := by
    rw [hloc]
    unfold fsLoad
    split
    · -- .json
      unfold loadJSON
      rw [hif, if_pos rfl, hfc, fromJSON_toJSON doc 2]
    · rename_i heq
      rw [hnode] at heq
      exact absurd heq (by decide)
    · rename_i heq
      rw [hnode] at heq
      exact absurd heq (by decide)
    · rename_i heq
      rw [hnode] at heq
      exact absurd heq (by decide)
    · rename_i heq
      rw [hnode] at heq
      exact absurd heq (by decide)
    · rename_i heq
      rw [hnode] at heq
      exact absurd heq (by decide)
    · rename_i h1 h2 h3 h4 h5 h6
      exact absurd hnode h1
  refine loadDocument_fsLoad s1 uri dv doc hext hacc1 ?_ hload hvf
  rw [hloc]
  exact hif

/-- The header-and-one-record table of the C4 witness: the round-trip
example of the spec. -/
def c4wRow : List (String × JSValue) :=
  [("Name", JSValue.vstr "John"), ("Age", JSValue.vnum 30)]

/-- The filesystem and text a concrete saveCSV of the witness table
produces. -/
def c4wSave : FSState × String :=
  match saveCSV wStore.fs "/c/r/t.csv" [c4wRow] ',' '"' '\n' with
  | .ok p => p
  | .error _ => (⟨[]⟩, "")

/-- C4 (amended): loadDocument after saveDocument round-trips, but not
for every representable input.  (1) The JSON codec round-trips every
value: fromJSON after toJSON is the identity at any gap width.  (2) At
the store level, a successfully saved object on a .json URI loads back
deep-equal.  (3) The CSV codec round-trips tables whose keys and cells
are plain and decode-stable (numbers, and strings the cell decoder
returns verbatim) — but not arbitrary flat records: the counterexample
shows a numeric-looking string cell is coerced to a number by the
loader, so the original every-input claim fails. -/
theorem c4_save_load_round_trip
    (s : Store) (uri : String) (fields : JSFields) (dv : JSValue)
    (b : Bool) (s1 : Store) (tr : List Ev)
    (fs : FSState) (path : String)
    (row0 : List (String × JSValue)) (rest : List (List (String × JSValue)))
    (fs2 : FSState) (t : String) (keys : List String)
    (hext : extname uri ≠ ".txt")
    (hnode : nodeExtname (locOf s uri) = ".json")
    (hsave : saveDocument s uri (.vobj fields) = (.ok b, s1, tr))
    (hk0 : row0.map (fun kv => kv.1) = keys)
    (hkeys : ∀ rec ∈ rest, rec.map (fun kv => kv.1) = keys)
    (hkne : keys ≠ [])
    (hkey_ok : ∀ k ∈ keys, k.data ≠ [] ∧
      (∀ c ∈ k.data, plainCellChar ',' '"' c = true) ∧ decodeValue k = .vstr k)
    (hval_ok : ∀ rec ∈ (row0 :: rest), ∀ kv ∈ rec,
      (∃ n, kv.2 = JSValue.vnum n) ∨
      (∃ str, kv.2 = JSValue.vstr str ∧ str.data ≠ [] ∧
        (∀ c ∈ str.data, plainCellChar ',' '"' c = true) ∧
        decodeValue str = .vstr str))
    (hcsv : saveCSV fs path (row0 :: rest) ',' '"' '\n' = .ok (fs2, t)) :
    (∀ v space, fromJSON (toJSON v space) = .ok v) ∧
    (loadDocument s1 uri dv).1 = .ok (.vobj fields) ∧
    loadCSV fs2 path ',' '"' = .ok (jarr ((row0 :: rest).map jobj)) := by
  refine ⟨fromJSON_toJSON, ?_, ?_⟩
  · exact saveDocument_then_load_json s uri (.vobj fields) dv b s1 tr
      hext hnode rfl rfl hsave
  · exact loadCSV_saveCSV fs path row0 rest fs2 t keys hk0 hkeys hkne
      hkey_ok hval_ok hcsv

/-- C4 witness: a concrete object saved to doc.json loads back equal,
and the spec's own CSV example table round-trips through the codec. -/
theorem c4_save_load_round_trip_witness :
    (∀ v space, fromJSON (toJSON v space) = .ok v) ∧
    (loadDocument
      (saveDocument wStore "doc.json" (.vobj (jobjOf [("k", JSValue.vnum 1)]))).2.1
      "doc.json" (.vstr "")).1 = .ok (.vobj (jobjOf [("k", JSValue.vnum 1)])) ∧
    loadCSV c4wSave.1 "/c/r/t.csv" ',' '"' =
      .ok (jarr ([c4wRow].map jobj)) := by
  refine c4_save_load_round_trip wStore "doc.json" (jobjOf [("k", JSValue.vnum 1)])
    (.vstr "") true
    (saveDocument wStore "doc.json" (.vobj (jobjOf [("k", JSValue.vnum 1)]))).2.1
    (saveDocument wStore "doc.json" (.vobj (jobjOf [("k", JSValue.vnum 1)]))).2.2
    wStore.fs "/c/r/t.csv" c4wRow [] c4wSave.1 c4wSave.2 ["Name", "Age"]
    (by decide) rfl rfl rfl ?_ (by decide) ?_ ?_ rfl
  · intro rec hrec
    cases hrec
  · intro k hk
    rcases List.mem_cons.mp hk with rfl | hk2
    · exact ⟨by decide, by decide, rfl⟩
    rcases List.mem_cons.mp hk2 with rfl | hk3
    · exact ⟨by decide, by decide, rfl⟩
    · cases hk3
  · intro rec hrec kv hkv
    rcases List.mem_cons.mp hrec with rfl | h2
    · rcases List.mem_cons.mp hkv with rfl | hkv2
      · exact Or.inr ⟨"John", rfl, by decide, by decide, rfl⟩
      rcases List.mem_cons.mp hkv2 with rfl | hkv3
      · exact Or.inl ⟨30, rfl⟩
      · cases hkv3
    · cases h2

/-- C4 counterexample: a record holding the numeric-looking string "7"
saves to x.csv successfully, but loads back with the cell coerced to the
number 7 — not deep-equal to the saved data. -/
theorem c4_csv_string_cell_cex :
    (saveDocument wStore "x.csv" (jarr [jobj [("a", JSValue.vstr "7")]])).1 = .ok true ∧
    (loadDocument (saveDocument wStore "x.csv" (jarr [jobj [("a", JSValue.vstr "7")]])).2.1
      "x.csv" (.vstr "")).1 = .ok (jarr [jobj [("a", JSValue.vnum 7)]]) ∧
    jarr [jobj [("a", JSValue.vnum 7)]] ≠ jarr [jobj [("a", JSValue.vstr "7")]] := by
  refine ⟨rfl, rfl, ?_⟩
  intro h
  simp only [jarr, jobj, jarrOf, jobjOf] at h
  injection h with h1
  injection h1 with h2 h3
  injection h2 with h4
  injection h4 with h5 h6 h7
  injection h6

end DbFs
